import Mathlib

/-!
# cstring.h: a shallow embedding and its verification

The C header `src/cstring.h` implements a growable string (`struct string`) and a
process-wide allocation table.  This file embeds the functions of the header as
executable Lean functions and proves properties of them.

Modelling conventions

* A `uint32` value is a `Nat`; every `uint32` computation of the source is wrapped in
  `u32` (reduction modulo `2 ^ 32`).  `size_t` is taken wider than `uint32`, so a C string
  may hold `2 ^ 32` bytes or more and `strlen` is cut down when it is stored in a `uint32`.
* A heap block is the list of its bytes; the length of the list is the allocated size.
  A `char *` is the list of bytes from the pointer to the end of its block (so `p + i`
  is `p.drop i`).
* A function returns `none` when the C code has no defined result: a read or a write
  outside a block, a null dereference, `verify` ending the process, or recursion that
  does not come back within the given call depth (`fuel`).
* Pointer arguments are taken non-null (`verify` ends the process otherwise).  In the
  type `string` a structure holds the bytes of its block, which fits the source as long
  as no two structures point to one block: the source assigns the field `str` only from
  a fresh `calloc` (lines 167 and 436).  Where the question is whether two structures
  share a block (`copy`), the functions are embedded with the blocks by address (`Mem`,
  `cstring_at`, `copy_at`, `insert_at`, `set_at`, `rem_at`, `clear_at`), and there the
  separation is proved, not assumed.  The two embeddings agree on one structure
  (`insert_at_look`, `through_look`).
* The text argument of `insert`, `append` and `prepend` lies outside the block of the
  string; `concat(s, s)`, where it does not, is embedded on its own (`concat_self`).
* The `int` counter of line 427 has no defined result when it passes `2 ^ 31 - 1`.
* Where a claim is about a read of the byte that follows a block, that byte is a
  parameter of the statement (`behind`).
* `calloc` is assumed to succeed (the source ends the process otherwise).
* The `string` structures live on a heap indexed by address; `free` of a structure
  leaves `none` at its address, and a use of a freed structure has no defined result.
* The mutex is not modelled: every function is run on its own.
-/

namespace Cstring

/-! ## Constants and machine integers -/

/-- One byte of storage: a C `char` seen as its bit pattern. -/
abbrev Byte := Fin 256

/-- Return constant `CSTRING_SUC`. -/
def CSTRING_SUC : Nat := 1

/-- Return constant `CSTRING_ERR`. -/
def CSTRING_ERR : Nat := 0

/-- Return constant `CSTRING_EOL`. -/
def CSTRING_EOL : Int := -1

/-- Allocation constant `CSTRING_EXT`. -/
def CSTRING_EXT : Nat := 2

/-- Allocation constant `CSTRING_ALC`. -/
def CSTRING_ALC : Nat := 15

/-- Value of a `uint32` expression: the arithmetic wraps modulo `2 ^ 32`. -/
def u32 (n : Nat) : Nat := n % 2 ^ 32

/-- Conversion of an integer constant or a pointer difference to `int32`. -/
def toInt32 (n : Nat) : Int :=
  if u32 n < 2 ^ 31 then (u32 n : Int) else (u32 n : Int) - 2 ^ 32

/-- Conversion of an integer constant to `char`. -/
def toChar (n : Nat) : Byte := Fin.ofNat n

/-! ## Memory blocks and the C library -/

/-- Library `calloc(1, n)`: a fresh block of `n` zero bytes. -/
def calloc (n : Nat) : List Byte := List.replicate n 0

/-- Read `p[i]`; `none` when `i` lies outside the block. -/
def rd (p : List Byte) (i : Nat) : Option Byte := p[i]?

/-- Write `p[i] = b`; `none` when `i` lies outside the block. -/
def wr (p : List Byte) (i : Nat) (b : Byte) : Option (List Byte) :=
  if i < p.length then some (p.set i b) else none

/-- Library `strlen(p)`: the index of the first zero byte; `none` when the block holds
no zero byte at or after `p` (the scan leaves the block). -/
def strlen : List Byte → Option Nat
  | [] => none
  | b :: p => if b = 0 then some 0 else (strlen p).map (· + 1)

/-- Library `memset(p, v, n)`. -/
def memset (p : List Byte) (v : Byte) (n : Nat) : Option (List Byte) :=
  if n ≤ p.length then some (List.replicate n v ++ p.drop n) else none

/-- Library `strncpy(dst, src, n)`: copies bytes of `src` up to its terminator and
fills the rest of the `n` bytes with zeros. -/
def strncpy : List Byte → List Byte → Nat → Option (List Byte)
  | dst, _, 0 => some dst
  | [], _, _ + 1 => none
  | _ :: _, [], _ + 1 => none
  | d :: dst, b :: src, n + 1 =>
    if b = 0 then memset (d :: dst) 0 (n + 1)
    else (strncpy dst src n).map (b :: ·)

/-- The bytes of the C string at `p` (terminator excluded). -/
def cstr (p : List Byte) : Option (List Byte) := (strlen p).map p.take

/-- Offset of the first place where `n` starts in `h`, if any. -/
def firstOcc (n : List Byte) : List Byte → Option Nat
  | [] => if n.isPrefixOf [] then some 0 else none
  | b :: t => if n.isPrefixOf (b :: t) then some 0 else (firstOcc n t).map (· + 1)

/-- Library `strstr(h, n)`: the offset from `h` of the first occurrence of the C string
`n` in the C string `h` (`some none` is the null result); both arguments must be
terminated inside their blocks. -/
def strstr (h n : List Byte) : Option (Option Nat) :=
  match cstr h, cstr n with
  | some hs, some ns => some (firstOcc ns hs)
  | _, _ => none

/-! ## The string structure -/

/-- The C `struct string`: `str` is the block that the field `str` points to. -/
structure string where
  str : List Byte
  cap : Nat
  len : Nat
  ind : Nat
deriving DecidableEq

/-- The logical content: the first `len` bytes of the storage. -/
def content (s : string) : List Byte := s.str.take s.len

/-! ## insert -/

/-- Inner loop of `insert`, lines 403-405, for a fixed `i`:
`for (j = s->len; j > k; --j) str[j + i] = str[j + i - 1]`; the first argument is `j`. -/
def shift_inner (i k : Nat) : Nat → List Byte → Option (List Byte)
  | 0, m => some m
  | j + 1, m =>
    if j + 1 > k then
      match rd m (u32 (j + 1 + i - 1)) with
      | none => none
      | some b =>
        match wr m (u32 (j + 1 + i)) b with
        | none => none
        | some m1 => shift_inner i k j m1
    else some m

/-- Outer loop of `insert`, lines 401-406: `n` iterations are left and the counter is
at `i`. -/
def shift_outer (k len : Nat) : Nat → Nat → List Byte → Option (List Byte)
  | 0, _, m => some m
  | n + 1, i, m =>
    match shift_inner i k len m with
    | none => none
    | some m1 => shift_outer k len n (i + 1) m1

/-- Loop of lines 410-412: `str[k + i] = c[i]`; `n` iterations are left. -/
def copy_in (k : Nat) (c : List Byte) : Nat → Nat → List Byte → Option (List Byte)
  | 0, _, m => some m
  | n + 1, i, m =>
    match rd c i with
    | none => none
    | some b =>
      match wr m (u32 (k + i)) b with
      | none => none
      | some m1 => copy_in k c n (i + 1) m1

/-- Loop of lines 427-429: `new_str[i] = s->str[i]`; `n` iterations are left.  The
counter is an `int` that the loop test compares as unsigned: the step `i++` after the
body has no defined result when it would pass `INT_MAX = 2 ^ 31 - 1`. -/
def copy_old (old : List Byte) : Nat → Nat → List Byte → Option (List Byte)
  | 0, _, m => some m
  | n + 1, i, m =>
    match rd old i with
    | none => none
    | some b =>
      match wr m i b with
      | none => none
      | some m1 => if i + 1 < 2 ^ 31 then copy_old old n (i + 1) m1 else none

/-- The function `insert(s, c, k)`, lines 380-445.  The result is the returned value and
the structure after the call.  `fuel` bounds the depth of the retry at line 440, whose
returned value the source drops. -/
def insert : Nat → string → List Byte → Nat → Option (Nat × string)
  | 0, _, _, _ => none
  | fuel + 1, s, c, k =>
    if k > s.len then some (CSTRING_ERR, s)
    else
      match strlen c with
      | none => none
      | some n =>
        let req_len := u32 n
        let str_mem := s.cap
        let req_mem := u32 (s.len + req_len)
        if str_mem ≥ req_mem then
          match (if k < s.len then shift_outer k s.len req_len 0 s.str else some s.str) with
          | none => none
          | some m1 =>
            match copy_in k c req_len 0 m1 with
            | none => none
            | some m2 =>
              some (CSTRING_SUC, { s with str := m2, len := u32 (s.len + req_len) })
        else
          let new_mem := u32 (req_mem + CSTRING_ALC)
          match copy_old s.str s.len 0 (calloc new_mem) with
          | none => none
          | some m =>
            match insert fuel { s with str := m, cap := new_mem } c k with
            | none => none
            | some (_, s1) => some (CSTRING_SUC, s1)

/-- The function `append(s, c)`, lines 451-457. -/
def append (fuel : Nat) (s : string) (c : List Byte) : Option (Nat × string) :=
  insert fuel s c s.len

/-- The function `concat(s1, s2)`, lines 475-480, for two different structures. -/
def concat (fuel : Nat) (s1 s2 : string) : Option (Nat × string) :=
  append fuel s1 s2.str

/-! ## find, get, rem, set, clear -/

/-- The function `find(s, c)`, lines 488-497. -/
def find (s : string) (c : List Byte) : Option Int :=
  match strstr s.str c with
  | none => none
  | some (some pos) => some (toInt32 pos)
  | some none => some CSTRING_EOL

/-- The function `get(s, i)`, lines 503-509. -/
def get (s : string) (i : Nat) : Option Byte :=
  if i ≥ s.len then some (toChar CSTRING_ERR) else rd s.str i

/-- Loop of lines 528-530: `str[j] = str[j + 1]`; `n` iterations are left. -/
def shift_left : Nat → Nat → List Byte → Option (List Byte)
  | 0, _, m => some m
  | n + 1, j, m =>
    match rd m (u32 (j + 1)) with
    | none => none
    | some b =>
      match wr m j b with
      | none => none
      | some m1 => shift_left n (j + 1) m1

/-- The function `rem(s, i)`, lines 515-538.  On the branch that shifts, `s->len` is
above `i`, so `s->len -= 1` does not wrap below zero. -/
def rem (s : string) (i : Nat) : Option (Byte × string) :=
  if i ≥ s.len then some (toChar CSTRING_ERR, s)
  else
    match rd s.str i with
    | none => none
    | some rc =>
      match shift_left (s.len - i) i s.str with
      | none => none
      | some m => some (rc, { s with str := m, len := u32 (s.len - 1) })

/-- The function `set(s, i, c)`, lines 544-562. -/
def set (s : string) (i : Nat) (c : Byte) : Option (Byte × string) :=
  if i ≥ s.len then some (toChar CSTRING_ERR, s)
  else
    match rd s.str i with
    | none => none
    | some oc =>
      match wr s.str i c with
      | none => none
      | some m => some (oc, { s with str := m })

/-- The function `clear(s)`, lines 246-255. -/
def clear (s : string) : Option string :=
  match memset s.str 0 s.cap with
  | none => none
  | some m => some { s with str := m, len := 0 }

/-! ## The heap of structures and the allocation table -/

/-- The state of the process: the `string` structures on the heap, by address (`none`
is a freed one), and the globals of lines 33-34.  The table is `none` when the pointer
to it is null; an entry is the address of a structure or `none` for a null entry.  The
source names the table `cstring_allocs` where it declares and initialises it and
`allocs` everywhere else; both are read as the one table. -/
structure World where
  heap : List (Option string)
  allocs : Option (List (Option Nat))
  max_allocs : Nat
  num_allocs : Nat
deriving DecidableEq

/-- The structure that the pointer `h` refers to. -/
def deref (W : World) (h : Nat) : Option string := (W.heap[h]?).join

/-- Write the structure at address `h`. -/
def store (W : World) (h : Nat) (s : string) : World :=
  { W with heap := W.heap.set h (some s) }

/-- A call of a function of the header that works on the one structure `h` points to. -/
def call {α : Type} (W : World) (h : Nat) (f : string → Option (α × string)) :
    Option (α × World) :=
  match deref W h with
  | none => none
  | some s =>
    match f s with
    | none => none
    | some (r, s1) => some (r, store W h s1)

/-- The function `cstring_init`, lines 570-585: the state at program start. -/
def cstring_init : World :=
  { heap := [], allocs := some (List.replicate CSTRING_ALC none),
    max_allocs := CSTRING_ALC, num_allocs := 0 }

/-- Loop of `add_alloc`, lines 76-92: `n` iterations are left and the counter is at
`i`. -/
def add_alloc_scan (h : Nat) : Nat → Nat → World → Option World
  | 0, _, W => some W
  | n + 1, i, W =>
    match W.allocs with
    | none => none
    | some t =>
      match t[i]? with
      | none => none
      | some (some _) => add_alloc_scan h n (i + 1) W
      | some none =>
        match deref W h with
        | none => none
        | some s =>
          some { heap := W.heap.set h (some { s with ind := i }),
                 allocs := some (t.set i (some h)),
                 max_allocs := W.max_allocs,
                 num_allocs := if i > W.num_allocs then i else W.num_allocs }

/-- Loop of `add_alloc`, lines 101-103: `new_allocs[i] = allocs[i]`. -/
def add_alloc_copy (old : Option (List (Option Nat))) :
    Nat → Nat → List (Option Nat) → Option (List (Option Nat))
  | 0, _, t => some t
  | n + 1, i, t =>
    match old with
    | none => none
    | some o =>
      match o[i]? with
      | none => none
      | some e => if i < t.length then add_alloc_copy old n (i + 1) (t.set i e) else none

/-- The function `add_alloc(s)`, lines 69-117; `fuel` bounds the depth of the retry at
line 115. -/
def add_alloc : Nat → World → Nat → Option World
  | 0, _, _ => none
  | fuel + 1, W, h =>
    if u32 (W.num_allocs + 1) < W.max_allocs then
      add_alloc_scan h W.max_allocs 0 W
    else
      let new_max := u32 (W.max_allocs * CSTRING_EXT)
      match add_alloc_copy W.allocs W.max_allocs 0 (List.replicate new_max none) with
      | none => none
      | some t => add_alloc fuel { W with allocs := some t, max_allocs := new_max } h

/-- Loop of `remove_alloc`, lines 134-140: `n` iterations are left and the counter is
at `i`; the first entry equal to `h` is cleared. -/
def remove_alloc_scan (h : Nat) : Nat → Nat → List (Option Nat) → Option (List (Option Nat))
  | 0, _, t => some t
  | n + 1, i, t =>
    match t[i]? with
    | none => none
    | some e => if e = some h then some (t.set i none) else remove_alloc_scan h n (i + 1) t

/-- The function `remove_alloc(s)`, lines 123-141.  The test of line 128 reads
`allocs[s->ind]` only when `s->ind < max_allocs`; a null table is dereferenced as soon
as an entry is read. -/
def remove_alloc (W : World) (h : Nat) : Option World :=
  match deref W h with
  | none => none
  | some s =>
    match W.allocs with
    | none => if W.max_allocs = 0 then some W else none
    | some t =>
      if s.ind < W.max_allocs then
        match t[s.ind]? with
        | none => none
        | some e =>
          if e = some h then some { W with allocs := some (t.set s.ind none) }
          else (remove_alloc_scan h W.max_allocs 0 t).map (fun t1 => { W with allocs := some t1 })
      else (remove_alloc_scan h W.max_allocs 0 t).map (fun t1 => { W with allocs := some t1 })

/-- The function `delete(s)`, lines 261-281: the structure leaves the table and is
freed together with its block. -/
def delete (W : World) (h : Nat) : Option World :=
  match remove_alloc W h with
  | none => none
  | some W1 => some { W1 with heap := W1.heap.set h none }

/-- Loop of `delete_all`, lines 294-304, on the heap and the table: `n` iterations are
left and the counter is at `i`. -/
def delete_all_loop :
    Nat → Nat → List (Option string) → List (Option Nat) →
      Option (List (Option string) × List (Option Nat))
  | 0, _, hp, t => some (hp, t)
  | n + 1, i, hp, t =>
    match t[i]? with
    | none => none
    | some none => delete_all_loop n (i + 1) hp t
    | some (some h) =>
      match (hp[h]?).join with
      | none => none
      | some _ => delete_all_loop n (i + 1) (hp.set h none) (t.set i none)

/-- The function `delete_all()`, lines 287-313: every structure in the table is freed,
then the table itself, and the pointer to it is set to null; `max_allocs` and
`num_allocs` are not written. -/
def delete_all (W : World) : Option World :=
  match W.allocs with
  | none => some W
  | some t =>
    match delete_all_loop W.max_allocs 0 W.heap t with
    | none => none
    | some (hp, _) => some { W with heap := hp, allocs := none }

/-- The function `cstring(istr)`, lines 149-200; `istr` is `none` for a null argument.
The result is the address of the new structure and the state after the call. -/
def cstring (fuel : Nat) (W : World) (istr : Option (List Byte)) : Option (Nat × World) :=
  match (match istr with
         | none => some 0
         | some p => (strlen p).map u32) with
  | none => none
  | some init_len =>
    let init_mem := match istr with
      | none => CSTRING_ALC
      | some _ => u32 (CSTRING_ALC + init_len)
    match (match istr with
           | none => some (calloc init_mem)
           | some p => strncpy (calloc init_mem) p init_len) with
    | none => none
    | some m =>
      let s : string := { str := m, cap := init_mem, len := init_len, ind := 0 }
      match add_alloc fuel { W with heap := W.heap ++ [some s] } W.heap.length with
      | none => none
      | some W1 => some (W.heap.length, W1)

/-- The function `substrn(s, i, j)`, lines 345-372.  `dup[j - i]` is the byte at index
`i + (j - i)` of the block of `s`; the first component of the result is `none` for the
null pointer. -/
def substrn (fuel : Nat) (W : World) (h i j : Nat) : Option (Option Nat × World) :=
  match deref W h with
  | none => none
  | some s =>
    if i < j ∧ j ≤ s.len then
      match rd s.str (i + u32 (j - i)) with
      | none => none
      | some rc =>
        match wr s.str (i + u32 (j - i)) 0 with
        | none => none
        | some m1 =>
          match cstring fuel (store W h { s with str := m1 }) (some (m1.drop i)) with
          | none => none
          | some (sub, W1) =>
            match deref W1 h with
            | none => none
            | some s1 =>
              match wr s1.str (i + u32 (j - i)) rc with
              | none => none
              | some m2 => some (some sub, store W1 h { s1 with str := m2 })
    else some (none, W)

/-- The function `substr(s, i)`, lines 333-339; the first component of the result is
`none` for the null pointer. -/
def substr (fuel : Nat) (W : World) (h i : Nat) : Option (Option Nat × World) :=
  match deref W h with
  | none => none
  | some s =>
    if i ≥ s.len then some (none, W)
    else
      match cstring fuel W (some (s.str.drop i)) with
      | none => none
      | some (sub, W1) => some (some sub, W1)

/-- Loop of lines 410-412 when `c` is the block of `s` itself, as in `concat(s, s)`:
`str[k + i] = str[i]`, read from the block as it stands; `n` iterations are left. -/
def copy_self (k : Nat) : Nat → Nat → List Byte → Option (List Byte)
  | 0, _, m => some m
  | n + 1, i, m =>
    match rd m i with
    | none => none
    | some b =>
      match wr m (u32 (k + i)) b with
      | none => none
      | some m1 => copy_self k n (i + 1) m1

/-- The call `concat(s, s)`, that is `insert(s, s->str, s->len)` (lines 475-480, 451-457
and 380-445) with `c` pointing into the block of `s`.  With `k = len` nothing is shifted.
When the capacity suffices the copy loop reads the block it writes; when it does not,
line 432 frees the block that `c` points to and the retry at line 440 reads it, so the
call has no defined result. -/
def concat_self : Nat → string → Option (Nat × string)
  | 0, _ => none
  | _ + 1, s =>
    match strlen s.str with
    | none => none
    | some n =>
      let req_len := u32 n
      let req_mem := u32 (s.len + req_len)
      if s.cap ≥ req_mem then
        match copy_self s.len req_len 0 s.str with
        | none => none
        | some m => some (CSTRING_SUC, { s with str := m, len := u32 (s.len + req_len) })
      else none

/-- The call `concat(s1, s2)` on two addresses: `append(s1, s2->str)`.  On two different
structures `s2->str` is a block that the call does not write; on one and the same
structure it is the block of `s1` itself (`concat_self`). -/
def concat_at (fuel : Nat) (W : World) (h1 h2 : Nat) : Option (Nat × World) :=
  if h1 = h2 then call W h1 (concat_self fuel)
  else
    match deref W h2 with
    | none => none
    | some s2 => call W h1 (fun s1 => concat fuel s1 s2)

/-! ## Predicates of the statements -/

/-- The bytes of an ASCII text, for examples. -/
def bytes (t : String) : List Byte := t.toList.map (fun ch => Fin.ofNat ch.toNat)

/-- A byte sequence without a zero byte: what a C string holds before its terminator. -/
def zeroFree (l : List Byte) : Prop := ∀ b ∈ l, b ≠ 0

/-- Representation invariant of a structure: `cap` is the size of the block, `len` does
not exceed it, and `cap` is a `uint32`. -/
def wf (s : string) : Prop := s.str.length = s.cap ∧ s.len ≤ s.cap ∧ s.cap < 2 ^ 32

/-- The storage past the logical length is zero. -/
def padded (s : string) : Prop := ∀ b ∈ s.str.drop s.len, b = 0

/-- The allocation table is allocated with `max_allocs` entries, the high-water mark
lies inside it and doubling the table stays within `uint32`. -/
def RegOK (W : World) : Prop :=
  ∃ t, W.allocs = some t ∧ t.length = W.max_allocs ∧ W.num_allocs < W.max_allocs ∧
    W.max_allocs * CSTRING_EXT < 2 ^ 32

/-- The bytes `cs` stand in `t` from offset `r` on. -/
def occursAt (cs t : List Byte) (r : Nat) : Prop := cs <+: t.drop r

/-- The structure that `cstring(NULL)` builds. -/
def emptyString : string :=
  { str := calloc CSTRING_ALC, cap := CSTRING_ALC, len := 0, ind := 0 }

/-- A text of `2 ^ 32` bytes, none of them zero. -/
def hugeText : List Byte := List.replicate (2 ^ 32) 1

/-- Fifteen bytes `'a'`. -/
def fifteen : List Byte := List.replicate 15 97

/-- The state after `cstring("hello world")` at program start. -/
def helloWorld : World :=
  { heap := [some { str := bytes "hello world" ++ calloc 15, cap := 26, len := 11, ind := 0 }],
    allocs := some (some 0 :: List.replicate 14 none), max_allocs := 15, num_allocs := 0 }

/-- The structure after `cstring("hello")`. -/
def helloString : string :=
  { str := bytes "hello" ++ calloc 15, cap := 20, len := 5, ind := 0 }

/-- The state after `cstring("hello")` and `cstring(" world")` at program start. -/
def twoStrings : World :=
  { heap := [some helloString,
             some { str := bytes " world" ++ calloc 15, cap := 21, len := 6, ind := 1 }],
    allocs := some (some 0 :: some 1 :: List.replicate 13 none),
    max_allocs := 15, num_allocs := 1 }

/-- The structure after `cstring("hello world")`. -/
def helloWorldString : string :=
  { str := bytes "hello world" ++ calloc 15, cap := 26, len := 11, ind := 0 }

/-- The calls `cstring(a)` for the arguments `a` of a list, one after the other; the
result is the list of the addresses returned and the final state. -/
def creates (fuel : Nat) : List (Option (List Byte)) → World → Option (List Nat × World)
  | [], W => some ([], W)
  | a :: as, W =>
    match cstring fuel W a with
    | none => none
    | some (h, W1) =>
      match creates fuel as W1 with
      | none => none
      | some (hs, W2) => some (h :: hs, W2)

/-- The states that calls of `cstring` and `delete` reach from the state at program
start. -/
inductive Reachable : World → Prop
  | start : Reachable cstring_init
  | create (fuel : Nat) (W : World) (a : Option (List Byte)) (h : Nat) (W1 : World) :
      Reachable W → cstring fuel W a = some (h, W1) → Reachable W1
  | destroy (W : World) (h : Nat) (W1 : World) :
      Reachable W → delete W h = some W1 → Reachable W1

/-- An argument of `cstring` within the `uint32` range: the null pointer, or a text
without zero byte, then its terminator, with `|text| + 15 < 2 ^ 32`. -/
def okArg : Option (List Byte) → Prop
  | none => True
  | some p => ∃ cs rest, p = cs ++ 0 :: rest ∧ zeroFree cs ∧ cs.length + CSTRING_ALC < 2 ^ 32

/-- Slot `j` is the first empty slot of the table `t`. -/
def firstFree (t : List (Option Nat)) (j : Nat) : Prop :=
  t[j]? = some none ∧ ∀ p : Nat, p < j → t[p]? ≠ some none

/-- The state that lines 79-89 of `add_alloc` leave when they put the structure `s` at
address `h` into slot `j` of the table `t`. -/
def place (W : World) (h : Nat) (s : string) (t : List (Option Nat)) (j : Nat) : World :=
  { heap := W.heap.set h (some { s with ind := j }),
    allocs := some (t.set j (some h)),
    max_allocs := W.max_allocs,
    num_allocs := if j > W.num_allocs then j else W.num_allocs }

/-- The state that lines 96-112 of `add_alloc` leave: the table `t` is replaced by one
of `CSTRING_EXT` times the capacity that starts with the entries of `t`. -/
def grown (W : World) (t : List (Option Nat)) : World :=
  { W with allocs := some (t ++ List.replicate (W.max_allocs * CSTRING_EXT - t.length) none),
           max_allocs := W.max_allocs * CSTRING_EXT }

/-- The invariant of the allocation table: it is allocated with `max_allocs` entries,
the high-water mark `num_allocs` lies inside it, every occupied slot lies at or below the
high-water mark and holds a live structure whose `ind` is that slot, and every live
structure other than `pending` (one that `cstring` has built and not yet registered)
stands in the slot its `ind` names; `pending` stands in no slot. -/
def RegInv (W : World) (pending : Option Nat) : Prop :=
  ∃ t, W.allocs = some t ∧ t.length = W.max_allocs ∧ W.num_allocs < W.max_allocs ∧
    W.max_allocs < 2 ^ 32 ∧
    (∀ (i h : Nat), t[i]? = some (some h) →
      i ≤ W.num_allocs ∧ some h ≠ pending ∧ ∃ s, deref W h = some s ∧ s.ind = i) ∧
    (∀ (h : Nat) (s : string), deref W h = some s → some h ≠ pending →
      t[s.ind]? = some (some h))

/-- The largest table capacity whose double is a `uint32`: the initial capacity 15
doubled 28 times. -/
def maxTable : Nat := CSTRING_ALC * 2 ^ 28

/-- The table after `K` calls of `cstring` and no `delete`: slots `0 .. K - 1` hold the
structures at the addresses `0 .. K - 1`, the other slots are empty, the high-water mark
is `K - 1` and the capacity is 15 doubled some number of times. -/
def Filled (K : Nat) (W : World) : Prop :=
  W.num_allocs = K - 1 ∧ K ≤ W.max_allocs ∧ W.max_allocs ≤ maxTable ∧
  (∃ k, W.max_allocs = CSTRING_ALC * 2 ^ k) ∧
  ∃ t, W.allocs = some t ∧ t.length = W.max_allocs ∧
    (∀ i : Nat, i < K → t[i]? = some (some i) ∧ ∃ s, deref W i = some s ∧ s.ind = i) ∧
    (∀ i : Nat, K ≤ i → i < W.max_allocs → t[i]? = some none)

/-- The indices of `s->str` that `rem(s, i)` reads or writes, lines 520-530, in the
order of the accesses: `str[i]`, then `str[j + 1]` and `str[j]` for `j` from `i` to
`len - 1`. -/
def rem_accesses (s : string) (i : Nat) : List Nat :=
  if i ≥ s.len then []
  else i :: ((List.range (s.len - i)).map (fun d => [u32 (i + d + 1), i + d])).flatten

/-- The index of `s->str` at which `substrn(s, i, j)` puts its temporary terminator and
restores the byte, lines 355, 358 and 364: `dup[j - i]` with `dup = s->str + i`. -/
def substrn_terminator (i j : Nat) : Nat := i + u32 (j - i)

/-- The structure after `cstring(NULL)` and `append` of fifteen bytes `'a'`: the block
of 15 bytes is full. -/
def fullString : string := { str := fifteen, cap := 15, len := 15, ind := 0 }

/-- The state after `cstring("hello")`, `cstring(" world")` and `delete` of the first
string: slot 0 is empty again and the high-water mark stays at 1. -/
def oneLeft : World :=
  { heap := [none, some { str := bytes " world" ++ calloc 15, cap := 21, len := 6, ind := 1 }],
    allocs := some (none :: some 1 :: List.replicate 13 none),
    max_allocs := 15, num_allocs := 1 }

/-- The C structure `string` as it lies in memory: the field `str` is a pointer, here
the address of a heap block. -/
structure pstring where
  str : Nat
  cap : Nat
  len : Nat
  ind : Nat
deriving DecidableEq

/-- The state of the process with the blocks held by address: the heap blocks (`none`
is a freed one), the `string` structures (`none` is a freed one), and the globals of
lines 33-34.  Two structures whose `str` fields hold the same address share their
bytes.  A block that `calloc` returns gets an address that no block had before. -/
structure Mem where
  blocks : List (Option (List Byte))
  structs : List (Option pstring)
  allocs : Option (List (Option Nat))
  max_allocs : Nat
  num_allocs : Nat
deriving DecidableEq

/-- The structure at address `h`. -/
def struct_at (M : Mem) (h : Nat) : Option pstring := (M.structs[h]?).join

/-- The bytes of the block at address `a`. -/
def block_at (M : Mem) (a : Nat) : Option (List Byte) := (M.blocks[a]?).join

/-- The structure at address `h` together with the bytes that its `str` points to. -/
def look (M : Mem) (h : Nat) : Option string :=
  match struct_at M h with
  | none => none
  | some p =>
    match block_at M p.str with
    | none => none
    | some b => some { str := b, cap := p.cap, len := p.len, ind := p.ind }

/-- A call of a function of the header that reads and writes the bytes through `s->str`
and does not assign the pointer: the bytes it leaves are those of the block at that
address. -/
def through {α : Type} (M : Mem) (h : Nat) (f : string → Option (α × string)) :
    Option (α × Mem) :=
  match struct_at M h with
  | none => none
  | some p =>
    match block_at M p.str with
    | none => none
    | some b =>
      match f { str := b, cap := p.cap, len := p.len, ind := p.ind } with
      | none => none
      | some (r, s1) =>
        some (r, { M with blocks := M.blocks.set p.str (some s1.str),
                          structs := M.structs.set h
                            (some { p with cap := s1.cap, len := s1.len, ind := s1.ind }) })

/-- The function `set(s, i, c)`, lines 544-562, on the structure at address `h`. -/
def set_at (M : Mem) (h i : Nat) (c : Byte) : Option (Byte × Mem) :=
  through M h (fun s => set s i c)

/-- The function `rem(s, i)`, lines 515-538, on the structure at address `h`. -/
def rem_at (M : Mem) (h i : Nat) : Option (Byte × Mem) :=
  through M h (fun s => rem s i)

/-- The function `clear(s)`, lines 246-255, on the structure at address `h`. -/
def clear_at (M : Mem) (h : Nat) : Option (Unit × Mem) :=
  through M h (fun s => (clear s).map (fun y => ((), y)))

/-- The function `insert(s, c, k)`, lines 380-445, on the structure at address `h`.  The
in-place branch writes the block that `s->str` points to; the other branch fills a new
block (line 422), frees the old one (line 432) and assigns the pointer (line 436). -/
def insert_at : Nat → Mem → Nat → List Byte → Nat → Option (Nat × Mem)
  | 0, _, _, _, _ => none
  | fuel + 1, M, h, c, k =>
    match struct_at M h with
    | none => none
    | some p =>
      match block_at M p.str with
      | none => none
      | some b =>
        if k > p.len then some (CSTRING_ERR, M)
        else
          match strlen c with
          | none => none
          | some n =>
            let req_len := u32 n
            let str_mem := p.cap
            let req_mem := u32 (p.len + req_len)
            if str_mem ≥ req_mem then
              match (if k < p.len then shift_outer k p.len req_len 0 b else some b) with
              | none => none
              | some m1 =>
                match copy_in k c req_len 0 m1 with
                | none => none
                | some m2 =>
                  some (CSTRING_SUC,
                    { M with blocks := M.blocks.set p.str (some m2),
                             structs := M.structs.set h
                               (some { p with len := u32 (p.len + req_len) }) })
            else
              let new_mem := u32 (req_mem + CSTRING_ALC)
              match copy_old b p.len 0 (calloc new_mem) with
              | none => none
              | some m =>
                match insert_at fuel
                    { M with blocks := (M.blocks ++ [some m]).set p.str none,
                             structs := M.structs.set h
                               (some { p with str := M.blocks.length, cap := new_mem }) }
                    h c k with
                | none => none
                | some (_, M2) => some (CSTRING_SUC, M2)

/-- Loop of `add_alloc`, lines 76-92, on the structure at address `h`: `n` iterations
are left and the counter is at `i`. -/
def add_alloc_scan_at (h : Nat) : Nat → Nat → Mem → Option Mem
  | 0, _, M => some M
  | n + 1, i, M =>
    match M.allocs with
    | none => none
    | some t =>
      match t[i]? with
      | none => none
      | some (some _) => add_alloc_scan_at h n (i + 1) M
      | some none =>
        match struct_at M h with
        | none => none
        | some p =>
          some { blocks := M.blocks,
                 structs := M.structs.set h (some { p with ind := i }),
                 allocs := some (t.set i (some h)),
                 max_allocs := M.max_allocs,
                 num_allocs := if i > M.num_allocs then i else M.num_allocs }

/-- The function `add_alloc(s)`, lines 69-117, on the structure at address `h`. -/
def add_alloc_at : Nat → Mem → Nat → Option Mem
  | 0, _, _ => none
  | fuel + 1, M, h =>
    if u32 (M.num_allocs + 1) < M.max_allocs then
      add_alloc_scan_at h M.max_allocs 0 M
    else
      let new_max := u32 (M.max_allocs * CSTRING_EXT)
      match add_alloc_copy M.allocs M.max_allocs 0 (List.replicate new_max none) with
      | none => none
      | some t => add_alloc_at fuel { M with allocs := some t, max_allocs := new_max } h

/-- The function `cstring(istr)`, lines 149-200, with the blocks by address: the new
structure points to the block that line 167 allocates. -/
def cstring_at (fuel : Nat) (M : Mem) (istr : Option (List Byte)) : Option (Nat × Mem) :=
  match (match istr with
         | none => some 0
         | some p => (strlen p).map u32) with
  | none => none
  | some init_len =>
    let init_mem := match istr with
      | none => CSTRING_ALC
      | some _ => u32 (CSTRING_ALC + init_len)
    match (match istr with
           | none => some (calloc init_mem)
           | some p => strncpy (calloc init_mem) p init_len) with
    | none => none
    | some m =>
      let p : pstring := { str := M.blocks.length, cap := init_mem, len := init_len, ind := 0 }
      match add_alloc_at fuel
          { M with blocks := M.blocks ++ [some m], structs := M.structs ++ [some p] }
          M.structs.length with
      | none => none
      | some M1 => some (M.structs.length, M1)

/-- The function `copy(s)`, lines 321-327, on the structure at address `h`:
`cstring(s->str)` reads the bytes of the block of `s`. -/
def copy_at (fuel : Nat) (M : Mem) (h : Nat) : Option (Nat × Mem) :=
  match look M h with
  | none => none
  | some s => cstring_at fuel M (some s.str)

/-- The state of `cstring_init`, lines 570-585, with the blocks by address. -/
def mem_init : Mem :=
  { blocks := [], structs := [], allocs := some (List.replicate CSTRING_ALC none),
    max_allocs := CSTRING_ALC, num_allocs := 0 }

/-- Some calls of `insert`, `set`, `rem` and `clear` on the structure at address `h`,
one after the other, lead from the first state to the second. -/
inductive Mutated (h : Nat) : Mem → Mem → Prop
  | refl (M : Mem) : Mutated h M M
  | insert (M M1 M2 : Mem) (fuel : Nat) (c : List Byte) (k r : Nat) :
      Mutated h M M1 → insert_at fuel M1 h c k = some (r, M2) → Mutated h M M2
  | set (M M1 M2 : Mem) (i : Nat) (c r : Byte) :
      Mutated h M M1 → set_at M1 h i c = some (r, M2) → Mutated h M M2
  | rem (M M1 M2 : Mem) (i : Nat) (r : Byte) :
      Mutated h M M1 → rem_at M1 h i = some (r, M2) → Mutated h M M2
  | clear (M M1 M2 : Mem) (r : Unit) :
      Mutated h M M1 → clear_at M1 h = some (r, M2) → Mutated h M M2

/-- The allocation table of a state with the blocks by address is allocated with
`max_allocs` entries, as in `RegOK`. -/
def MemOK (M : Mem) : Prop :=
  ∃ t, M.allocs = some t ∧ t.length = M.max_allocs ∧ M.num_allocs < M.max_allocs ∧
    M.max_allocs * CSTRING_EXT < 2 ^ 32

/-- The structure at `h` with its block and the structure at `h2` lie apart: they are
two structures, and `str` of the second does not point to the block `b` of the first. -/
def Apart (M : Mem) (h h2 : Nat) (p : pstring) (b : List Byte) : Prop :=
  h ≠ h2 ∧ struct_at M h = some p ∧ block_at M p.str = some b ∧
    ∃ q, struct_at M h2 = some q ∧ q.str ≠ p.str

/-- The state after `cstring("hello world")` at program start, with the blocks by
address. -/
def helloMem : Mem :=
  { blocks := [some (bytes "hello world" ++ calloc 15)],
    structs := [some { str := 0, cap := 26, len := 11, ind := 0 }],
    allocs := some (some 0 :: List.replicate 14 none), max_allocs := 15, num_allocs := 0 }

/-! ## Lemmas on the loops and the library -/

set_option maxRecDepth 8000

/-- A value below `2 ^ 32` is its own `uint32` value. -/
theorem u32_of_lt {n : Nat} (h : n < 2 ^ 32) : u32 n = n := Nat.mod_eq_of_lt h

/-- `strlen` of a zero-free text followed by a terminator is the length of the text. -/
theorem strlen_zeroFree (c rest : List Byte) (hc : zeroFree c) :
    strlen (c ++ 0 :: rest) = some c.length := by
  induction c with
  | nil => simp [strlen]
  | cons b t ih =>
    have hb : b ≠ 0 := hc b (by simp)
    have ht : zeroFree t := fun x hx => hc x (by simp [hx])
    simp [strlen, hb, ih ht]

/-- `strncpy` of a zero-free text of `n` bytes writes the text over the first `n` bytes. -/
theorem strncpy_zeroFree (c rest : List Byte) (hc : zeroFree c) :
    ∀ dst : List Byte, c.length ≤ dst.length →
      strncpy dst (c ++ rest) c.length = some (c ++ dst.drop c.length) := by
  induction c with
  | nil => intro dst _; simp [strncpy]
  | cons b t ih =>
    intro dst hn
    have hb : b ≠ 0 := hc b (by simp)
    have ht : zeroFree t := fun x hx => hc x (by simp [hx])
    cases dst with
    | nil => simp at hn
    | cons d dst =>
      have hn1 : t.length ≤ dst.length := by simpa using hn
      simp [strncpy, hb, ih ht dst hn1]

/-- The inner loop of `insert` moves the bytes at `[k + i, j + i)` one place to the
right and touches nothing else. -/
theorem shift_inner_spec (i k : Nat) :
    ∀ (j : Nat) (m : List Byte), j + i < m.length → j + i < 2 ^ 32 →
      ∃ m1, shift_inner i k j m = some m1 ∧ m1.length = m.length ∧
        ∀ p, m1[p]? = if k + i < p ∧ p ≤ j + i then m[p - 1]? else m[p]? := by
  intro j
  induction j with
  | zero =>
    intro m _ _
    refine ⟨m, by simp [shift_inner], rfl, fun p => ?_⟩
    split
    · omega
    · rfl
  | succ j ih =>
    intro m hm h32
    by_cases hk : j + 1 > k
    · have hr : rd m (u32 (j + 1 + i - 1)) = some m[j + i] := by
        have : j + 1 + i - 1 = j + i := by omega
        rw [this, u32_of_lt (by omega)]
        simp [rd, List.getElem?_eq_getElem (show j + i < m.length by omega)]
      have hw : wr m (u32 (j + 1 + i)) m[j + i] = some (m.set (j + 1 + i) m[j + i]) := by
        rw [u32_of_lt h32]; simp [wr, hm]
      obtain ⟨m1, h1, h2, h3⟩ := ih (m.set (j + 1 + i) m[j + i]) (by simp; omega) (by omega)
      have hr1 : rd m (u32 (j + i)) = some m[j + i] := by
        rw [← hr]; congr 2; omega
      refine ⟨m1, ?_, by simpa using h2, fun p => ?_⟩
      · simp [shift_inner, hk, hr, hr1, hw, h1]
      · rw [h3 p]
        by_cases hp : p = j + 1 + i
        · subst hp
          have c1 : ¬ (k + i < j + 1 + i ∧ j + 1 + i ≤ j + i) := by omega
          have c2 : (k + i < j + 1 + i ∧ j + 1 + i ≤ j + 1 + i) := by omega
          rw [if_neg c1, if_pos c2]
          have : j + 1 + i - 1 = j + i := by omega
          rw [this, List.getElem?_set_self (by omega)]
          exact (List.getElem?_eq_getElem (by omega)).symm
        · by_cases c1 : k + i < p ∧ p ≤ j + i
          · have c2 : k + i < p ∧ p ≤ j + 1 + i := by omega
            rw [if_pos c1, if_pos c2, List.getElem?_set_ne (by omega)]
          · have c2 : ¬ (k + i < p ∧ p ≤ j + 1 + i) := by omega
            rw [if_neg c1, if_neg c2, List.getElem?_set_ne (by omega)]
    · refine ⟨m, by simp [shift_inner, hk], rfl, fun p => ?_⟩
      split
      · omega
      · rfl

/-- The outer loop of `insert`, run `n` times from counter `i`, moves the bytes at
`[k + i, len + i)` by `n` places to the right; the bytes up to `k + i` and from
`len + i + n` on stay. -/
theorem shift_outer_spec (k len : Nat) :
    ∀ (n i : Nat) (m : List Byte), len + i + n ≤ m.length → len + i + n ≤ 2 ^ 32 →
      ∃ m1, shift_outer k len n i m = some m1 ∧ m1.length = m.length ∧
        (∀ p, p ≤ k + i → m1[p]? = m[p]?) ∧
        (∀ p, len + i + n ≤ p → m1[p]? = m[p]?) ∧
        (∀ q, k + i ≤ q → q < len + i → m1[q + n]? = m[q]?) := by
  intro n
  induction n with
  | zero =>
    intro i m _ _
    exact ⟨m, by simp [shift_outer], rfl, fun _ _ => rfl, fun _ _ => rfl, fun _ _ _ => rfl⟩
  | succ n ih =>
    intro i m hm h32
    obtain ⟨m0, a1, a2, a3⟩ := shift_inner_spec i k len m (by omega) (by omega)
    obtain ⟨m1, b1, b2, b3, b4, b5⟩ := ih (i + 1) m0 (by omega) (by omega)
    refine ⟨m1, by simp [shift_outer, a1, b1], by omega, fun p hp => ?_, fun p hp => ?_,
      fun q hq1 hq2 => ?_⟩
    · rw [b3 p (by omega), a3 p, if_neg (by omega)]
    · rw [b4 p (by omega), a3 p, if_neg (by omega)]
    · have := b5 (q + 1) (by omega) (by omega)
      rw [show q + (n + 1) = q + 1 + n by omega, this, a3 (q + 1), if_pos (by omega)]
      simp

/-- The copy loop of `insert` writes `cs[i .. i + n)` at `k + i` and touches nothing
else. -/
theorem copy_in_spec (k : Nat) (cs : List Byte) :
    ∀ (n i : Nat) (m : List Byte), i + n ≤ cs.length → k + i + n ≤ m.length →
      k + i + n ≤ 2 ^ 32 →
      ∃ m1, copy_in k cs n i m = some m1 ∧ m1.length = m.length ∧
        ∀ p, m1[p]? = if k + i ≤ p ∧ p < k + i + n then cs[p - k]? else m[p]? := by
  intro n
  induction n with
  | zero =>
    intro i m _ _ _
    refine ⟨m, by simp [copy_in], rfl, fun p => ?_⟩
    split
    · omega
    · rfl
  | succ n ih =>
    intro i m hcs hm h32
    have hr : rd cs i = some cs[i] := by
      simp [rd, List.getElem?_eq_getElem (show i < cs.length by omega)]
    have hw : wr m (u32 (k + i)) cs[i] = some (m.set (k + i) cs[i]) := by
      rw [u32_of_lt (by omega)]; simp [wr]; omega
    obtain ⟨m1, h1, h2, h3⟩ := ih (i + 1) (m.set (k + i) cs[i]) (by omega) (by simp; omega)
      (by omega)
    refine ⟨m1, by simp [copy_in, hr, hw, h1], by simpa using h2, fun p => ?_⟩
    rw [h3 p]
    by_cases hp : p = k + i
    · subst hp
      rw [if_neg (by omega), if_pos (by omega), List.getElem?_set_self (by omega)]
      simp [List.getElem?_eq_getElem (show i < cs.length by omega)]
    · by_cases c1 : k + (i + 1) ≤ p ∧ p < k + (i + 1) + n
      · rw [if_pos c1, if_pos (by omega)]
      · rw [if_neg c1, if_neg (by omega), List.getElem?_set_ne (by omega)]

/-- The copy loop of the reallocation writes `old[i .. i + n)` at the same indices, as
long as its `int` counter stays below `2 ^ 31`. -/
theorem copy_old_spec (old : List Byte) :
    ∀ (n i : Nat) (m : List Byte), i + n ≤ old.length → i + n ≤ m.length →
      i + n < 2 ^ 31 →
      ∃ m1, copy_old old n i m = some m1 ∧ m1.length = m.length ∧
        ∀ p, m1[p]? = if i ≤ p ∧ p < i + n then old[p]? else m[p]? := by
  intro n
  induction n with
  | zero =>
    intro i m _ _ _
    refine ⟨m, by simp [copy_old], rfl, fun p => ?_⟩
    split
    · omega
    · rfl
  | succ n ih =>
    intro i m ho hm hint
    have hr : rd old i = some old[i] := by
      simp [rd, List.getElem?_eq_getElem (show i < old.length by omega)]
    have hw : wr m i old[i] = some (m.set i old[i]) := by
      simp [wr]; omega
    have hstep : i + 1 < 2 ^ 31 := by omega
    obtain ⟨m1, h1, h2, h3⟩ := ih (i + 1) (m.set i old[i]) (by omega) (by simp; omega)
      (by omega)
    refine ⟨m1, by simp only [copy_old, hr, hw]; rw [if_pos hstep, h1], by simpa using h2,
      fun p => ?_⟩
    rw [h3 p]
    by_cases hp : p = i
    · subst hp
      rw [if_neg (by omega), if_pos (by omega), List.getElem?_set_self (by omega)]
      simp [List.getElem?_eq_getElem (show p < old.length by omega)]
    · by_cases c1 : i + 1 ≤ p ∧ p < i + 1 + n
      · rw [if_pos c1, if_pos (by omega)]
      · rw [if_neg c1, if_neg (by omega), List.getElem?_set_ne (by omega)]

/-- The loop of `rem`, run `n` times from `j`, moves the bytes at `(j, j + n]` one place
to the left and touches nothing else. -/
theorem shift_left_spec :
    ∀ (n j : Nat) (m : List Byte), j + n < m.length → j + n < 2 ^ 32 →
      ∃ m1, shift_left n j m = some m1 ∧ m1.length = m.length ∧
        ∀ p, m1[p]? = if j ≤ p ∧ p < j + n then m[p + 1]? else m[p]? := by
  intro n
  induction n with
  | zero =>
    intro j m _ _
    refine ⟨m, by simp [shift_left], rfl, fun p => ?_⟩
    split
    · omega
    · rfl
  | succ n ih =>
    intro j m hm h32
    have hr : rd m (u32 (j + 1)) = some m[j + 1] := by
      rw [u32_of_lt (by omega)]
      simp [rd, List.getElem?_eq_getElem (show j + 1 < m.length by omega)]
    have hw : wr m j m[j + 1] = some (m.set j m[j + 1]) := by
      simp [wr]; omega
    obtain ⟨m1, h1, h2, h3⟩ := ih (j + 1) (m.set j m[j + 1]) (by simp; omega) (by omega)
    refine ⟨m1, by simp [shift_left, hr, hw, h1], by simpa using h2, fun p => ?_⟩
    rw [h3 p]
    by_cases hp : p = j
    · subst hp
      rw [if_neg (by omega), if_pos (by omega), List.getElem?_set_self (by omega)]
      simp [List.getElem?_eq_getElem (show p + 1 < m.length by omega)]
    · by_cases c1 : j + 1 ≤ p ∧ p < j + 1 + n
      · rw [if_pos c1, if_pos (by omega), List.getElem?_set_ne (by omega)]
      · rw [if_neg c1, if_neg (by omega), List.getElem?_set_ne (by omega)]

theorem splice_take (m old cs : List Byte) (k len : Nat) (hk : k ≤ len)
    (hlen : len ≤ old.length)
    (h : ∀ p, p < len + cs.length → m[p]? =
      if p < k then old[p]? else if p < k + cs.length then cs[p - k]?
      else old[p - cs.length]?) :
    m.take (len + cs.length) = (old.take len).take k ++ cs ++ (old.take len).drop k := by
  apply List.ext_getElem?
  intro p
  have hl1 : ((old.take len).take k).length = k := by
    simp [List.length_take]; omega
  have hl2 : ((old.take len).take k ++ cs).length = k + cs.length := by
    simp [List.length_take]; omega
  by_cases hp : p < len + cs.length
  · rw [List.getElem?_take_of_lt hp, h p hp]
    by_cases h1 : p < k
    · rw [if_pos h1, List.getElem?_append_left (by omega),
        List.getElem?_append_left (by omega), List.getElem?_take_of_lt h1,
        List.getElem?_take_of_lt (by omega)]
    · rw [if_neg h1]
      by_cases h2 : p < k + cs.length
      · rw [if_pos h2, List.getElem?_append_left (by omega),
          List.getElem?_append_right (by omega), hl1]
      · rw [if_neg h2, List.getElem?_append_right (by omega), hl2, List.getElem?_drop,
          List.getElem?_take_of_lt (by omega)]
        congr 1; omega
  · rw [List.getElem?_eq_none (by simp [List.length_take]; omega),
      List.getElem?_eq_none (by simp [List.length_take]; omega)]

theorem drop_eq_of_getElem? (m old : List Byte) (n : Nat)
    (h : ∀ p, n ≤ p → m[p]? = old[p]?) : m.drop n = old.drop n := by
  apply List.ext_getElem?
  intro p
  rw [List.getElem?_drop, List.getElem?_drop]
  exact h (n + p) (by omega)

/-- `insert` when the capacity suffices: one call, in place. -/
theorem insert_fits (fuel : Nat) (s : string) (cs rest : List Byte) (k : Nat)
    (hwf : wf s) (hc : zeroFree cs) (hk : k ≤ s.len)
    (hfit : s.len + cs.length < 2 ^ 32) (hroom : s.len + cs.length ≤ s.cap) :
    ∃ m, insert (fuel + 1) s (cs ++ 0 :: rest) k =
        some (CSTRING_SUC, { s with str := m, len := s.len + cs.length }) ∧
      m.length = s.str.length ∧
      m.take (s.len + cs.length) =
        (s.str.take s.len).take k ++ cs ++ (s.str.take s.len).drop k ∧
      m.drop (s.len + cs.length) = s.str.drop (s.len + cs.length) := by
  obtain ⟨hblock, hlen, _⟩ := hwf
  have hn : u32 cs.length = cs.length := u32_of_lt (by omega)
  have hreq : u32 (s.len + cs.length) = s.len + cs.length := u32_of_lt hfit
  -- the right shift of the suffix
  have hshift : ∃ m1, (if k < s.len then shift_outer k s.len cs.length 0 s.str
        else some s.str) = some m1 ∧ m1.length = s.str.length ∧
      (∀ p, p < k → m1[p]? = s.str[p]?) ∧
      (∀ p, s.len + cs.length ≤ p → m1[p]? = s.str[p]?) ∧
      (∀ q, k ≤ q → q < s.len → m1[q + cs.length]? = s.str[q]?) := by
    by_cases hlt : k < s.len
    · obtain ⟨m1, b1, b2, b3, b4, b5⟩ :=
        shift_outer_spec k s.len cs.length 0 s.str (by omega) (by omega)
      exact ⟨m1, by simp [hlt, b1], b2, fun p hp => b3 p (by omega),
        fun p hp => b4 p (by omega), fun q h1 h2 => b5 q (by omega) (by omega)⟩
    · exact ⟨s.str, by simp [hlt], rfl, fun _ _ => rfl, fun _ _ => rfl,
        fun q h1 h2 => by omega⟩
  obtain ⟨m1, a1, a2, a3, a4, a5⟩ := hshift
  obtain ⟨m2, c1, c2, c3⟩ := copy_in_spec k (cs ++ 0 :: rest) cs.length 0 m1
    (by simp) (by omega) (by omega)
  refine ⟨m2, ?_, by omega, ?_, ?_⟩
  · have hk1 : ¬ k > s.len := by omega
    have hge : s.cap ≥ s.len + cs.length := hroom
    simp only [insert, hk1, if_false, strlen_zeroFree cs rest hc, hn, hreq, hge, if_true, a1,
      c1]
  · apply splice_take m2 s.str cs k s.len hk (by omega)
    intro p hp
    rw [c3 p]
    by_cases h1 : p < k
    · rw [if_neg (by omega), if_pos h1, a3 p h1]
    · rw [if_neg h1]
      by_cases h2 : p < k + cs.length
      · rw [if_pos (by omega), if_pos h2, List.getElem?_append_left (by omega)]
      · rw [if_neg (by omega), if_neg h2]
        have := a5 (p - cs.length) (by omega) (by omega)
        rw [← this]; congr 1; omega
  · apply drop_eq_of_getElem?
    intro p hp
    rw [c3 p, if_neg (by omega), a4 p hp]

/-- `insert` when the capacity does not suffice: one reallocation, then the retry takes
the in-place branch. -/
theorem insert_grows (fuel : Nat) (s : string) (cs rest : List Byte) (k : Nat)
    (hwf : wf s) (hc : zeroFree cs) (hk : k ≤ s.len)
    (hgrow : s.cap < s.len + cs.length)
    (hfit : s.len + cs.length + CSTRING_ALC < 2 ^ 32) (hint : s.len < 2 ^ 31) :
    ∃ m, insert (fuel + 2) s (cs ++ 0 :: rest) k =
        some (CSTRING_SUC, { s with str := m, cap := s.len + cs.length + CSTRING_ALC,
                                    len := s.len + cs.length }) ∧
      m.length = s.len + cs.length + CSTRING_ALC ∧
      m.take (s.len + cs.length) =
        (s.str.take s.len).take k ++ cs ++ (s.str.take s.len).drop k ∧
      m.drop (s.len + cs.length) = List.replicate CSTRING_ALC 0 := by
  have hwf0 := hwf
  obtain ⟨hblock, hlen, _⟩ := hwf
  have hn : u32 cs.length = cs.length := u32_of_lt (by omega)
  have hreq : u32 (s.len + cs.length) = s.len + cs.length := u32_of_lt (by omega)
  have hnew : u32 (s.len + cs.length + CSTRING_ALC) = s.len + cs.length + CSTRING_ALC :=
    u32_of_lt hfit
  obtain ⟨m0, a1, a2, a3⟩ := copy_old_spec s.str s.len 0
    (calloc (s.len + cs.length + CSTRING_ALC)) (by omega) (by simp [calloc]; omega)
    (by omega)
  have a2' : m0.length = s.len + cs.length + CSTRING_ALC := by simpa [calloc] using a2
  have hwf1 : wf { s with str := m0, cap := s.len + cs.length + CSTRING_ALC } :=
    ⟨a2', by show s.len ≤ s.len + cs.length + CSTRING_ALC; omega, hfit⟩
  obtain ⟨m, b1, b2, b3, b4⟩ := insert_fits fuel
    { s with str := m0, cap := s.len + cs.length + CSTRING_ALC } cs rest k hwf1 hc hk
    (by show s.len + cs.length < 2 ^ 32; omega)
    (by show s.len + cs.length ≤ s.len + cs.length + CSTRING_ALC; omega)
  have hm0 : m0.take s.len = s.str.take s.len := by
    apply List.ext_getElem?
    intro p
    by_cases hp : p < s.len
    · rw [List.getElem?_take_of_lt hp, List.getElem?_take_of_lt hp, a3 p, if_pos (by omega)]
    · rw [List.getElem?_eq_none (by simp [List.length_take]; omega),
        List.getElem?_eq_none (by simp [List.length_take]; omega)]
  refine ⟨m, ?_, by simpa [a2'] using b2, ?_, ?_⟩
  · have hk1 : ¬ k > s.len := by omega
    have hge : ¬ s.cap ≥ s.len + cs.length := by omega
    rw [insert.eq_2]
    simp only [hk1, if_false, strlen_zeroFree cs rest hc, hn, hreq, hge, hnew, a1, b1]
  · rw [b3]; show (m0.take s.len).take k ++ cs ++ (m0.take s.len).drop k = _; rw [hm0]
  · rw [b4]
    show m0.drop (s.len + cs.length) = _
    apply List.ext_getElem?
    intro p
    rw [List.getElem?_drop, a3, if_neg (by omega)]
    simp only [calloc, List.getElem?_replicate]
    by_cases hp : p < CSTRING_ALC
    · rw [if_pos (by omega), if_pos hp]
    · rw [if_neg (by omega), if_neg hp]

/-- What `insert` does within the `uint32` range, in either branch; the reallocating
branch copies the old content with an `int` counter, hence `len < 2 ^ 31` there. -/
theorem insert_spec (fuel : Nat) (s : string) (cs rest : List Byte) (k : Nat)
    (hwf : wf s) (hc : zeroFree cs) (hk : k ≤ s.len)
    (hfit : s.len + cs.length < 2 ^ 32)
    (hgrow : s.cap < s.len + cs.length → s.len + cs.length + CSTRING_ALC < 2 ^ 32)
    (hint : s.cap < s.len + cs.length → s.len < 2 ^ 31) :
    ∃ s1, insert (fuel + 2) s (cs ++ 0 :: rest) k = some (CSTRING_SUC, s1) ∧
      content s1 = (content s).take k ++ cs ++ (content s).drop k ∧
      s1.len = s.len + cs.length ∧
      s1.cap = (if s.len + cs.length ≤ s.cap then s.cap
                else s.len + cs.length + CSTRING_ALC) ∧
      s1.ind = s.ind ∧ wf s1 ∧ (padded s → padded s1) := by
  by_cases hroom : s.len + cs.length ≤ s.cap
  · obtain ⟨m, b1, b2, b3, b4⟩ := insert_fits (fuel + 1) s cs rest k hwf hc hk hfit hroom
    refine ⟨_, b1, b3, rfl, by simp [hroom], rfl, ⟨by rw [← hwf.1]; exact b2, hroom, hwf.2.2⟩, ?_⟩
    intro hp b hb
    apply hp b
    have hb' : b ∈ m.drop (s.len + cs.length) := hb
    rw [b4, ← List.drop_drop] at hb'
    exact List.mem_of_mem_drop hb'
  · obtain ⟨m, b1, b2, b3, b4⟩ := insert_grows fuel s cs rest k hwf hc hk (by omega)
      (hgrow (by omega)) (hint (by omega))
    refine ⟨_, b1, b3, rfl, by simp [hroom], rfl, ⟨b2, by show s.len + cs.length ≤ s.len + cs.length + CSTRING_ALC; omega,
        hgrow (by omega)⟩, ?_⟩
    intro _ b hb
    have hb' : b ∈ m.drop (s.len + cs.length) := hb
    rw [b4] at hb'
    exact (List.mem_replicate.mp hb').2


theorem hugeText_length : hugeText.length = 2 ^ 32 := List.length_replicate _ _

theorem hugeText_zeroFree : zeroFree hugeText := by
  intro b hb
  rw [(List.mem_replicate.mp hb).2]
  decide

theorem deref_eq_some {W : World} {h : Nat} {s : string} (hd : deref W h = some s) :
    h < W.heap.length ∧ W.heap[h]? = some (some s) := by
  unfold deref at hd
  cases hx : W.heap[h]? with
  | none => simp [hx] at hd
  | some o =>
    cases o with
    | none => simp [hx] at hd
    | some s' =>
      simp [hx] at hd
      subst hd
      exact ⟨(List.getElem?_eq_some.mp hx).1, rfl⟩

theorem set_same {α : Type} (l : List α) (i : Nat) (a : α) (h : l[i]? = some a) :
    l.set i a = l := by
  apply List.ext_getElem?
  intro p
  by_cases hp : i = p
  · subst hp
    rw [List.getElem?_set_self (List.getElem?_eq_some.mp h).1, h]
  · rw [List.getElem?_set_ne hp]

theorem add_alloc_scan_heap (h : Nat) (s : string) (t : List (Option Nat)) :
    ∀ (n i : Nat) (W : World), W.allocs = some t → i + n ≤ t.length →
      deref W h = some s →
      ∃ W1 i1, add_alloc_scan h n i W = some W1 ∧
        W1.heap = W.heap.set h (some { s with ind := i1 }) := by
  intro n
  induction n with
  | zero =>
    intro i W _ _ hd
    refine ⟨W, s.ind, by simp [add_alloc_scan], ?_⟩
    exact (set_same _ _ _ (deref_eq_some hd).2).symm
  | succ n ih =>
    intro i W ht hlen hd
    have hi : i < t.length := by omega
    cases hx : t[i] with
    | some a =>
      obtain ⟨W1, i1, e1, e2⟩ := ih (i + 1) W ht (by omega) hd
      refine ⟨W1, i1, ?_, e2⟩
      simp [add_alloc_scan, ht, List.getElem?_eq_getElem hi, hx, e1]
    | none =>
      refine ⟨{ heap := W.heap.set h (some { s with ind := i }),
                allocs := some (t.set i (some h)),
                max_allocs := W.max_allocs,
                num_allocs := if i > W.num_allocs then i else W.num_allocs }, i, ?_, rfl⟩
      simp [add_alloc_scan, ht, List.getElem?_eq_getElem hi, hx, hd]

theorem add_alloc_copy_ok (o : List (Option Nat)) :
    ∀ (n i : Nat) (t : List (Option Nat)), i + n ≤ o.length → i + n ≤ t.length →
      ∃ t1, add_alloc_copy (some o) n i t = some t1 ∧ t1.length = t.length := by
  intro n
  induction n with
  | zero => intro i t _ _; exact ⟨t, by simp [add_alloc_copy], rfl⟩
  | succ n ih =>
    intro i t ho ht
    have hi : i < o.length := by omega
    have hi2 : i < t.length := by omega
    obtain ⟨t1, e1, e2⟩ := ih (i + 1) (t.set i o[i]) (by omega) (by simp; omega)
    refine ⟨t1, ?_, by simpa using e2⟩
    simp [add_alloc_copy, List.getElem?_eq_getElem hi, hi2, e1]

/-- `add_alloc` on an allocated table returns after at most one retry and changes, on the
heap, at most the field `ind` of the structure it is given. -/
theorem add_alloc_heap (fuel : Nat) (W : World) (h : Nat) (s : string) (hreg : RegOK W)
    (hd : deref W h = some s) :
    ∃ W1 i1, add_alloc (fuel + 2) W h = some W1 ∧
      W1.heap = W.heap.set h (some { s with ind := i1 }) := by
  obtain ⟨t, ht, hlen, hnum, hmax⟩ := hreg
  have hE : W.max_allocs * CSTRING_EXT = W.max_allocs * 2 := rfl
  by_cases hc : u32 (W.num_allocs + 1) < W.max_allocs
  · obtain ⟨W1, i1, e1, e2⟩ := add_alloc_scan_heap h s t W.max_allocs 0 W ht (by omega) hd
    exact ⟨W1, i1, by rw [add_alloc.eq_2]; simp [hc, e1], e2⟩
  · have hnew : u32 (W.max_allocs * CSTRING_EXT) = W.max_allocs * CSTRING_EXT :=
      u32_of_lt hmax
    obtain ⟨t1, c1, c2⟩ := add_alloc_copy_ok t W.max_allocs 0
      (List.replicate (W.max_allocs * CSTRING_EXT) none) (by omega) (by simp; omega)
    have c2' : t1.length = W.max_allocs * CSTRING_EXT := by simpa using c2
    have hc2 : u32 (W.num_allocs + 1) < W.max_allocs * CSTRING_EXT := by
      rw [u32_of_lt (by omega)]; omega
    obtain ⟨W1, i1, e1, e2⟩ := add_alloc_scan_heap h s t1 (W.max_allocs * CSTRING_EXT) 0
      { W with allocs := some t1, max_allocs := W.max_allocs * CSTRING_EXT } rfl (by omega) hd
    refine ⟨W1, i1, ?_, e2⟩
    rw [add_alloc.eq_2]
    simp only [hc, if_false, hnew, ht, c1]
    rw [add_alloc.eq_2]
    simp only [hc2, if_true, e1]

/-- `cstring` of a zero-free text within the `uint32` range: the new structure is put
at the end of the heap. -/
theorem cstring_heap (fuel : Nat) (W : World) (cs rest : List Byte) (hreg : RegOK W)
    (hc : zeroFree cs) (hfit : cs.length + CSTRING_ALC < 2 ^ 32) :
    ∃ W1 i1, cstring (fuel + 2) W (some (cs ++ 0 :: rest)) = some (W.heap.length, W1) ∧
      W1.heap = W.heap ++ [some { str := cs ++ calloc CSTRING_ALC,
                                   cap := CSTRING_ALC + cs.length,
                                   len := cs.length, ind := i1 }] := by
  have hn : u32 cs.length = cs.length := u32_of_lt (by omega)
  have hmem : u32 (CSTRING_ALC + cs.length) = CSTRING_ALC + cs.length :=
    u32_of_lt (by omega)
  have hcp : strncpy (calloc (CSTRING_ALC + cs.length)) (cs ++ 0 :: rest) cs.length =
      some (cs ++ calloc CSTRING_ALC) := by
    rw [strncpy_zeroFree cs (0 :: rest) hc _ (by simp [calloc])]
    simp [calloc]
  obtain ⟨W1, i1, e1, e2⟩ := add_alloc_heap fuel
    { W with heap := W.heap ++ [some { str := cs ++ calloc CSTRING_ALC,
                                       cap := CSTRING_ALC + cs.length,
                                       len := cs.length, ind := 0 }] }
    W.heap.length { str := cs ++ calloc CSTRING_ALC, cap := CSTRING_ALC + cs.length,
                    len := cs.length, ind := 0 } hreg (by simp [deref])
  refine ⟨W1, i1, ?_, ?_⟩
  · simp only [cstring, strlen_zeroFree cs rest hc, Option.map_some', hn, hmem, hcp, e1]
  · rw [e2]; simp

/-- `cstring(NULL)`. -/
theorem cstring_null_heap (fuel : Nat) (W : World) (hreg : RegOK W) :
    ∃ W1 i1, cstring (fuel + 2) W none = some (W.heap.length, W1) ∧
      W1.heap = W.heap ++ [some { str := calloc CSTRING_ALC, cap := CSTRING_ALC,
                                   len := 0, ind := i1 }] := by
  obtain ⟨W1, i1, e1, e2⟩ := add_alloc_heap fuel
    { W with heap := W.heap ++ [some { str := calloc CSTRING_ALC, cap := CSTRING_ALC,
                                       len := 0, ind := 0 }] }
    W.heap.length { str := calloc CSTRING_ALC, cap := CSTRING_ALC, len := 0, ind := 0 }
    hreg (by simp [deref])
  refine ⟨W1, i1, ?_, ?_⟩
  · simp only [cstring, e1]
  · rw [e2]; simp

theorem content_length (s : string) (hwf : wf s) : (content s).length = s.len := by
  simp [content, List.length_take, hwf.1]; exact hwf.2.1

/-- `rem` on a string that keeps a byte after its content (`len < cap`): the byte at
`i` is returned, the content loses it, and what lies past the new length comes from
what lay past the old one. -/
theorem rem_spec (s : string) (i : Nat) (hwf : wf s) (hcap : s.len < s.cap)
    (hi : i < s.len) :
    ∃ b m, rem s i = some (b, { s with str := m, len := s.len - 1 }) ∧
      (content s)[i]? = some b ∧ m.length = s.str.length ∧
      m.take (s.len - 1) = (content s).take i ++ (content s).drop (i + 1) ∧
      (∀ x ∈ m.drop (s.len - 1), x ∈ s.str.drop s.len) := by
  obtain ⟨hblock, hlen, h32⟩ := hwf
  have hil : i < s.str.length := by omega
  obtain ⟨m, a1, a2, a3⟩ := shift_left_spec (s.len - i) i s.str (by omega) (by omega)
  have hdec : u32 (s.len - 1) = s.len - 1 := u32_of_lt (by omega)
  refine ⟨s.str[i], m, ?_, ?_, a2, ?_, ?_⟩
  · have hge : ¬ i ≥ s.len := by omega
    simp only [rem, hge, if_false, rd, List.getElem?_eq_getElem hil, a1, hdec]
  · simp only [content]
    rw [List.getElem?_take_of_lt hi, List.getElem?_eq_getElem hil]
  · apply List.ext_getElem?
    intro p
    have hl1 : ((content s).take i).length = i := by
      simp [content, List.length_take]; omega
    by_cases hp : p < s.len - 1
    · rw [List.getElem?_take_of_lt hp, a3 p]
      by_cases h1 : p < i
      · rw [if_neg (by omega), List.getElem?_append_left (by omega),
          List.getElem?_take_of_lt h1]
        simp only [content]
        rw [List.getElem?_take_of_lt (by omega)]
      · rw [if_pos (by omega), List.getElem?_append_right (by omega), hl1,
          List.getElem?_drop]
        simp only [content]
        rw [List.getElem?_take_of_lt (by omega)]
        congr 1; omega
    · rw [List.getElem?_eq_none (by simp [List.length_take]; omega),
        List.getElem?_eq_none (by simp [content, List.length_take]; omega)]
  · intro x hx
    obtain ⟨p, hp⟩ := List.getElem?_of_mem hx
    rw [List.getElem?_drop, a3] at hp
    by_cases h0 : p = 0
    · subst h0
      rw [if_pos (by omega)] at hp
      have e : (s.str.drop s.len)[0]? = some x := by
        rw [List.getElem?_drop, ← hp]; congr 1; omega
      exact List.getElem?_mem e
    · rw [if_neg (by omega)] at hp
      have e : (s.str.drop s.len)[p - 1]? = some x := by
        rw [List.getElem?_drop, ← hp]; congr 1; omega
      exact List.getElem?_mem e

/-- A string with `len < cap` and zero storage past `len` holds its content followed
by a terminator. -/
theorem str_split (s : string) (hwf : wf s) (hcap : s.len < s.cap) (hp : padded s) :
    s.str = content s ++ 0 :: s.str.drop (s.len + 1) := by
  have hl : s.len < s.str.length := by rw [hwf.1]; exact hcap
  have h0 : s.str[s.len] = 0 := by
    apply hp
    rw [List.drop_eq_getElem_cons hl]
    exact List.mem_cons_self _ _
  conv_lhs => rw [← List.take_append_drop s.len s.str, List.drop_eq_getElem_cons hl, h0]
  rfl

theorem cstr_zeroFree (cs rest : List Byte) (hc : zeroFree cs) :
    cstr (cs ++ 0 :: rest) = some cs := by
  simp [cstr, strlen_zeroFree cs rest hc]

/-- A result of `firstOcc` is an occurrence and no occurrence starts before it. -/
theorem firstOcc_some (n : List Byte) :
    ∀ (h : List Byte) (r : Nat), firstOcc n h = some r →
      r ≤ h.length ∧ occursAt n h r ∧ ∀ r', r' < r → ¬ occursAt n h r' := by
  intro h
  induction h with
  | nil =>
    intro r hr
    by_cases hp : n.isPrefixOf [] = true
    · simp only [firstOcc, hp, if_true, Option.some.injEq] at hr
      subst hr
      exact ⟨Nat.le_refl _, by simpa [occursAt] using hp, fun r' h' => absurd h' (by omega)⟩
    · simp [firstOcc, hp] at hr
  | cons b t ih =>
    intro r hr
    by_cases hp : n.isPrefixOf (b :: t) = true
    · simp only [firstOcc, hp, if_true, Option.some.injEq] at hr
      subst hr
      exact ⟨Nat.zero_le _, by simpa [occursAt] using hp, fun r' h' => absurd h' (by omega)⟩
    · rw [firstOcc, if_neg hp, Option.map_eq_some'] at hr
      obtain ⟨r0, e1, e2⟩ := hr
      obtain ⟨i1, i2, i3⟩ := ih r0 e1
      subst e2
      refine ⟨by simp; omega, by simpa [occursAt] using i2, fun r' h' => ?_⟩
      cases r' with
      | zero => simpa [occursAt] using hp
      | succ r' =>
        have := i3 r' (by omega)
        simpa [occursAt] using this

/-- `firstOcc` fails only when there is no occurrence. -/
theorem firstOcc_none (n : List Byte) :
    ∀ (h : List Byte), firstOcc n h = none → ∀ r, ¬ occursAt n h r := by
  intro h
  induction h with
  | nil =>
    intro hr r
    by_cases hp : n.isPrefixOf [] = true
    · simp [firstOcc, hp] at hr
    · simpa [occursAt] using hp
  | cons b t ih =>
    intro hr r
    by_cases hp : n.isPrefixOf (b :: t) = true
    · simp [firstOcc, hp] at hr
    · rw [firstOcc, if_neg hp, Option.map_eq_none'] at hr
      cases r with
      | zero => simpa [occursAt] using hp
      | succ r =>
        have := ih hr r
        simpa [occursAt] using this

theorem toInt32_of_lt {n : Nat} (h : n < 2 ^ 31) : toInt32 n = (n : Int) := by
  have h1 : u32 n = n := u32_of_lt (by omega)
  simp only [toInt32, h1]
  rw [if_pos h]

/-- `find` on a terminated, zero-free content searches exactly the content. -/
theorem find_eq (s : string) (cs rest : List Byte) (hwf : wf s) (hcap : s.len < s.cap)
    (hp : padded s) (hz : zeroFree (content s)) (hc : zeroFree cs) :
    find s (cs ++ 0 :: rest) =
      some (match firstOcc cs (content s) with
            | some o => toInt32 o
            | none => CSTRING_EOL) := by
  have h1 : cstr s.str = some (content s) := by
    rw [str_split s hwf hcap hp]
    exact cstr_zeroFree _ _ hz
  simp only [find, strstr, h1, cstr_zeroFree cs rest hc]
  cases firstOcc cs (content s) <;> rfl

theorem deref_append_left (W W1 : World) (x : Option string) (h : Nat)
    (hh : W1.heap = W.heap ++ [x]) (hlt : h < W.heap.length) : deref W1 h = deref W h := by
  unfold deref
  rw [hh, List.getElem?_append_left hlt]

theorem deref_append_new (W W1 : World) (t : string) (hh : W1.heap = W.heap ++ [some t]) :
    deref W1 W.heap.length = some t := by
  unfold deref
  rw [hh, List.getElem?_append_right (Nat.le_refl _)]
  simp

theorem deref_store_same (W : World) (h : Nat) (s : string) (hlt : h < W.heap.length) :
    deref (store W h s) h = some s := by
  unfold deref store
  simp [List.getElem?_set_self hlt]

theorem deref_store_ne (W : World) (h h1 : Nat) (s : string) (hne : h ≠ h1) :
    deref (store W h s) h1 = deref W h1 := by
  unfold deref store
  simp [List.getElem?_set_ne hne]

/-- A call on the structure at `h` leaves every other structure as it was. -/
theorem call_frame {α : Type} (W W1 : World) (h h1 : Nat)
    (f : string → Option (α × string)) (r : α) (hc : call W h f = some (r, W1))
    (hne : h ≠ h1) : deref W1 h1 = deref W h1 := by
  unfold call at hc
  cases hd : deref W h with
  | none => simp [hd] at hc
  | some s =>
    cases hf : f s with
    | none => simp [hd, hf] at hc
    | some p =>
      obtain ⟨r1, s1⟩ := p
      simp only [hd, hf, Option.some.injEq, Prod.mk.injEq] at hc
      rw [← hc.2]
      exact deref_store_ne W h h1 s1 hne

theorem set_drop_split (l : List Byte) (i j : Nat) (a : Byte) (hij : i ≤ j)
    (hj : j < l.length) :
    (l.set j a).drop i = (l.take j).drop i ++ a :: l.drop (j + 1) := by
  apply List.ext_getElem?
  intro p
  have hl : ((l.take j).drop i).length = j - i := by
    simp [List.length_take]; omega
  rw [List.getElem?_drop]
  by_cases h1 : i + p < j
  · rw [List.getElem?_set_ne (by omega), List.getElem?_append_left (by omega),
      List.getElem?_drop, List.getElem?_take_of_lt h1]
  · rw [List.getElem?_append_right (by omega), hl]
    by_cases h2 : i + p = j
    · have hq : p - (j - i) = 0 := by omega
      rw [hq, h2, List.getElem?_set_self hj, List.getElem?_cons_zero]
    · rw [List.getElem?_set_ne (by omega)]
      obtain ⟨q, hq⟩ : ∃ q, p - (j - i) = q + 1 := ⟨p - (j - i) - 1, by omega⟩
      rw [hq, List.getElem?_cons_succ, List.getElem?_drop]
      congr 1; omega

/-- `substrn` on a valid range whose bytes are non-zero and whose end lies inside the
block. -/
theorem substrn_spec (fuel : Nat) (W : World) (h i j : Nat) (s : string)
    (hd : deref W h = some s) (hwf : wf s) (hij : i < j) (hj : j ≤ s.len)
    (hjc : j < s.cap) (hz : zeroFree (((content s).take j).drop i)) (hreg : RegOK W)
    (hfit : j - i + CSTRING_ALC < 2 ^ 32) :
    ∃ W2 t, substrn (fuel + 2) W h i j = some (some W.heap.length, W2) ∧
      deref W2 W.heap.length = some t ∧
      content t = ((content s).take j).drop i ∧ t.len = j - i ∧
      t.cap = CSTRING_ALC + (j - i) ∧ deref W2 h = some s := by
  obtain ⟨hblock, hlen, h32⟩ := hwf
  have hjl : j < s.str.length := by omega
  have hh := (deref_eq_some hd).1
  have hu : u32 (j - i) = j - i := u32_of_lt (by omega)
  have hidx : i + (j - i) = j := by omega
  have hct : (content s).take j = s.str.take j := by
    simp only [content, List.take_take]; congr 1; omega
  have hcl : (((content s).take j).drop i).length = j - i := by
    rw [hct]; simp [List.length_take]; omega
  have hsplit : (s.str.set j 0).drop i =
      ((content s).take j).drop i ++ 0 :: s.str.drop (j + 1) := by
    rw [hct]; exact set_drop_split s.str i j 0 (by omega) hjl
  obtain ⟨W1, i1, e1, e2⟩ := cstring_heap fuel (store W h { s with str := s.str.set j 0 })
    (((content s).take j).drop i) (s.str.drop (j + 1)) hreg hz (by rw [hcl]; exact hfit)
  have hlen1 : (store W h { s with str := s.str.set j 0 }).heap.length = W.heap.length := by
    simp [store]
  rw [hlen1] at e1
  have hd1 : deref W1 h = some { s with str := s.str.set j 0 } := by
    rw [deref_append_left _ W1 _ h e2 (by rw [hlen1]; exact hh)]
    exact deref_store_same W h _ hh
  have hback : (s.str.set j 0).set j s.str[j] = s.str := by
    rw [List.set_set]
    exact set_same _ _ _ (List.getElem?_eq_getElem hjl)
  have hs : ({ s with str := s.str } : string) = s := by cases s; rfl
  have hW1len : h < W1.heap.length := by rw [e2]; simp; omega
  refine ⟨store W1 h s,
    { str := ((content s).take j).drop i ++ calloc CSTRING_ALC,
      cap := CSTRING_ALC + (((content s).take j).drop i).length,
      len := (((content s).take j).drop i).length, ind := i1 }, ?_, ?_, ?_, ?_, ?_, ?_⟩
  · have hcond : i < j ∧ j ≤ s.len := ⟨hij, hj⟩
    simp only [substrn, hd, hcond, and_self, if_true, hu, hidx, rd,
      List.getElem?_eq_getElem hjl, wr, hjl, hsplit, e1, hd1, List.length_set, hback, hs]
  · rw [deref_store_ne W1 h _ s (by omega)]
    have := deref_append_new _ W1 _ e2
    rw [hlen1] at this
    exact this
  · simp [content]
  · exact hcl
  · show CSTRING_ALC + (((content s).take j).drop i).length = _
    rw [hcl]
  · exact deref_store_same W1 h s hW1len

/-- If `cs` occurs at `r`, `firstOcc` finds an occurrence at or before `r`. -/
theorem firstOcc_le (cs t : List Byte) (r : Nat) (h : occursAt cs t r) :
    ∃ o, firstOcc cs t = some o ∧ o ≤ r := by
  cases hf : firstOcc cs t with
  | none => exact absurd h (firstOcc_none cs t hf r)
  | some o =>
    refine ⟨o, rfl, ?_⟩
    by_contra hlt
    exact (firstOcc_some cs t o hf).2.2 r (by omega) h

/-- The states `helloWorld` and `twoStrings` are what `cstring` builds from program start. -/
theorem example_states_built :
    cstring 2 cstring_init (some (bytes "hello world" ++ [0])) = some (0, helloWorld) ∧
    ∃ W, cstring 2 cstring_init (some (bytes "hello" ++ [0])) = some (0, W) ∧
      deref W 0 = some helloString ∧
      cstring 2 W (some (bytes " world" ++ [0])) = some (1, twoStrings) :=
  ⟨rfl, _, rfl, rfl, rfl⟩

/-- `cstring` of a text of exactly `2 ^ 32` bytes at program start: `init_len` is 0. -/
theorem cstring_wraps_aux (fuel : Nat) (cs : List Byte) (hz : zeroFree cs)
    (hl : cs.length = 2 ^ 32) :
    cstring (fuel + 1) cstring_init (some (cs ++ [0])) =
      some (0, { heap := [some emptyString],
                 allocs := some (some 0 :: List.replicate 14 none),
                 max_allocs := 15, num_allocs := 0 }) := by
  simp only [cstring, strlen_zeroFree cs [] hz, hl, Option.map_some']
  have h1 : u32 (2 ^ 32) = 0 := by simp [u32]
  rw [h1]
  simp only [strncpy]
  rfl

/-- C2, counterexample: at program start `cstring` of a zero-free text of `2 ^ 32` bytes
returns a string of length 0 and capacity 15 with empty content, because `strlen(istr)`
is stored in a `uint32` (line 159). -/
theorem cstring_length_wraps :
    RegOK cstring_init ∧ zeroFree hugeText ∧
    ∃ h W1 s, cstring 2 cstring_init (some (hugeText ++ [0])) = some (h, W1) ∧
      deref W1 h = some s ∧ s.len ≠ hugeText.length ∧ content s ≠ hugeText ∧
      s.cap ≠ CSTRING_ALC + hugeText.length := by
  refine ⟨⟨_, rfl, by decide, by decide, by decide⟩, hugeText_zeroFree, 0, _, emptyString,
    cstring_wraps_aux 1 hugeText hugeText_zeroFree hugeText_length, rfl, ?_, ?_, ?_⟩
  · rw [hugeText_length]; decide
  · intro h
    have := congrArg List.length h
    simp [content, emptyString, hugeText_length] at this
  · rw [hugeText_length]; decide

/-- C2, as amended: in a state whose allocation table is allocated (`max_allocs`
entries, `num_allocs < max_allocs`, `2 * max_allocs < 2 ^ 32`), for every zero-free byte
string `cs` with `|cs| + 15 < 2 ^ 32`, `cstring(cs)` returns a new string whose content is `cs`, whose `len` is `|cs|` and whose
`cap` is `CSTRING_ALC + |cs|`; for the null argument the content is empty, `len` is 0 and
`cap` is `CSTRING_ALC`. -/
theorem cstring_content (fuel : Nat) (W : World) (cs rest : List Byte) (hreg : RegOK W)
    (hc : zeroFree cs) (hfit : cs.length + CSTRING_ALC < 2 ^ 32) :
    (∃ W1 s, cstring (fuel + 2) W (some (cs ++ 0 :: rest)) = some (W.heap.length, W1) ∧
      deref W1 W.heap.length = some s ∧ content s = cs ∧ s.len = cs.length ∧
      s.cap = CSTRING_ALC + cs.length) ∧
    (∃ W1 s, cstring (fuel + 2) W none = some (W.heap.length, W1) ∧
      deref W1 W.heap.length = some s ∧ content s = [] ∧ s.len = 0 ∧
      s.cap = CSTRING_ALC) := by
  constructor
  · obtain ⟨W1, i1, e1, e2⟩ := cstring_heap fuel W cs rest hreg hc hfit
    exact ⟨W1, _, e1, deref_append_new W W1 _ e2, by simp [content], rfl, rfl⟩
  · obtain ⟨W1, i1, e1, e2⟩ := cstring_null_heap fuel W hreg
    exact ⟨W1, _, e1, deref_append_new W W1 _ e2, by simp [content], rfl, rfl⟩

/-- C2, witness: `cstring("hello")` and `cstring(NULL)` at program start. -/
theorem cstring_content_witness :
    (∃ W1 s, cstring 2 cstring_init (some (bytes "hello" ++ 0 :: [])) =
        some (cstring_init.heap.length, W1) ∧
      deref W1 cstring_init.heap.length = some s ∧ content s = bytes "hello" ∧
      s.len = (bytes "hello").length ∧ s.cap = CSTRING_ALC + (bytes "hello").length) ∧
    (∃ W1 s, cstring 2 cstring_init none = some (cstring_init.heap.length, W1) ∧
      deref W1 cstring_init.heap.length = some s ∧ content s = [] ∧ s.len = 0 ∧
      s.cap = CSTRING_ALC) :=
  cstring_content 0 cstring_init (bytes "hello") [] ⟨_, rfl, by decide, by decide, by decide⟩
    (by unfold zeroFree; decide) (Nat.lt_of_lt_of_le (show _ < 100 by decide) (by norm_num))

/-- C5, the code at the failing input: `cstring(NULL)` followed by `append` of fifteen
bytes succeeds in place (line 397 tests `cap >= len + 15`) and leaves `len = cap = 15`,
so `cap ≥ len + 1` fails and the block holds no terminator. -/
theorem append_fills_capacity :
    ∃ h W s s1, cstring 2 cstring_init none = some (h, W) ∧ deref W h = some s ∧
      append 2 s (fifteen ++ [0]) = some (CSTRING_SUC, s1) ∧
      content s1 = fifteen ∧ ¬ (s1.cap ≥ s1.len + 1) ∧ strlen s1.str = none :=
  ⟨0, _, _, _, rfl, rfl, rfl, by decide, by decide, by decide⟩

/-- C4, counterexample: after `cstring("abc")` and `set(s, 1, 0)` the string has length 3
and content `a 0 c`; `substrn(s, 0, 3)` returns a string with content `a`, not the three
bytes at `[0, 3)`, because `cstring` measures its argument with `strlen`. -/
theorem substrn_stops_at_zero_byte :
    ∃ h W0 r0 W s sub W1 t,
      cstring 2 cstring_init (some (bytes "abc" ++ [0])) = some (h, W0) ∧
      call W0 h (fun x => set x 1 0) = some (r0, W) ∧ deref W h = some s ∧
      0 < 3 ∧ 3 ≤ s.len ∧
      substrn 2 W h 0 3 = some (some sub, W1) ∧ deref W1 sub = some t ∧
      content t = bytes "a" ∧ content t ≠ ((content s).take 3).drop 0 ∧ t.len ≠ 3 - 0 :=
  ⟨0, _, _, _, _, _, _, _, rfl, rfl, rfl, by decide, by decide, rfl, rfl, by decide, by decide,
    by decide⟩

/-- C4, as amended: for every string `s` (a block of `cap` bytes, `len ≤ cap`) and every
`i < j ≤ len` with `j < cap`, whose bytes at `[i, j)` are all non-zero and with
`j - i + 15 < 2 ^ 32`, in a state whose allocation table is allocated (as in C2),
`substrn(s, i, j)` returns a new string, at the address `W.heap.length` that no structure
had before the call and that differs from the address of `s`, whose content is
`content(s)[i:j]` and whose length is `j - i`, and after the call the structure `s`
(bytes, `len`, `cap`) is what it was before. -/
theorem substrn_content (fuel : Nat) (W : World) (h i j : Nat) (s : string)
    (hd : deref W h = some s) (hwf : wf s) (hij : i < j) (hj : j ≤ s.len)
    (hjc : j < s.cap) (hz : zeroFree (((content s).take j).drop i)) (hreg : RegOK W)
    (hfit : j - i + CSTRING_ALC < 2 ^ 32) :
    ∃ sub W1 t, substrn (fuel + 2) W h i j = some (some sub, W1) ∧
      sub = W.heap.length ∧ deref W sub = none ∧ sub ≠ h ∧
      deref W1 sub = some t ∧ content t = ((content s).take j).drop i ∧
      t.len = j - i ∧ deref W1 h = some s := by
  obtain ⟨W2, t, h1, h2, h3, h4, _, h6⟩ :=
    substrn_spec fuel W h i j s hd hwf hij hj hjc hz hreg hfit
  have hlt : h < W.heap.length := (deref_eq_some hd).1
  refine ⟨_, W2, t, h1, rfl, ?_, by omega, h2, h3, h4, h6⟩
  unfold deref
  rw [List.getElem?_eq_none (Nat.le_refl _)]
  rfl

/-- C4, witness: `substrn(s, 6, 11)` on `"hello world"`. -/
theorem substrn_content_witness :
    ∃ sub W1 t, substrn 2 helloWorld 0 6 11 = some (some sub, W1) ∧
      sub = helloWorld.heap.length ∧ deref helloWorld sub = none ∧ sub ≠ 0 ∧
      deref W1 sub = some t ∧
      content t = ((content { str := bytes "hello world" ++ calloc 15, cap := 26, len := 11,
                              ind := 0 }).take 11).drop 6 ∧
      t.len = 11 - 6 ∧
      deref W1 0 = some { str := bytes "hello world" ++ calloc 15, cap := 26, len := 11,
                          ind := 0 } :=
  substrn_content 0 helloWorld 0 6 11 _ rfl (by unfold wf; decide) (by decide) (by decide)
    (by decide) (by unfold zeroFree; decide) ⟨_, rfl, by decide, by decide, by decide⟩
    (Nat.lt_of_lt_of_le (show _ < 100 by decide) (by norm_num))

/-- C7: every recoverable-error path returns its failure value and leaves the string as
it was: `insert(s, c, k)` with `k > len` returns `CSTRING_ERR` and the same structure;
`get(s, i)`, `set(s, i, c)` and `rem(s, i)` with `i ≥ len` return `CSTRING_ERR` (the zero
`char`), `set` and `rem` with the same structure (`get` writes nothing); `substrn(s, i, j)`
with `i ≥ j` or `j > len` returns the null pointer and the same state. -/
theorem error_paths_keep_string :
    (∀ (fuel : Nat) (s : string) (c : List Byte) (k : Nat), s.len < k →
      insert (fuel + 1) s c k = some (CSTRING_ERR, s)) ∧
    (∀ (s : string) (i : Nat), s.len ≤ i → get s i = some (toChar CSTRING_ERR)) ∧
    (∀ (s : string) (i : Nat) (c : Byte), s.len ≤ i →
      set s i c = some (toChar CSTRING_ERR, s)) ∧
    (∀ (s : string) (i : Nat), s.len ≤ i → rem s i = some (toChar CSTRING_ERR, s)) ∧
    (∀ (fuel : Nat) (W : World) (h i j : Nat) (s : string), deref W h = some s →
      j ≤ i ∨ s.len < j → substrn fuel W h i j = some (none, W)) ∧
    toChar CSTRING_ERR = 0 := by
  refine ⟨?_, ?_, ?_, ?_, ?_, rfl⟩
  · intro fuel s c k hk
    have : k > s.len := hk
    simp [insert, this]
  · intro s i hi
    have : i ≥ s.len := hi
    simp [get, this]
  · intro s i c hi
    have : i ≥ s.len := hi
    simp [set, this]
  · intro s i hi
    have : i ≥ s.len := hi
    simp [rem, this]
  · intro fuel W h i j s hd hbad
    have : ¬ (i < j ∧ j ≤ s.len) := by omega
    simp [substrn, hd, this]

/-- C7, witness: the error paths on `"hello"` and `"hello world"`. -/
theorem error_paths_keep_string_witness :
    insert 1 helloString (bytes "x" ++ [0]) 6 = some (CSTRING_ERR, helloString) ∧
    get helloString 5 = some (toChar CSTRING_ERR) ∧
    set helloString 5 97 = some (toChar CSTRING_ERR, helloString) ∧
    rem helloString 5 = some (toChar CSTRING_ERR, helloString) ∧
    substrn 2 helloWorld 0 3 3 = some (none, helloWorld) ∧
    substrn 2 helloWorld 0 3 12 = some (none, helloWorld) :=
  ⟨error_paths_keep_string.1 0 helloString _ 6 (by decide),
   error_paths_keep_string.2.1 helloString 5 (by decide),
   error_paths_keep_string.2.2.1 helloString 5 97 (by decide),
   error_paths_keep_string.2.2.2.1 helloString 5 (by decide),
   error_paths_keep_string.2.2.2.2.1 2 helloWorld 0 3 3 _ rfl (Or.inl (by decide)),
   error_paths_keep_string.2.2.2.2.1 2 helloWorld 0 3 12 _ rfl (Or.inr (by decide))⟩

/-- C8, counterexample: after `cstring("ab")` and `set(s, 0, 0)` the content is `0 b`;
`b` occurs in it at offset 1, yet `find(s, "b")` returns `CSTRING_EOL`, because `strstr`
stops at the first zero byte. -/
theorem find_stops_at_zero_byte :
    ∃ h W0 r0 W s,
      cstring 2 cstring_init (some (bytes "ab" ++ [0])) = some (h, W0) ∧
      call W0 h (fun x => set x 0 0) = some (r0, W) ∧ deref W h = some s ∧
      find s (bytes "b" ++ [0]) = some CSTRING_EOL ∧
      occursAt (bytes "b") (content s) 1 :=
  ⟨0, _, _, _, _, rfl, rfl, rfl, rfl, by unfold occursAt; decide⟩

/-- C8, as amended: for every string `s` whose content holds no zero byte and whose
storage keeps a zero after the content (`len < cap`, zero past `len`), with
`len < 2 ^ 31`, and every zero-free pattern `cs`, `find(s, cs)` returns `CSTRING_EOL`
exactly when `cs` occurs nowhere in the content, and otherwise returns the smallest offset
`r ≥ 0` at which `cs` occurs (no occurrence starts before `r`). -/
theorem find_first_occurrence (s : string) (cs rest : List Byte) (hwf : wf s)
    (hcap : s.len < s.cap) (hp : padded s) (hz : zeroFree (content s))
    (hc : zeroFree cs) (h31 : s.len < 2 ^ 31) :
    ∃ r, find s (cs ++ 0 :: rest) = some r ∧
      (r = CSTRING_EOL ↔ ∀ o, ¬ occursAt cs (content s) o) ∧
      (r ≠ CSTRING_EOL → 0 ≤ r ∧ occursAt cs (content s) r.toNat ∧
        ∀ o, o < r.toNat → ¬ occursAt cs (content s) o) ∧
      CSTRING_EOL < 0 := by
  have hf := find_eq s cs rest hwf hcap hp hz hc
  cases ho : firstOcc cs (content s) with
  | none =>
    rw [ho] at hf
    refine ⟨CSTRING_EOL, hf, ⟨fun _ => firstOcc_none cs _ ho, fun _ => rfl⟩, fun hne => ?_,
      by decide⟩
    exact absurd rfl hne
  | some o =>
    simp only [ho] at hf
    obtain ⟨h1, h2, h3⟩ := firstOcc_some cs _ o ho
    have hlt : o < 2 ^ 31 := by rw [content_length s hwf] at h1; omega
    rw [toInt32_of_lt hlt] at hf
    have hne : (o : Int) ≠ CSTRING_EOL := by unfold CSTRING_EOL; omega
    refine ⟨(o : Int), hf, ⟨fun he => absurd he hne, fun hall => absurd h2 (hall o)⟩,
      fun _ => ⟨by omega, by simpa using h2, fun o' ho' => h3 o' (by simpa using ho')⟩,
      by decide⟩

/-- C8, witness: `find` of `"l"` in `"hello"`. -/
theorem find_first_occurrence_witness :
    ∃ r, find helloString (bytes "l" ++ 0 :: []) = some r ∧
      (r = CSTRING_EOL ↔ ∀ o, ¬ occursAt (bytes "l") (content helloString) o) ∧
      (r ≠ CSTRING_EOL → 0 ≤ r ∧ occursAt (bytes "l") (content helloString) r.toNat ∧
        ∀ o, o < r.toNat → ¬ occursAt (bytes "l") (content helloString) o) ∧
      CSTRING_EOL < 0 :=
  find_first_occurrence helloString (bytes "l") [] (by unfold wf; decide) (by decide)
    (by unfold padded; decide) (by unfold zeroFree; decide) (by unfold zeroFree; decide)
    (Nat.lt_of_lt_of_le (show _ < 100 by decide) (by norm_num))

/-- C10, counterexample: after `cstring("ab")`, `set(s, 0, 0)` and `append(s, "x")` the
content is `0 b x`, and `find(s, "x")` returns `CSTRING_EOL`. -/
theorem find_after_append_misses :
    ∃ h W0 r0 W s s1,
      cstring 2 cstring_init (some (bytes "ab" ++ [0])) = some (h, W0) ∧
      call W0 h (fun x => set x 0 0) = some (r0, W) ∧ deref W h = some s ∧
      append 2 s (bytes "x" ++ [0]) = some (CSTRING_SUC, s1) ∧
      content s1 = content s ++ bytes "x" ∧
      find s1 (bytes "x" ++ [0]) = some CSTRING_EOL :=
  ⟨0, _, _, _, _, _, rfl, rfl, rfl, rfl, by decide, rfl⟩

/-- C10, as amended: for every string `s` whose content holds no zero byte and whose
storage is zero past `len`, and every zero-free `cs` with `len + |cs| < 2 ^ 31` and
`len + |cs| ≠ cap` (so a zero stays after the new content), after `append(s, cs)` the call
`find(s, cs)` returns an offset `r` with `0 ≤ r ≤` the old length, not `CSTRING_EOL`. -/
theorem find_after_append (fuel : Nat) (s : string) (cs rest : List Byte) (hwf : wf s)
    (hp : padded s) (hz : zeroFree (content s)) (hc : zeroFree cs)
    (hroom : s.len + cs.length ≠ s.cap) (h31 : s.len + cs.length < 2 ^ 31) :
    ∃ s1 r, append (fuel + 2) s (cs ++ 0 :: rest) = some (CSTRING_SUC, s1) ∧
      find s1 (cs ++ 0 :: rest) = some r ∧ r ≠ CSTRING_EOL ∧ 0 ≤ r ∧ r ≤ (s.len : Int) := by
  have hA : CSTRING_ALC = 15 := rfl
  have hcl := content_length s hwf
  obtain ⟨s1, a1, a2, a3, a4, _, a6, a7⟩ := insert_spec fuel s cs rest s.len hwf hc
    (Nat.le_refl _) (by omega) (fun _ => by omega) (fun _ => by omega)
  have hcont : content s1 = content s ++ cs := by
    rw [a2, ← hcl, List.take_length, List.drop_length, List.append_nil]
  have hcap1 : s1.len < s1.cap := by
    rw [a3, a4]; split <;> omega
  have hz1 : zeroFree (content s1) := by
    rw [hcont]
    intro b hb
    rcases List.mem_append.mp hb with hb | hb
    · exact hz b hb
    · exact hc b hb
  have hf := find_eq s1 cs rest a6 hcap1 (a7 hp) hz1 hc
  have hocc : occursAt cs (content s1) s.len := by
    unfold occursAt
    rw [hcont, ← hcl, List.drop_left]
  obtain ⟨o, ho, hle⟩ := firstOcc_le cs (content s1) s.len hocc
  simp only [ho] at hf
  rw [toInt32_of_lt (by omega)] at hf
  refine ⟨s1, (o : Int), a1, hf, by unfold CSTRING_EOL; omega, by omega, by omega⟩

/-- C10, witness: `append` of `" world"` to `"hello"`, then `find`. -/
theorem find_after_append_witness :
    ∃ s1 r, append 2 helloString (bytes " world" ++ 0 :: []) = some (CSTRING_SUC, s1) ∧
      find s1 (bytes " world" ++ 0 :: []) = some r ∧ r ≠ CSTRING_EOL ∧ 0 ≤ r ∧
      r ≤ (helloString.len : Int) :=
  find_after_append 0 helloString (bytes " world") [] (by unfold wf; decide)
    (by unfold padded; decide) (by unfold zeroFree; decide) (by unfold zeroFree; decide)
    (by decide) (Nat.lt_of_lt_of_le (show _ < 100 by decide) (by norm_num))

/-- An occurrence that fits into the first part of an appended list lies in that part. -/
theorem occursAt_append_left (cs a b : List Byte) (r : Nat) (h : occursAt cs (a ++ b) r)
    (hfit : r + cs.length ≤ a.length) : occursAt cs a r := by
  unfold occursAt at h ⊢
  rw [List.drop_append_of_le_length (by omega)] at h
  exact List.prefix_of_prefix_length_le h (List.prefix_append _ _) (by simp; omega)

/-- A text longer than the list occurs nowhere in it. -/
theorem not_occursAt_of_length (cs t : List Byte) (h : t.length < cs.length) :
    ∀ r, ¬ occursAt cs t r := by
  intro r hr
  have h1 := hr.length_le
  rw [List.length_drop] at h1
  omega

/-- C11, counterexample: `"aa"` does not occur in the content `"a"`, and after
`append(s, "aa")` the call `find(s, "aa")` returns 0, which is below the old length 1. -/
theorem find_after_append_straddles :
    ∃ h W s s1,
      cstring 2 cstring_init (some (bytes "a" ++ [0])) = some (h, W) ∧
      deref W h = some s ∧ s.len = 1 ∧
      (∀ r, ¬ occursAt (bytes "aa") (content s) r) ∧
      append 2 s (bytes "aa" ++ [0]) = some (CSTRING_SUC, s1) ∧
      find s1 (bytes "aa" ++ [0]) = some 0 :=
  ⟨0, _, _, _, rfl, rfl, rfl,
    not_occursAt_of_length _ _ (by decide),
    rfl, rfl⟩

/-- C11, as amended: for every string `s` whose content holds no zero byte and whose
storage is zero past `len`, and every zero-free `cs` that occurs nowhere in the content
of `s`, with `len + |cs| < 2 ^ 31` and `len + |cs| ≠ cap`, after `append(s, cs)` the call
`find(s, cs)` returns an offset `r` with `r ≤ old len < r + |cs|`: the occurrence found
reaches into the appended bytes, and it may start before the old length. -/
theorem find_after_append_absent (fuel : Nat) (s : string) (cs rest : List Byte)
    (hwf : wf s) (hp : padded s) (hz : zeroFree (content s)) (hc : zeroFree cs)
    (hno : ∀ r, ¬ occursAt cs (content s) r)
    (hroom : s.len + cs.length ≠ s.cap) (h31 : s.len + cs.length < 2 ^ 31) :
    ∃ s1, ∃ r : Nat, append (fuel + 2) s (cs ++ 0 :: rest) = some (CSTRING_SUC, s1) ∧
      find s1 (cs ++ 0 :: rest) = some (r : Int) ∧ r ≤ s.len ∧ s.len < r + cs.length ∧
      occursAt cs (content s1) r := by
  have hA : CSTRING_ALC = 15 := rfl
  have hcl := content_length s hwf
  obtain ⟨s1, a1, a2, a3, a4, _, a6, a7⟩ := insert_spec fuel s cs rest s.len hwf hc
    (Nat.le_refl _) (by omega) (fun _ => by omega) (fun _ => by omega)
  have hcont : content s1 = content s ++ cs := by
    rw [a2, ← hcl, List.take_length, List.drop_length, List.append_nil]
  have hcap1 : s1.len < s1.cap := by
    rw [a3, a4]; split <;> omega
  have hz1 : zeroFree (content s1) := by
    rw [hcont]
    intro b hb
    rcases List.mem_append.mp hb with hb | hb
    · exact hz b hb
    · exact hc b hb
  have hf := find_eq s1 cs rest a6 hcap1 (a7 hp) hz1 hc
  have hocc : occursAt cs (content s1) s.len := by
    unfold occursAt
    rw [hcont, ← hcl, List.drop_left]
  obtain ⟨o, ho, hle⟩ := firstOcc_le cs (content s1) s.len hocc
  obtain ⟨_, o2, _⟩ := firstOcc_some cs (content s1) o ho
  simp only [ho] at hf
  rw [toInt32_of_lt (by omega)] at hf
  refine ⟨s1, o, a1, hf, hle, ?_, o2⟩
  by_contra hcon
  rw [hcont] at o2
  exact hno o (occursAt_append_left cs (content s) cs o o2 (by omega))

/-- C11, witness: `append` of `" world"` to `"hello"`, then `find`. -/
theorem find_after_append_absent_witness :
    ∃ s1, ∃ r : Nat, append 2 helloString (bytes " world" ++ 0 :: []) = some (CSTRING_SUC, s1) ∧
      find s1 (bytes " world" ++ 0 :: []) = some (r : Int) ∧ r ≤ helloString.len ∧
      helloString.len < r + (bytes " world").length ∧
      occursAt (bytes " world") (content s1) r :=
  find_after_append_absent 0 helloString (bytes " world") [] (by unfold wf; decide)
    (by unfold padded; decide) (by unfold zeroFree; decide) (by unfold zeroFree; decide)
    (not_occursAt_of_length _ _ (by decide))
    (by decide) (Nat.lt_of_lt_of_le (show _ < 100 by decide) (by norm_num))

/-- C12, counterexample: after `cstring("abc")` and `set(s, 1, 0)` the string has length 3
and content `a 0 c`; `substr(s, 0)` returns a string of length 1 with content `a`, not
the three bytes at `[0, len)`. -/
theorem substr_stops_at_zero_byte :
    ∃ h W0 r0 W s sub W1 t,
      cstring 2 cstring_init (some (bytes "abc" ++ [0])) = some (h, W0) ∧
      call W0 h (fun x => set x 1 0) = some (r0, W) ∧ deref W h = some s ∧
      s.len = 3 ∧ content s = [97, 0, 99] ∧
      substr 2 W h 0 = some (some sub, W1) ∧ deref W1 sub = some t ∧
      t.len = 1 ∧ content t = [97] :=
  ⟨0, _, _, _, _, _, _, _, rfl, rfl, rfl, rfl, by decide, rfl, rfl, rfl, by decide⟩

/-- C12, as amended: for every string `s` with a zero byte kept after its content
(`len < cap`, storage zero past `len`) and every `i < len` such that the bytes of `s`
at `[i, len)` are all non-zero and `len - i + 15 < 2 ^ 32`, in a state whose table is
allocated, `substr(s, i)` returns a new string whose content is the bytes of `s` at
`[i, len)` (length `len - i`) and leaves every existing string unchanged; for every
string and every `i ≥ len` it returns the null pointer and changes nothing. -/
theorem substr_content (fuel : Nat) (W : World) (h i : Nat) (s : string)
    (hd : deref W h = some s) :
    (i < s.len → wf s → s.len < s.cap → padded s → zeroFree ((content s).drop i) →
      RegOK W → s.len - i + CSTRING_ALC < 2 ^ 32 →
      ∃ W1 t, substr (fuel + 2) W h i = some (some W.heap.length, W1) ∧
        deref W1 W.heap.length = some t ∧ content t = (content s).drop i ∧
        t.len = s.len - i ∧ deref W1 h = some s ∧
        (∀ h1, h1 < W.heap.length → deref W1 h1 = deref W h1)) ∧
    (s.len ≤ i → substr fuel W h i = some (none, W)) := by
  constructor
  · intro hi hwf hcap hp hz hreg hfit
    have hcl := content_length s hwf
    have hdl : ((content s).drop i).length = s.len - i := by rw [List.length_drop, hcl]
    have hsplit : s.str.drop i = (content s).drop i ++ 0 :: s.str.drop (s.len + 1) := by
      conv_lhs => rw [str_split s hwf hcap hp]
      rw [List.drop_append_of_le_length (by omega)]
    obtain ⟨W1, i1, e1, e2⟩ := cstring_heap fuel W ((content s).drop i)
      (s.str.drop (s.len + 1)) hreg hz (by rw [hdl]; exact hfit)
    rw [← hsplit] at e1
    have hlt : h < W.heap.length := (deref_eq_some hd).1
    refine ⟨W1, { str := (content s).drop i ++ calloc CSTRING_ALC,
                  cap := CSTRING_ALC + ((content s).drop i).length,
                  len := ((content s).drop i).length, ind := i1 },
      by simp only [substr, hd, ge_iff_le, Nat.not_le.mpr hi, if_false, e1],
      deref_append_new W W1 _ e2, ?_, hdl,
      by rw [deref_append_left W W1 _ h e2 hlt, hd],
      fun h1 hlt1 => deref_append_left W W1 _ h1 e2 hlt1⟩
    show (((content s).drop i) ++ calloc CSTRING_ALC).take ((content s).drop i).length = _
    simp
  · intro hi
    simp only [substr, hd, ge_iff_le, hi, if_true]

/-- C12, witness: `substr` of `"hello world"` from offset 6, and from offset 11. -/
theorem substr_content_witness :
    (∃ W1 t, substr 2 helloWorld 0 6 = some (some helloWorld.heap.length, W1) ∧
        deref W1 helloWorld.heap.length = some t ∧
        content t = (content helloWorldString).drop 6 ∧
        t.len = helloWorldString.len - 6 ∧ deref W1 0 = some helloWorldString ∧
        (∀ h1, h1 < helloWorld.heap.length → deref W1 h1 = deref helloWorld h1)) ∧
    substr 0 helloWorld 0 11 = some (none, helloWorld) :=
  ⟨(substr_content 0 helloWorld 0 6 helloWorldString rfl).1 (by decide)
      (by unfold wf; decide) (by decide) (by unfold padded; decide)
      (by unfold zeroFree; decide) ⟨_, rfl, by decide, by decide, by decide⟩
      (Nat.lt_of_lt_of_le (show _ < 100 by decide) (by norm_num)),
    (substr_content 0 helloWorld 0 11 helloWorldString rfl).2 (by decide)⟩

/-- The scan of `remove_alloc` over slots that do not hold `h` changes nothing. -/
theorem remove_alloc_scan_absent (h : Nat) (t : List (Option Nat)) :
    ∀ (n i : Nat), i + n ≤ t.length →
      (∀ p, i ≤ p → p < i + n → t[p]? ≠ some (some h)) →
      remove_alloc_scan h n i t = some t := by
  intro n
  induction n with
  | zero => intro i _ _; rfl
  | succ n ih =>
    intro i hlen hno
    have hi : i < t.length := by omega
    have hne : t[i] ≠ some h := by
      intro e
      exact hno i (Nat.le_refl _) (by omega) (by rw [List.getElem?_eq_getElem hi, e])
    rw [remove_alloc_scan, List.getElem?_eq_getElem hi]
    simp only [hne, if_false]
    exact ih (i + 1) (by omega) (fun p h1 h2 => hno p (by omega) (by omega))

/-- The scan of `remove_alloc` clears the first slot that holds `h`. -/
theorem remove_alloc_scan_first (h : Nat) (t : List (Option Nat)) (j : Nat)
    (hj : t[j]? = some (some h)) :
    ∀ (n i : Nat), i ≤ j → j < i + n →
      (∀ p, i ≤ p → p < j → t[p]? ≠ some (some h)) →
      remove_alloc_scan h n i t = some (t.set j none) := by
  intro n
  induction n with
  | zero => intro i h1 h2; omega
  | succ n ih =>
    intro i h1 h2 hno
    have hjl : j < t.length := by
      rcases Nat.lt_or_ge j t.length with hlt | hge
      · exact hlt
      · rw [List.getElem?_eq_none hge] at hj; cases hj
    have hi : i < t.length := by omega
    rw [remove_alloc_scan, List.getElem?_eq_getElem hi]
    by_cases hij : i = j
    · subst hij
      rw [List.getElem?_eq_getElem hi] at hj
      have e : t[i] = some h := Option.some.inj hj
      simp only [e, if_true]
    · have hne : t[i] ≠ some h := by
        intro e
        exact hno i (Nat.le_refl _) (by omega) (by rw [List.getElem?_eq_getElem hi, e])
      simp only [hne, if_false]
      exact ih (i + 1) (by omega) (by omega) (fun p h3 h4 => hno p (by omega) h4)

/-- C19: in every state whose table is allocated with `max_allocs` entries, for every
live string `s`: if `s` is registered (it occupies exactly one slot `i`),
`remove_alloc(s)` returns with `s` in no slot, every other slot, the capacity
`max_allocs`, the high-water mark `num_allocs` and the heap as before; if `s` is in no
slot, `remove_alloc(s)` returns the state unchanged. -/
theorem remove_alloc_frame (W : World) (h : Nat) (s : string) (t : List (Option Nat))
    (hd : deref W h = some s) (ht : W.allocs = some t) (hl : t.length = W.max_allocs) :
    (∀ i : Nat, t[i]? = some (some h) → (∀ j : Nat, j ≠ i → t[j]? ≠ some (some h)) →
      ∃ (W1 : World) (t1 : List (Option Nat)), remove_alloc W h = some W1 ∧
        W1.allocs = some t1 ∧
        (∀ j : Nat, t1[j]? ≠ some (some h)) ∧ (∀ j : Nat, j ≠ i → t1[j]? = t[j]?) ∧
        t1.length = t.length ∧ W1.max_allocs = W.max_allocs ∧
        W1.num_allocs = W.num_allocs ∧ W1.heap = W.heap) ∧
    ((∀ j : Nat, t[j]? ≠ some (some h)) → remove_alloc W h = some W) := by
  constructor
  · intro i hi huniq
    have hres : remove_alloc W h = some { W with allocs := some (t.set i none) } := by
      have hscan : remove_alloc_scan h W.max_allocs 0 t = some (t.set i none) := by
        have hil : i < t.length := by
          rcases Nat.lt_or_ge i t.length with hlt | hge
          · exact hlt
          · rw [List.getElem?_eq_none hge] at hi; cases hi
        exact remove_alloc_scan_first h t i hi W.max_allocs 0 (Nat.zero_le _) (by omega)
          (fun p _ hp => huniq p (by omega))
      simp only [remove_alloc, hd, ht]
      by_cases hind : s.ind < W.max_allocs
      · have hil : s.ind < t.length := by omega
        rw [if_pos hind, List.getElem?_eq_getElem hil]
        by_cases he : t[s.ind] = some h
        · have : s.ind = i := by
            by_contra hne
            exact huniq s.ind hne (by rw [List.getElem?_eq_getElem hil, he])
          show (if t[s.ind] = some h then _ else _) = _
          rw [if_pos he, this]
        · simp only [he, if_false, hscan, Option.map_some']
      · rw [if_neg hind, hscan, Option.map_some']
    refine ⟨_, _, hres, rfl, ?_, ?_, List.length_set _ _ _, rfl, rfl, rfl⟩
    · intro j
      by_cases hji : j = i
      · subst hji
        by_cases hjl : j < t.length
        · rw [List.getElem?_set_self hjl]; simp
        · rw [List.getElem?_eq_none (by simp; omega)]; simp
      · rw [List.getElem?_set_ne (Ne.symm hji)]
        exact huniq j hji
    · intro j hji
      rw [List.getElem?_set_ne (Ne.symm hji)]
  · intro hno
    have hscan : remove_alloc_scan h W.max_allocs 0 t = some t :=
      remove_alloc_scan_absent h t W.max_allocs 0 (by omega) (fun p _ _ => hno p)
    have hW : ({ W with allocs := some t } : World) = W := by
      cases W; simp only [World.mk.injEq] at ht ⊢; simp_all
    simp only [remove_alloc, hd, ht]
    by_cases hind : s.ind < W.max_allocs
    · have hil : s.ind < t.length := by omega
      rw [if_pos hind, List.getElem?_eq_getElem hil]
      have he : t[s.ind] ≠ some h := by
        intro e
        exact hno s.ind (by rw [List.getElem?_eq_getElem hil, e])
      simp only [he, if_false, hscan, Option.map_some', hW]
    · rw [if_neg hind, hscan, Option.map_some', hW]

/-- C19, witness: in the state with `"hello"` in slot 0 and `" world"` in slot 1,
`remove_alloc` of the second string; and the same call when only slot 0 is occupied. -/
theorem remove_alloc_frame_witness :
    (∃ (W1 : World) (t1 : List (Option Nat)), remove_alloc twoStrings 1 = some W1 ∧
        W1.allocs = some t1 ∧
        (∀ j : Nat, t1[j]? ≠ some (some 1)) ∧
        (∀ j : Nat, j ≠ 1 → t1[j]? = (some 0 :: some 1 :: List.replicate 13 none)[j]?) ∧
        t1.length = (some 0 :: some 1 :: List.replicate 13 (none : Option Nat)).length ∧
        W1.max_allocs = twoStrings.max_allocs ∧
        W1.num_allocs = twoStrings.num_allocs ∧ W1.heap = twoStrings.heap) ∧
    remove_alloc { twoStrings with allocs := some (some 0 :: List.replicate 14 none) } 1 =
      some { twoStrings with allocs := some (some 0 :: List.replicate 14 none) } :=
  ⟨(remove_alloc_frame twoStrings 1 _ _ rfl rfl rfl).1 1 rfl (fun j hj e => by
      match j, hj, e with
      | 0, _, e => simp at e
      | 1, hj, _ => exact hj rfl
      | j + 2, _, e =>
        simp only [List.getElem?_cons_succ, List.getElem?_replicate] at e
        split at e <;> simp at e),
    (remove_alloc_frame { twoStrings with allocs := some (some 0 :: List.replicate 14 none) }
      1 _ _ rfl rfl rfl).2 (fun j e => by
      match j, e with
      | 0, e => simp at e
      | j + 1, e =>
        simp only [List.getElem?_cons_succ, List.getElem?_replicate] at e
        split at e <;> simp at e)⟩

/-- An index that reads an entry lies inside the list. -/
theorem lt_of_getElem?_eq_some {α : Type} {l : List α} {i : Nat} {a : α}
    (h : l[i]? = some a) : i < l.length := by
  rcases Nat.lt_or_ge i l.length with hlt | hge
  · exact hlt
  · rw [List.getElem?_eq_none hge] at h; cases h

/-- Below an empty slot there is a first empty slot. -/
theorem firstFree_exists (t : List (Option Nat)) (p : Nat) (hp : t[p]? = some none) :
    ∃ j, j ≤ p ∧ firstFree t j := by
  classical
  have hex : ∃ j : Nat, t[j]? = some none := ⟨p, hp⟩
  exact ⟨Nat.find hex, Nat.find_min' hex hp, Nat.find_spec hex,
    fun q hq => Nat.find_min hex hq⟩

/-- The first empty slot is unique. -/
theorem firstFree_unique (t : List (Option Nat)) (i j : Nat) (hi : firstFree t i)
    (hj : firstFree t j) : i = j := by
  rcases Nat.lt_trichotomy i j with h | h | h
  · exact absurd hi.1 (hj.2 i h)
  · exact h
  · exact absurd hj.1 (hi.2 j h)

/-- The scan of `add_alloc` puts the structure into the first empty slot. -/
theorem add_alloc_scan_place (h : Nat) (s : string) (t : List (Option Nat)) (W : World)
    (ht : W.allocs = some t) (hd : deref W h = some s) (j : Nat) (hj : firstFree t j) :
    ∀ (n i : Nat), i ≤ j → j < i + n → add_alloc_scan h n i W = some (place W h s t j) := by
  intro n
  induction n with
  | zero => intro i h1 h2; omega
  | succ n ih =>
    intro i h1 h2
    have hjl : j < t.length := lt_of_getElem?_eq_some hj.1
    have hi : i < t.length := by omega
    by_cases hij : i = j
    · subst hij
      simp only [add_alloc_scan, ht, hj.1, hd, place]
    · have hne := hj.2 i (by omega)
      rw [List.getElem?_eq_getElem hi] at hne
      cases hx : t[i] with
      | none => rw [hx] at hne; exact absurd rfl hne
      | some a =>
        simp only [add_alloc_scan, ht, List.getElem?_eq_getElem hi, hx]
        exact ih (i + 1) (by omega) (by omega)

/-- The copy loop of `add_alloc` copies the entries `[i, i + n)`. -/
theorem add_alloc_copy_spec (o : List (Option Nat)) :
    ∀ (n i : Nat) (t : List (Option Nat)), i + n ≤ o.length → i + n ≤ t.length →
      ∃ t1, add_alloc_copy (some o) n i t = some t1 ∧ t1.length = t.length ∧
        ∀ p : Nat, t1[p]? = if i ≤ p ∧ p < i + n then o[p]? else t[p]? := by
  intro n
  induction n with
  | zero =>
    intro i t _ _
    refine ⟨t, by simp [add_alloc_copy], rfl, fun p => ?_⟩
    rw [if_neg (by omega)]
  | succ n ih =>
    intro i t ho ht
    have hi : i < o.length := by omega
    have hi2 : i < t.length := by omega
    obtain ⟨t1, e1, e2, e3⟩ := ih (i + 1) (t.set i o[i]) (by omega) (by simp; omega)
    refine ⟨t1, ?_, by simpa using e2, fun p => ?_⟩
    · simp [add_alloc_copy, List.getElem?_eq_getElem hi, hi2, e1]
    · rw [e3 p]
      by_cases hp : p = i
      · subst hp
        rw [if_neg (by omega), if_pos (by omega), List.getElem?_set_self hi2,
          List.getElem?_eq_getElem hi]
      · rw [List.getElem?_set_ne (Ne.symm hp)]
        by_cases hq : i + 1 ≤ p ∧ p < i + 1 + n
        · rw [if_pos hq, if_pos (by omega)]
        · rw [if_neg hq, if_neg (by omega)]

/-- The copy loop of `add_alloc` into a fresh table that is large enough gives the old
table followed by empty slots. -/
theorem add_alloc_copy_all (o : List (Option Nat)) (m : Nat) (h : o.length ≤ m) :
    add_alloc_copy (some o) o.length 0 (List.replicate m none) =
      some (o ++ List.replicate (m - o.length) none) := by
  obtain ⟨t1, e1, e2, e3⟩ := add_alloc_copy_spec o o.length 0 (List.replicate m none)
    (by omega) (by simp; omega)
  rw [e1]
  congr 1
  apply List.ext_getElem?
  intro p
  rw [e3 p]
  by_cases hp : p < o.length
  · rw [if_pos (by omega), List.getElem?_append_left hp]
  · rw [if_neg (by omega), List.getElem?_append_right (by omega), List.getElem?_replicate,
      List.getElem?_replicate]
    by_cases hq : p < m
    · rw [if_pos hq, if_pos (by omega)]
    · rw [if_neg hq, if_neg (by omega)]

/-- The copy loop of `add_alloc` into a table that is too short writes past its end. -/
theorem add_alloc_copy_short (o : List (Option Nat)) :
    ∀ (n i : Nat) (t : List (Option Nat)), i ≤ t.length → t.length < i + n →
      add_alloc_copy (some o) n i t = none := by
  intro n
  induction n with
  | zero => intro i t h1 h2; omega
  | succ n ih =>
    intro i t h1 h2
    simp only [add_alloc_copy]
    cases o[i]? with
    | none => rfl
    | some e =>
      by_cases hi : i < t.length
      · simp only [hi, if_true]
        exact ih (i + 1) (t.set i e) (by simp; omega) (by simp; omega)
      · simp only [hi, if_false]

/-- `add_alloc` below the high-water test: the structure goes into the first empty
slot and the table keeps its size. -/
theorem add_alloc_place (fuel : Nat) (W : World) (h : Nat) (s : string)
    (t : List (Option Nat)) (j : Nat) (ht : W.allocs = some t)
    (hl : t.length = W.max_allocs) (hd : deref W h = some s)
    (hc : u32 (W.num_allocs + 1) < W.max_allocs) (hj : firstFree t j) :
    add_alloc (fuel + 1) W h = some (place W h s t j) := by
  rw [add_alloc.eq_2, if_pos hc]
  exact add_alloc_scan_place h s t W ht hd j hj W.max_allocs 0 (Nat.zero_le _)
    (by have := lt_of_getElem?_eq_some hj.1; omega)

/-- `add_alloc` at the high-water test: the table is replaced and the call retried. -/
theorem add_alloc_grow (fuel : Nat) (W : World) (h : Nat) (t : List (Option Nat))
    (ht : W.allocs = some t) (hl : t.length = W.max_allocs)
    (hc : ¬ u32 (W.num_allocs + 1) < W.max_allocs)
    (h32 : W.max_allocs * CSTRING_EXT < 2 ^ 32) :
    add_alloc (fuel + 1) W h = add_alloc fuel (grown W t) h := by
  have hE : W.max_allocs * CSTRING_EXT = W.max_allocs * 2 := rfl
  have hu := u32_of_lt h32
  have hcopy := add_alloc_copy_all t (W.max_allocs * CSTRING_EXT) (by omega)
  rw [hl] at hcopy
  rw [add_alloc.eq_2, if_neg hc]
  simp only [ht, hu, hcopy, grown, hl]

/-- `add_alloc` at the high-water test when twice the capacity is no `uint32`: the new
table is shorter than the old one and the copy loop leaves it. -/
theorem add_alloc_overflow (fuel : Nat) (W : World) (h : Nat) (t : List (Option Nat))
    (ht : W.allocs = some t) (hc : ¬ u32 (W.num_allocs + 1) < W.max_allocs)
    (hmax : W.max_allocs < 2 ^ 32) (h32 : 2 ^ 32 ≤ W.max_allocs * CSTRING_EXT) :
    add_alloc fuel W h = none := by
  have hE : W.max_allocs * CSTRING_EXT = W.max_allocs * 2 := rfl
  cases fuel with
  | zero => rfl
  | succ fuel =>
    have hnew : u32 (W.max_allocs * CSTRING_EXT) < W.max_allocs := by
      unfold u32
      rw [Nat.mod_eq_sub_mod h32, Nat.mod_eq_of_lt (by omega)]
      omega
    rw [add_alloc.eq_2, if_neg hc]
    simp only [ht]
    rw [add_alloc_copy_short t W.max_allocs 0 _ (Nat.zero_le _) (by simpa using hnew)]

/-- A structure read from a heap with one entry rewritten. -/
theorem deref_set_ne (W W1 : World) (h h1 : Nat) (x : Option string)
    (hh : W1.heap = W.heap.set h x) (hne : h ≠ h1) : deref W1 h1 = deref W h1 := by
  unfold deref
  rw [hh, List.getElem?_set_ne hne]

theorem deref_set_same (W W1 : World) (h : Nat) (x : Option string)
    (hh : W1.heap = W.heap.set h x) (hlt : h < W.heap.length) : deref W1 h = x := by
  unfold deref
  rw [hh, List.getElem?_set_self hlt]
  rfl

/-- Under the invariant the slots above the high-water mark are empty. -/
theorem RegInv_above (W : World) (p : Option Nat) (t : List (Option Nat))
    (hinv : RegInv W p) (ht : W.allocs = some t) (i : Nat) (h1 : W.num_allocs < i)
    (h2 : i < W.max_allocs) : t[i]? = some none := by
  obtain ⟨t0, a1, a2, a3, a4, a5, a6⟩ := hinv
  have e : t0 = t := Option.some.inj (a1.symm.trans ht)
  subst e
  have hi : i < t0.length := by omega
  rw [List.getElem?_eq_getElem hi]
  cases hx : t0[i] with
  | none => rfl
  | some x =>
    have := (a5 i x (by rw [List.getElem?_eq_getElem hi, hx])).1
    omega

/-- The invariant after the structure `pending` is put into the first empty slot. -/
theorem RegInv_place (W : World) (h : Nat) (s : string) (t : List (Option Nat)) (j : Nat)
    (hinv : RegInv W (some h)) (ht : W.allocs = some t) (hd : deref W h = some s)
    (hj : firstFree t j) : RegInv (place W h s t j) none := by
  obtain ⟨t0, a1, a2, a3, a4, a5, a6⟩ := hinv
  have e : t0 = t := Option.some.inj (a1.symm.trans ht)
  subst e
  have hjl : j < t0.length := lt_of_getElem?_eq_some hj.1
  have hlt : h < W.heap.length := (deref_eq_some hd).1
  refine ⟨t0.set j (some h), rfl, by simpa [place] using a2, ?_, a4, ?_, ?_⟩
  · show (if j > W.num_allocs then j else W.num_allocs) < W.max_allocs
    split <;> omega
  · intro i x hx
    by_cases hij : i = j
    · subst hij
      rw [List.getElem?_set_self hjl] at hx
      cases hx
      refine ⟨?_, by simp, { s with ind := i }, deref_set_same W _ h _ rfl hlt, rfl⟩
      show i ≤ (if i > W.num_allocs then i else W.num_allocs)
      split <;> omega
    · rw [List.getElem?_set_ne (Ne.symm hij)] at hx
      obtain ⟨b1, b2, s1, b3, b4⟩ := a5 i x hx
      have hxh : h ≠ x := fun e => b2 (by rw [e])
      refine ⟨?_, by simp, s1, by rw [deref_set_ne W _ h x _ rfl hxh]; exact b3, b4⟩
      show i ≤ (if j > W.num_allocs then j else W.num_allocs)
      split <;> omega
  · intro x s1 hx _
    by_cases hxh : x = h
    · subst hxh
      rw [deref_set_same W _ x _ rfl hlt] at hx
      cases hx
      exact List.getElem?_set_self hjl
    · rw [deref_set_ne W _ h x _ rfl (Ne.symm hxh)] at hx
      have b := a6 x s1 hx (by simpa using hxh)
      have hne : j ≠ s1.ind := by
        intro e
        rw [← e, hj.1] at b
        cases b
      show (t0.set j (some h))[s1.ind]? = _
      rw [List.getElem?_set_ne hne]
      exact b

/-- The invariant after the table is replaced by one of twice the capacity. -/
theorem RegInv_grown (W : World) (p : Option Nat) (t : List (Option Nat))
    (hinv : RegInv W p) (ht : W.allocs = some t)
    (h32 : W.max_allocs * CSTRING_EXT < 2 ^ 32) : RegInv (grown W t) p := by
  obtain ⟨t0, a1, a2, a3, a4, a5, a6⟩ := hinv
  have e : t0 = t := Option.some.inj (a1.symm.trans ht)
  subst e
  have hE : W.max_allocs * CSTRING_EXT = W.max_allocs * 2 := rfl
  refine ⟨_, rfl, ?_, ?_, h32, ?_, ?_⟩
  · show (t0 ++ List.replicate (W.max_allocs * CSTRING_EXT - t0.length) none).length =
      W.max_allocs * CSTRING_EXT
    simp; omega
  · show W.num_allocs < W.max_allocs * CSTRING_EXT
    omega
  · intro i x hx
    have hil : i < t0.length := by
      by_contra hge
      rw [List.getElem?_append_right (by omega), List.getElem?_replicate] at hx
      split at hx <;> cases hx
    rw [List.getElem?_append_left hil] at hx
    exact a5 i x hx
  · intro x s1 hx hp
    have b := a6 x s1 hx hp
    show (t0 ++ _)[s1.ind]? = _
    rw [List.getElem?_append_left (lt_of_getElem?_eq_some b)]
    exact b

/-- `add_alloc` keeps the invariant: whenever it returns, the pending structure is
registered, and only its `ind` has changed on the heap. -/
theorem add_alloc_inv : ∀ (fuel : Nat) (W : World) (h : Nat) (s : string) (W1 : World),
    RegInv W (some h) → deref W h = some s → add_alloc fuel W h = some W1 →
      RegInv W1 none ∧ W1.heap.length = W.heap.length ∧
      (∀ h1, h1 ≠ h → deref W1 h1 = deref W h1) ∧ ∃ j, deref W1 h = some { s with ind := j } := by
  intro fuel
  induction fuel with
  | zero => intro W h s W1 _ _ hr; simp [add_alloc] at hr
  | succ f ih =>
    intro W h s W1 hinv hd hr
    have hinv0 := hinv
    obtain ⟨t, a1, a2, a3, a4, a5, a6⟩ := hinv
    have hlt : h < W.heap.length := (deref_eq_some hd).1
    by_cases hc : u32 (W.num_allocs + 1) < W.max_allocs
    · have hn1 : W.num_allocs + 1 < W.max_allocs := by
        rwa [u32_of_lt (by omega)] at hc
      obtain ⟨j, _, hj⟩ := firstFree_exists t (W.num_allocs + 1)
        (RegInv_above W _ t hinv0 a1 _ (by omega) hn1)
      rw [add_alloc_place f W h s t j a1 a2 hd hc hj] at hr
      cases hr
      refine ⟨RegInv_place W h s t j hinv0 a1 hd hj, by simp [place], ?_, j, ?_⟩
      · intro h1 hne
        exact deref_set_ne W _ h h1 _ rfl (Ne.symm hne)
      · exact deref_set_same W _ h _ rfl hlt
    · by_cases h32 : W.max_allocs * CSTRING_EXT < 2 ^ 32
      · rw [add_alloc_grow f W h t a1 a2 hc h32] at hr
        exact ih (grown W t) h s W1 (RegInv_grown W _ t hinv0 a1 h32) hd hr
      · rw [add_alloc_overflow (f + 1) W h t a1 hc a4 (by omega)] at hr
        cases hr

/-- What `cstring` does to the state when it returns: a new structure at the end of the
heap, handed to `add_alloc`. -/
theorem cstring_some (fuel : Nat) (W : World) (a : Option (List Byte)) (h : Nat)
    (W1 : World) (hr : cstring fuel W a = some (h, W1)) :
    h = W.heap.length ∧
      ∃ snew, add_alloc fuel { W with heap := W.heap ++ [some snew] } W.heap.length = some W1 := by
  cases a with
  | none =>
    simp only [cstring] at hr
    cases hx : add_alloc fuel
        { W with heap := W.heap ++ [some { str := calloc CSTRING_ALC, cap := CSTRING_ALC,
                                           len := 0, ind := 0 }] } W.heap.length with
    | none => simp [hx] at hr
    | some W2 =>
      simp only [hx, Option.some.injEq, Prod.mk.injEq] at hr
      exact ⟨hr.1.symm, _, by rw [← hr.2]; exact hx⟩
  | some p =>
    simp only [cstring] at hr
    cases hs : strlen p with
    | none => simp [hs] at hr
    | some n =>
      simp only [hs, Option.map_some'] at hr
      cases hm : strncpy (calloc (u32 (CSTRING_ALC + u32 n))) p (u32 n) with
      | none => simp [hm] at hr
      | some m =>
        simp only [hm] at hr
        cases hx : add_alloc fuel
            { W with heap := W.heap ++ [some { str := m, cap := u32 (CSTRING_ALC + u32 n),
                                               len := u32 n, ind := 0 }] } W.heap.length with
        | none => simp [hx] at hr
        | some W2 =>
          simp only [hx, Option.some.injEq, Prod.mk.injEq] at hr
          exact ⟨hr.1.symm, _, by rw [← hr.2]; exact hx⟩

/-- The invariant with a new structure at the end of the heap, not yet registered. -/
theorem RegInv_push (W : World) (snew : string) (hinv : RegInv W none) :
    RegInv { W with heap := W.heap ++ [some snew] } (some W.heap.length) := by
  obtain ⟨t, a1, a2, a3, a4, a5, a6⟩ := hinv
  refine ⟨t, a1, a2, a3, a4, ?_, ?_⟩
  · intro i x hx
    obtain ⟨b1, _, s1, b3, b4⟩ := a5 i x hx
    have hlt : x < W.heap.length := (deref_eq_some b3).1
    refine ⟨b1, by simp; omega, s1, ?_, b4⟩
    rw [deref_append_left W _ (some snew) x rfl hlt]
    exact b3
  · intro x s1 hx hp
    have hne : x ≠ W.heap.length := by simpa using hp
    have hlt : x < W.heap.length := by
      have := (deref_eq_some hx).1
      simp at this
      omega
    rw [deref_append_left W _ (some snew) x rfl hlt] at hx
    exact a6 x s1 hx (by simp)

/-- `cstring` keeps the invariant: whenever it returns, the new structure is registered
and every other structure is as before. -/
theorem cstring_inv (fuel : Nat) (W : World) (a : Option (List Byte)) (h : Nat)
    (W1 : World) (hinv : RegInv W none) (hr : cstring fuel W a = some (h, W1)) :
    RegInv W1 none ∧ h = W.heap.length ∧ W1.heap.length = W.heap.length + 1 ∧
      (∀ h1, h1 < W.heap.length → deref W1 h1 = deref W h1) ∧ ∃ s, deref W1 h = some s := by
  obtain ⟨e1, snew, e2⟩ := cstring_some fuel W a h W1 hr
  have hd : deref { W with heap := W.heap ++ [some snew] } W.heap.length = some snew :=
    deref_append_new W _ snew rfl
  obtain ⟨b1, b2, b3, j, b4⟩ := add_alloc_inv fuel _ _ snew W1 (RegInv_push W snew hinv) hd e2
  refine ⟨b1, e1, by simpa using b2, ?_, _, by rw [e1]; exact b4⟩
  intro h1 hlt
  rw [b3 h1 (by omega)]
  exact deref_append_left W _ (some snew) h1 rfl hlt

/-- Under the invariant `remove_alloc` finds the structure in the slot its `ind` names. -/
theorem remove_alloc_direct (W : World) (h : Nat) (s : string) (t : List (Option Nat))
    (hinv : RegInv W none) (ht : W.allocs = some t) (hd : deref W h = some s) :
    s.ind < W.max_allocs ∧ t[s.ind]? = some (some h) ∧
      remove_alloc W h = some { W with allocs := some (t.set s.ind none) } := by
  obtain ⟨t0, a1, a2, a3, a4, a5, a6⟩ := hinv
  have e : t0 = t := Option.some.inj (a1.symm.trans ht)
  subst e
  have b := a6 h s hd (by simp)
  have hlt : s.ind < t0.length := lt_of_getElem?_eq_some b
  refine ⟨by omega, b, ?_⟩
  simp only [remove_alloc, hd, a1]
  rw [if_pos (by omega), b]
  simp

/-- `delete` keeps the invariant. -/
theorem delete_inv (W : World) (h : Nat) (W1 : World) (hinv : RegInv W none)
    (hr : delete W h = some W1) : RegInv W1 none := by
  have hinv0 := hinv
  obtain ⟨t, a1, a2, a3, a4, a5, a6⟩ := hinv
  cases hd : deref W h with
  | none => simp [delete, remove_alloc, hd] at hr
  | some s =>
    obtain ⟨b1, b2, b3⟩ := remove_alloc_direct W h s t hinv0 a1 hd
    simp only [delete, b3, Option.some.injEq] at hr
    subst hr
    have hlt : h < W.heap.length := (deref_eq_some hd).1
    have hil : s.ind < t.length := by omega
    refine ⟨t.set s.ind none, rfl, by simpa using a2, a3, a4, ?_, ?_⟩
    · intro i x hx
      have hne : i ≠ s.ind := by
        intro e
        rw [e, List.getElem?_set_self hil] at hx
        cases hx
      rw [List.getElem?_set_ne (Ne.symm hne)] at hx
      obtain ⟨c1, _, s1, c3, c4⟩ := a5 i x hx
      have hxh : h ≠ x := by
        intro e
        subst e
        rw [hd] at c3
        cases c3
        exact hne c4.symm
      exact ⟨c1, by simp, s1, by rw [deref_set_ne W _ h x none rfl hxh]; exact c3, c4⟩
    · intro x s1 hx _
      have hxh : h ≠ x := by
        intro e
        subst e
        rw [deref_set_same W _ h none rfl hlt] at hx
        cases hx
      rw [deref_set_ne W _ h x none rfl hxh] at hx
      have c := a6 x s1 hx (by simp)
      have hne : s.ind ≠ s1.ind := by
        intro e
        rw [← e, b2] at c
        exact hxh (Option.some.inj (Option.some.inj c))
      show (t.set s.ind none)[s1.ind]? = _
      rw [List.getElem?_set_ne hne]
      exact c

/-- The state at program start satisfies the invariant. -/
theorem RegInv_start : RegInv cstring_init none := by
  refine ⟨List.replicate CSTRING_ALC none, rfl, by simp [cstring_init], by decide,
    by decide, ?_, ?_⟩
  · intro i h hx
    rw [List.getElem?_replicate] at hx
    split at hx <;> cases hx
  · intro h s hd
    simp [deref, cstring_init] at hd

/-- Every reachable state satisfies the invariant. -/
theorem Reachable_inv (W : World) (hr : Reachable W) : RegInv W none := by
  induction hr with
  | start => exact RegInv_start
  | create fuel W a h W1 _ hc ih => exact (cstring_inv fuel W a h W1 ih hc).1
  | destroy W h W1 _ hd ih => exact delete_inv W h W1 ih hd

/-- C16: every state reachable from `cstring_init` by calls of `cstring` and `delete`
has `num_allocs < max_allocs` and a table of `max_allocs` entries in which every
occupied slot lies at or below `num_allocs` and holds one live string whose `ind` is
that slot; every live string stands in the slot its `ind` names and in no other, so the
test of `remove_alloc` at line 128 holds and the call clears that slot directly. -/
theorem registry_invariant (W : World) (hr : Reachable W) :
    W.num_allocs < W.max_allocs ∧
    ∃ t, W.allocs = some t ∧ t.length = W.max_allocs ∧
      (∀ (i h : Nat), t[i]? = some (some h) →
        i ≤ W.num_allocs ∧ ∃ s, deref W h = some s ∧ s.ind = i) ∧
      (∀ (h : Nat) (s : string), deref W h = some s →
        s.ind < W.max_allocs ∧ t[s.ind]? = some (some h) ∧
        (∀ i : Nat, t[i]? = some (some h) → i = s.ind) ∧
        remove_alloc W h = some { W with allocs := some (t.set s.ind none) }) := by
  have hinv := Reachable_inv W hr
  obtain ⟨t, a1, a2, a3, a4, a5, a6⟩ := hinv
  refine ⟨a3, t, a1, a2, fun i h hx => ⟨(a5 i h hx).1, (a5 i h hx).2.2⟩, fun h s hd => ?_⟩
  obtain ⟨b1, b2, b3⟩ := remove_alloc_direct W h s t (Reachable_inv W hr) a1 hd
  refine ⟨b1, b2, fun i hx => ?_, b3⟩
  obtain ⟨_, _, s1, c3, c4⟩ := a5 i h hx
  rw [hd] at c3
  cases c3
  exact c4.symm


/-- With a null table of non-zero capacity `add_alloc` dereferences the null pointer. -/
theorem add_alloc_null (fuel : Nat) (W : World) (h : Nat) (ht : W.allocs = none)
    (hpos : 0 < W.max_allocs) : add_alloc fuel W h = none := by
  cases fuel with
  | zero => rfl
  | succ f =>
    obtain ⟨n, hn⟩ : ∃ n, W.max_allocs = n + 1 := ⟨W.max_allocs - 1, by omega⟩
    rw [add_alloc.eq_2]
    split
    · rw [hn, add_alloc_scan, ht]
    · simp only [ht, hn, add_alloc_copy]

/-- With a null table of non-zero capacity `cstring` has no result. -/
theorem cstring_null_table (fuel : Nat) (W : World) (a : Option (List Byte))
    (ht : W.allocs = none) (hpos : 0 < W.max_allocs) : cstring fuel W a = none := by
  cases hr : cstring fuel W a with
  | none => rfl
  | some x =>
    obtain ⟨h, W1⟩ := x
    obtain ⟨_, snew, e⟩ := cstring_some fuel W a h W1 hr
    rw [add_alloc_null fuel { W with heap := W.heap ++ [some snew] } W.heap.length ht hpos] at e
    cases e

/-- The loop of `delete_all` from slot `i` on frees every structure: each occupied slot
holds a live structure, and each live structure stands in a slot that is still to come. -/
theorem delete_all_loop_spec :
    ∀ (n i : Nat) (hp : List (Option string)) (t : List (Option Nat)), i + n = t.length →
      (∀ (p x : Nat), i ≤ p → t[p]? = some (some x) →
        ∃ s, (hp[x]?).join = some s ∧ s.ind = p) →
      (∀ (x : Nat) (s : string), (hp[x]?).join = some s →
        i ≤ s.ind ∧ t[s.ind]? = some (some x)) →
      ∃ hp1 t1, delete_all_loop n i hp t = some (hp1, t1) ∧ hp1.length = hp.length ∧
        ∀ x : Nat, (hp1[x]?).join = none := by
  intro n
  induction n with
  | zero =>
    intro i hp t hlen _ h2
    refine ⟨hp, t, rfl, rfl, fun x => ?_⟩
    cases hx : (hp[x]?).join with
    | none => rfl
    | some s =>
      obtain ⟨b1, b2⟩ := h2 x s hx
      have := lt_of_getElem?_eq_some b2
      omega
  | succ n ih =>
    intro i hp t hlen h1 h2
    have hi : i < t.length := by omega
    cases hx : t[i] with
    | none =>
      have hx' : t[i]? = some none := by rw [List.getElem?_eq_getElem hi, hx]
      obtain ⟨hp1, t1, e1, e2, e3⟩ := ih (i + 1) hp t (by omega)
        (fun p x hp0 hpx => h1 p x (by omega) hpx)
        (fun x s hs => by
          obtain ⟨b1, b2⟩ := h2 x s hs
          refine ⟨?_, b2⟩
          by_contra hcon
          have : s.ind = i := by omega
          rw [this, hx'] at b2
          cases b2)
      refine ⟨hp1, t1, ?_, e2, e3⟩
      simp only [delete_all_loop, hx', e1]
    | some x =>
      have hx' : t[i]? = some (some x) := by rw [List.getElem?_eq_getElem hi, hx]
      obtain ⟨s, c1, c2⟩ := h1 i x (Nat.le_refl _) hx'
      have hxl : x < hp.length := by
        rcases Nat.lt_or_ge x hp.length with hlt | hge
        · exact hlt
        · rw [List.getElem?_eq_none hge] at c1; cases c1
      obtain ⟨hp1, t1, e1, e2, e3⟩ := ih (i + 1) (hp.set x none) (t.set i none)
        (by simp; omega)
        (fun p y hp0 hpy => by
          rw [List.getElem?_set_ne (by omega)] at hpy
          obtain ⟨s1, d1, d2⟩ := h1 p y (by omega) hpy
          have hne : x ≠ y := by
            intro e
            subst e
            rw [c1] at d1
            cases d1
            omega
          exact ⟨s1, by rw [List.getElem?_set_ne hne]; exact d1, d2⟩)
        (fun y s1 hs => by
          have hne : x ≠ y := by
            intro e
            subst e
            rw [List.getElem?_set_self hxl] at hs
            cases hs
          rw [List.getElem?_set_ne hne] at hs
          obtain ⟨b1, b2⟩ := h2 y s1 hs
          have hne2 : i ≠ s1.ind := by
            intro e
            rw [← e, hx'] at b2
            exact hne (Option.some.inj (Option.some.inj b2))
          refine ⟨by omega, ?_⟩
          rw [List.getElem?_set_ne hne2]
          exact b2)
      refine ⟨hp1, t1, ?_, by simpa using e2, e3⟩
      simp only [delete_all_loop, hx', c1, e1]

/-- Under the invariant `delete_all` frees every structure and the table, and leaves
`max_allocs` and `num_allocs` as they are. -/
theorem delete_all_spec (W : World) (hinv : RegInv W none) :
    ∃ W1, delete_all W = some W1 ∧ W1.heap.length = W.heap.length ∧
      (∀ h, deref W1 h = none) ∧ W1.allocs = none ∧ W1.max_allocs = W.max_allocs ∧
      W1.num_allocs = W.num_allocs := by
  obtain ⟨t, a1, a2, a3, a4, a5, a6⟩ := hinv
  obtain ⟨hp1, t1, e1, e2, e3⟩ := delete_all_loop_spec W.max_allocs 0 W.heap t (by omega)
    (fun p x _ hpx => (a5 p x hpx).2.2)
    (fun x s hs => ⟨Nat.zero_le _, a6 x s hs (by simp)⟩)
  exact ⟨{ W with heap := hp1, allocs := none }, by simp only [delete_all, a1, e1], e2,
    e3, rfl, rfl, rfl⟩

/-- Calls of `cstring` in a row keep the invariant, return the next addresses, and
leave every structure they built alive. -/
theorem creates_inv (fuel : Nat) :
    ∀ (as : List (Option (List Byte))) (W : World) (hs : List Nat) (W1 : World),
      RegInv W none → (∀ h, h < W.heap.length → deref W h ≠ none) →
      creates fuel as W = some (hs, W1) →
      RegInv W1 none ∧ hs = List.range' W.heap.length as.length ∧
        W1.heap.length = W.heap.length + as.length ∧
        (∀ h, h < W1.heap.length → deref W1 h ≠ none) := by
  intro as
  induction as with
  | nil =>
    intro W hs W1 hinv hlive hr
    simp only [creates, Option.some.injEq, Prod.mk.injEq] at hr
    obtain ⟨e1, e2⟩ := hr
    subst e1 e2
    exact ⟨hinv, rfl, rfl, hlive⟩
  | cons a as ih =>
    intro W hs W1 hinv hlive hr
    simp only [creates] at hr
    cases hc : cstring fuel W a with
    | none => simp [hc] at hr
    | some x =>
      obtain ⟨h, W2⟩ := x
      simp only [hc] at hr
      cases hc2 : creates fuel as W2 with
      | none => simp [hc2] at hr
      | some y =>
        obtain ⟨hs2, W3⟩ := y
        simp only [hc2, Option.some.injEq, Prod.mk.injEq] at hr
        obtain ⟨e1, e2⟩ := hr
        subst e1 e2
        obtain ⟨b1, b2, b3, b4, s, b5⟩ := cstring_inv fuel W a h W2 hinv hc
        have hlive2 : ∀ h1, h1 < W2.heap.length → deref W2 h1 ≠ none := by
          intro h1 hlt
          by_cases hh : h1 < W.heap.length
          · rw [b4 h1 hh]; exact hlive h1 hh
          · have : h1 = h := by omega
            rw [this, b5]; simp
        obtain ⟨c1, c2, c3, c4⟩ := ih W2 hs2 W3 b1 hlive2 hc2
        refine ⟨c1, ?_, by rw [c3, b3]; simp; omega, c4⟩
        rw [c2, b2, b3]
        rfl

/-- C14, counterexample: after `cstring("hello")` at program start, `delete_all` leaves
the table pointer null and `max_allocs` at 15, and the next call of `cstring` has no
result, whatever its argument: `add_alloc` reads the table through the null pointer. -/
theorem create_after_delete_all_fails :
    ∃ h W W1, cstring 2 cstring_init (some (bytes "hello" ++ [0])) = some (h, W) ∧
      delete_all W = some W1 ∧ W1.allocs = none ∧ W1.max_allocs = 15 ∧
      ∀ fuel a, cstring fuel W1 a = none :=
  ⟨0, _, _, rfl, rfl, rfl, rfl,
    fun fuel a => cstring_null_table fuel _ a rfl (by decide)⟩

/-- C14, as amended: after calls of `cstring` at program start without any `delete`, the
strings built are all alive; `delete_all` then returns, has released every one of them
and nothing else (the heap holds no other structure), and has freed the table: the table
pointer is null while `max_allocs` and `num_allocs` are as before, so a later call of
`cstring` has no result, whatever its argument. -/
theorem delete_all_releases (fuel : Nat) (as : List (Option (List Byte))) (hs : List Nat)
    (W : World) (hc : creates fuel as cstring_init = some (hs, W)) :
    hs = List.range as.length ∧ W.heap.length = as.length ∧
    (∀ h, h < as.length → deref W h ≠ none) ∧
    ∃ W1, delete_all W = some W1 ∧ W1.heap.length = W.heap.length ∧
      (∀ h, deref W1 h = none) ∧ W1.allocs = none ∧ W1.max_allocs = W.max_allocs ∧
      W1.num_allocs = W.num_allocs ∧ ∀ fuel1 a, cstring fuel1 W1 a = none := by
  obtain ⟨b1, b2, b3, b4⟩ := creates_inv fuel as cstring_init hs W RegInv_start
    (fun h hlt => by simp [cstring_init] at hlt) hc
  have hl : W.heap.length = as.length := by rw [b3]; simp [cstring_init]
  obtain ⟨W1, c1, c2, c3, c4, c5, c6⟩ := delete_all_spec W b1
  have hpos : 0 < W.max_allocs := by
    obtain ⟨_, _, _, a3, _⟩ := b1
    omega
  refine ⟨by rw [b2, List.range_eq_range']; rfl, hl, fun h hlt => b4 h (by omega),
    W1, c1, c2, c3, c4, c5, c6, fun fuel1 a => cstring_null_table fuel1 W1 a c4 (by omega)⟩

/-- C14, witness: `cstring("hello")` and `cstring(" world")`, then `delete_all`. -/
theorem delete_all_releases_witness :
    creates 2 [some (bytes "hello" ++ [0]), some (bytes " world" ++ [0])] cstring_init =
      some ([0, 1], twoStrings) ∧
    [0, 1] = List.range 2 ∧ twoStrings.heap.length = 2 ∧
    (∀ h, h < 2 → deref twoStrings h ≠ none) ∧
    ∃ W1, delete_all twoStrings = some W1 ∧ W1.heap.length = twoStrings.heap.length ∧
      (∀ h, deref W1 h = none) ∧ W1.allocs = none ∧
      W1.max_allocs = twoStrings.max_allocs ∧ W1.num_allocs = twoStrings.num_allocs ∧
      ∀ fuel1 a, cstring fuel1 W1 a = none :=
  have hc : creates 2 [some (bytes "hello" ++ [0]), some (bytes " world" ++ [0])]
      cstring_init = some ([0, 1], twoStrings) := by rfl
  ⟨hc, delete_all_releases 2 _ _ _ hc⟩

theorem maxTable_eq : maxTable = 4026531840 := by
  unfold maxTable CSTRING_ALC; norm_num

/-- A capacity below `maxTable` doubles to at most `maxTable`. -/
theorem double_le_maxTable (m k : Nat) (hm : m = CSTRING_ALC * 2 ^ k) (hlt : m < maxTable) :
    m * CSTRING_EXT ≤ maxTable ∧ m * CSTRING_EXT = CSTRING_ALC * 2 ^ (k + 1) := by
  have hk : k < 28 := by
    by_contra hge
    have h1 : 2 ^ 28 ≤ 2 ^ k := Nat.pow_le_pow_right (by norm_num) (by omega)
    have h2 : CSTRING_ALC * 2 ^ 28 ≤ CSTRING_ALC * 2 ^ k := Nat.mul_le_mul_left _ h1
    unfold maxTable at hlt
    omega
  have h3 : 2 ^ (k + 1) ≤ 2 ^ 28 := Nat.pow_le_pow_right (by norm_num) (by omega)
  have h4 : m * CSTRING_EXT = CSTRING_ALC * 2 ^ (k + 1) := by
    rw [hm, pow_succ]; unfold CSTRING_EXT; ring
  refine ⟨?_, h4⟩
  rw [h4]
  exact Nat.mul_le_mul_left _ h3

/-- A capacity is at least 15. -/
theorem cap_ge (m k : Nat) (hm : m = CSTRING_ALC * 2 ^ k) : CSTRING_ALC ≤ m := by
  rw [hm]
  exact Nat.le_mul_of_pos_right _ (by positivity)

/-- With room below the capacity, `add_alloc` puts the pending structure at address `K`
into slot `K`. -/
theorem Filled_place (fuel K : Nat) (V : World) (s : string) (hf : Filled K V)
    (hroom : K < V.max_allocs) (hlen : V.heap.length = K + 1)
    (hd : deref V K = some s) :
    ∃ V1, add_alloc (fuel + 1) V K = some V1 ∧ Filled (K + 1) V1 ∧
      V1.heap.length = K + 1 ∧ V1.max_allocs = V.max_allocs := by
  obtain ⟨a1, a2, a3, ⟨k, a4⟩, t, a5, a6, a7, a8⟩ := hf
  have hA : CSTRING_ALC = 15 := rfl
  have h15 := cap_ge _ k a4
  have hM := maxTable_eq
  have hc : u32 (V.num_allocs + 1) < V.max_allocs := by
    rw [u32_of_lt (by omega)]; omega
  have hj : firstFree t K :=
    ⟨a8 K (Nat.le_refl _) hroom, fun p hp e => by
      rw [(a7 p hp).1] at e; cases e⟩
  have hKl : K < t.length := by omega
  refine ⟨_, add_alloc_place fuel V K s t K a5 a6 hd hc hj, ?_, by simp [place, hlen], rfl⟩
  refine ⟨?_, by show K + 1 ≤ V.max_allocs; omega, a3, ⟨k, a4⟩, t.set K (some K), rfl,
    by simpa [place] using a6, ?_, ?_⟩
  · show (if K > V.num_allocs then K else V.num_allocs) = K + 1 - 1
    split <;> omega
  · intro i hi
    by_cases hiK : i = K
    · subst hiK
      exact ⟨List.getElem?_set_self hKl, _,
        deref_set_same V _ i _ rfl (by omega), rfl⟩
    · obtain ⟨b1, s1, b2, b3⟩ := a7 i (by omega)
      refine ⟨by rw [List.getElem?_set_ne (Ne.symm hiK)]; exact b1, s1, ?_, b3⟩
      rw [deref_set_ne V _ K i _ rfl (Ne.symm hiK)]
      exact b2
  · intro i hi1 hi2
    show (t.set K (some K))[i]? = _
    rw [List.getElem?_set_ne (by omega)]
    exact a8 i (by omega) hi2

/-- A new structure at the end of the heap leaves the table as it is. -/
theorem Filled_push (K : Nat) (W : World) (snew : string) (hf : Filled K W)
    (hlen : W.heap.length = K) : Filled K { W with heap := W.heap ++ [some snew] } := by
  obtain ⟨a1, a2, a3, a4, t, a5, a6, a7, a8⟩ := hf
  refine ⟨a1, a2, a3, a4, t, a5, a6, ?_, a8⟩
  intro i hi
  obtain ⟨b1, s1, b2, b3⟩ := a7 i hi
  refine ⟨b1, s1, ?_, b3⟩
  rw [deref_append_left W _ (some snew) i rfl (by omega)]
  exact b2

/-- A full table below `maxTable` is replaced by one of twice the capacity. -/
theorem Filled_grown (K : Nat) (V : World) (t : List (Option Nat)) (hf : Filled K V)
    (ht : V.allocs = some t) (hfull : K = V.max_allocs) (hlim : K < maxTable) :
    Filled K (grown V t) ∧ K < (grown V t).max_allocs ∧
      V.max_allocs * CSTRING_EXT < 2 ^ 32 := by
  obtain ⟨a1, a2, a3, ⟨k, a4⟩, t0, a5, a6, a7, a8⟩ := hf
  have e : t0 = t := Option.some.inj (a5.symm.trans ht)
  subst e
  have hE : V.max_allocs * CSTRING_EXT = V.max_allocs * 2 := rfl
  have h15 := cap_ge _ k a4
  have hA : CSTRING_ALC = 15 := rfl
  have hM := maxTable_eq
  obtain ⟨d1, d2⟩ := double_le_maxTable V.max_allocs k a4 (by omega)
  refine ⟨⟨a1, by show K ≤ V.max_allocs * CSTRING_EXT; omega, d1, ⟨k + 1, d2⟩, _, rfl, ?_,
    ?_, ?_⟩, by show K < V.max_allocs * CSTRING_EXT; omega, by omega⟩
  · show (t0 ++ List.replicate (V.max_allocs * CSTRING_EXT - t0.length) none).length =
      V.max_allocs * CSTRING_EXT
    simp; omega
  · intro i hi
    obtain ⟨b1, b2⟩ := a7 i hi
    exact ⟨by rw [List.getElem?_append_left (by omega)]; exact b1, b2⟩
  · intro i hi1 hi2
    have hi3 : i < V.max_allocs * CSTRING_EXT := hi2
    rw [List.getElem?_append_right (by omega), List.getElem?_replicate, if_pos (by omega)]

/-- `cstring` of an argument within the `uint32` range hands a new structure at the end
of the heap to `add_alloc`. -/
theorem cstring_ok (fuel : Nat) (W : World) (a : Option (List Byte)) (ha : okArg a) :
    ∃ snew, cstring fuel W a =
      (add_alloc fuel { W with heap := W.heap ++ [some snew] } W.heap.length).map
        (fun W1 => (W.heap.length, W1)) := by
  cases a with
  | none =>
    refine ⟨{ str := calloc CSTRING_ALC, cap := CSTRING_ALC, len := 0, ind := 0 }, ?_⟩
    simp only [cstring]
    cases add_alloc fuel _ W.heap.length <;> rfl
  | some p =>
    obtain ⟨cs, rest, e, hz, hfit⟩ := ha
    subst e
    have hA : CSTRING_ALC = 15 := rfl
    have hn : u32 cs.length = cs.length := u32_of_lt (by omega)
    have hmem : u32 (CSTRING_ALC + cs.length) = CSTRING_ALC + cs.length :=
      u32_of_lt (by omega)
    have hcp : strncpy (calloc (CSTRING_ALC + cs.length)) (cs ++ 0 :: rest) cs.length =
        some (cs ++ calloc CSTRING_ALC) := by
      rw [strncpy_zeroFree cs (0 :: rest) hz _ (by simp [calloc])]
      simp [calloc]
    refine ⟨{ str := cs ++ calloc CSTRING_ALC, cap := CSTRING_ALC + cs.length,
              len := cs.length, ind := 0 }, ?_⟩
    simp only [cstring, strlen_zeroFree cs rest hz, Option.map_some', hn, hmem, hcp]
    cases add_alloc fuel _ W.heap.length <;> rfl

/-- One more call of `cstring` on a filled table below `maxTable`. -/
theorem Filled_step (fuel K : Nat) (W : World) (a : Option (List Byte)) (hf : Filled K W)
    (hlen : W.heap.length = K) (hlim : K < maxTable) (ha : okArg a) :
    ∃ W1, cstring (fuel + 2) W a = some (K, W1) ∧ Filled (K + 1) W1 ∧
      W1.heap.length = K + 1 ∧ W.max_allocs ≤ W1.max_allocs := by
  obtain ⟨snew, e⟩ := cstring_ok (fuel + 2) W a ha
  have hf0 := Filled_push K W snew hf hlen
  have hd : deref { W with heap := W.heap ++ [some snew] } K = some snew := by
    rw [← hlen]; exact deref_append_new W _ snew rfl
  have hl0 : ({ W with heap := W.heap ++ [some snew] } : World).heap.length = K + 1 := by
    simp [hlen]
  have hE : W.max_allocs * CSTRING_EXT = W.max_allocs * 2 := rfl
  rw [e, hlen]
  by_cases hroom : K < W.max_allocs
  · obtain ⟨V1, b1, b2, b3, b4⟩ := Filled_place (fuel + 1) K _ snew hf0 hroom hl0 hd
    exact ⟨V1, by rw [b1]; rfl, b2, b3, by rw [b4]⟩
  · obtain ⟨a1, a2, a3, ⟨k, a4⟩, t, a5, a6, a7, a8⟩ := hf0
    have hfull : K = W.max_allocs := by
      have : K ≤ W.max_allocs := a2
      omega
    have h15 := cap_ge _ k a4
    have hA : CSTRING_ALC = 15 := rfl
    obtain ⟨c1, c2, c3⟩ := Filled_grown K _ t (Filled_push K W snew hf hlen) a5 hfull hlim
    have hc : ¬ u32 (W.num_allocs + 1) < W.max_allocs := by
      have : W.num_allocs = K - 1 := a1
      have h15' : 15 ≤ W.max_allocs := h15
      rw [u32_of_lt (by have := maxTable_eq; omega)]; omega
    obtain ⟨V1, b1, b2, b3, b4⟩ := Filled_place fuel K _ snew c1 c2 hl0 hd
    refine ⟨V1, ?_, b2, b3, ?_⟩
    · rw [add_alloc_grow (fuel + 1) _ K t a5 a6 hc c3, b1]; rfl
    · rw [b4]
      show W.max_allocs ≤ W.max_allocs * CSTRING_EXT
      omega

/-- Calls of `cstring` in a row on a filled table, as long as `maxTable` is not
passed. -/
theorem Filled_creates (fuel : Nat) :
    ∀ (as : List (Option (List Byte))) (K : Nat) (W : World), Filled K W →
      W.heap.length = K → K + as.length ≤ maxTable → (∀ a ∈ as, okArg a) →
      ∃ W1, creates (fuel + 2) as W = some (List.range' K as.length, W1) ∧
        Filled (K + as.length) W1 ∧ W1.heap.length = K + as.length ∧
        W.max_allocs ≤ W1.max_allocs := by
  intro as
  induction as with
  | nil =>
    intro K W hf hlen _ _
    exact ⟨W, rfl, hf, hlen, Nat.le_refl _⟩
  | cons a as ih =>
    intro K W hf hlen hlim hok
    have hl : (a :: as).length = as.length + 1 := rfl
    obtain ⟨W1, b1, b2, b3, b4⟩ := Filled_step fuel K W a hf hlen (by omega)
      (hok a (List.mem_cons_self _ _))
    obtain ⟨W2, c1, c2, c3, c4⟩ := ih (K + 1) W1 b2 b3 (by omega)
      (fun x hx => hok x (List.mem_cons_of_mem _ hx))
    refine ⟨W2, ?_, ?_, by rw [c3, hl]; omega, by omega⟩
    · simp only [creates, b1, c1]
      rfl
    · rw [hl, ← Nat.add_assoc, Nat.add_right_comm]
      exact c2

/-- The state at program start is the filled table for no string. -/
theorem Filled_start : Filled 0 cstring_init := by
  refine ⟨rfl, Nat.zero_le _, ?_, ⟨0, rfl⟩, List.replicate CSTRING_ALC none, rfl,
    by simp [cstring_init], fun i hi => absurd hi (by omega), ?_⟩
  · rw [maxTable_eq]; decide
  · intro i _ hi
    rw [List.getElem?_replicate]
    exact if_pos hi

/-- Calls of `cstring` for a list in two parts. -/
theorem creates_append (fuel : Nat) :
    ∀ (as bs : List (Option (List Byte))) (W : World) (hs1 : List Nat) (W1 : World)
      (hs2 : List Nat) (W2 : World), creates fuel as W = some (hs1, W1) →
      creates fuel bs W1 = some (hs2, W2) →
      creates fuel (as ++ bs) W = some (hs1 ++ hs2, W2) := by
  intro as
  induction as with
  | nil =>
    intro bs W hs1 W1 hs2 W2 h1 h2
    simp only [creates, Option.some.injEq, Prod.mk.injEq] at h1
    obtain ⟨e1, e2⟩ := h1
    subst e1 e2
    simpa using h2
  | cons a as ih =>
    intro bs W hs1 W1 hs2 W2 h1 h2
    simp only [creates] at h1
    cases hc : cstring fuel W a with
    | none => simp [hc] at h1
    | some x =>
      obtain ⟨h, Wa⟩ := x
      simp only [hc] at h1
      cases hc2 : creates fuel as Wa with
      | none => simp [hc2] at h1
      | some y =>
        obtain ⟨hsa, Wb⟩ := y
        simp only [hc2, Option.some.injEq, Prod.mk.injEq] at h1
        obtain ⟨e1, e2⟩ := h1
        subst e1 e2
        have := ih bs Wa hsa Wb hs2 W2 hc2 h2
        show creates fuel (a :: (as ++ bs)) W = _
        simp only [creates, hc, this]
        rfl

/-- C13, counterexample: `maxTable` = 15 · 2 ^ 28 calls of `cstring(NULL)` at program
start all return and leave a full table of `maxTable` slots; twice that capacity is no
`uint32`, and the next call of `cstring` has no result, whatever its argument: the new
table is shorter than the old one and the copy loop of `add_alloc` writes past its end. -/
theorem creates_overflow_table :
    ∃ hs W, creates 2 (List.replicate maxTable none) cstring_init = some (hs, W) ∧
      W.max_allocs = maxTable ∧ 2 ^ 32 ≤ W.max_allocs * CSTRING_EXT ∧
      ∀ fuel a, cstring fuel W a = none := by
  obtain ⟨W, b1, b2, b3, _⟩ := Filled_creates 0 (List.replicate maxTable none) 0
    cstring_init Filled_start rfl (by rw [List.length_replicate]; omega)
    (fun a ha => by rw [List.eq_of_mem_replicate ha]; trivial)
  rw [List.length_replicate, Nat.zero_add] at b2 b3
  obtain ⟨a1, a2, a3, _, t, a5, a6, _, _⟩ := b2
  have hM := maxTable_eq
  have hmax : W.max_allocs = maxTable := by omega
  have hE : W.max_allocs * CSTRING_EXT = W.max_allocs * 2 := rfl
  refine ⟨_, W, b1, hmax, by omega, fun fuel a => ?_⟩
  cases hr : cstring fuel W a with
  | none => rfl
  | some x =>
    obtain ⟨h, W1⟩ := x
    obtain ⟨_, snew, e⟩ := cstring_some fuel W a h W1 hr
    rw [add_alloc_overflow fuel { W with heap := W.heap ++ [some snew] } W.heap.length t a5
      (by
        show ¬ u32 (W.num_allocs + 1) < W.max_allocs
        rw [u32_of_lt (by omega)]; omega)
      (by show W.max_allocs < 2 ^ 32; omega)
      (by show 2 ^ 32 ≤ W.max_allocs * CSTRING_EXT; omega)] at e
    cases e

/-- C13, as amended: for every `N ≤ 15 · 2 ^ 28` and every `N` arguments within the
`uint32` range, `N` calls of `cstring` at program start, with no `delete`, all return;
they return the addresses `0 .. N - 1`, and afterwards the string at address `i` stands
in slot `i` of the table and has `ind = i`; when `N > 15` the capacity is above 15, so
the table has been replaced; and for every `M ≤ N` the state after the first `M` calls
has a capacity that is at most the final one and holds each of the first `M` strings in
the slot in which the final table holds it. -/
theorem creates_register (fuel : Nat) (as : List (Option (List Byte)))
    (hok : ∀ a ∈ as, okArg a) (hN : as.length ≤ maxTable) :
    ∃ W t, creates (fuel + 2) as cstring_init = some (List.range as.length, W) ∧
      W.allocs = some t ∧ t.length = W.max_allocs ∧
      (∀ i : Nat, i < as.length →
        t[i]? = some (some i) ∧ ∃ s, deref W i = some s ∧ s.ind = i) ∧
      (CSTRING_ALC < as.length → CSTRING_ALC < W.max_allocs) ∧
      (∀ M : Nat, M ≤ as.length →
        ∃ WM tM, creates (fuel + 2) (as.take M) cstring_init = some (List.range M, WM) ∧
          WM.allocs = some tM ∧ WM.max_allocs ≤ W.max_allocs ∧
          ∀ i : Nat, i < M → tM[i]? = some (some i) ∧ t[i]? = tM[i]?) := by
  obtain ⟨W, b1, b2, b3, _⟩ := Filled_creates fuel as 0 cstring_init Filled_start rfl
    (by omega) hok
  rw [Nat.zero_add] at b2 b3
  rw [← List.range_eq_range'] at b1
  obtain ⟨a1, a2, a3, _, t, a5, a6, a7, _⟩ := b2
  refine ⟨W, t, b1, a5, a6, a7, fun h => by omega, fun M hM => ?_⟩
  have hlt : (as.take M).length = M := by rw [List.length_take]; omega
  obtain ⟨WM, c1, c2, c3, _⟩ := Filled_creates fuel (as.take M) 0 cstring_init Filled_start
    rfl (by omega) (fun a ha => hok a (List.mem_of_mem_take ha))
  rw [hlt, Nat.zero_add] at c2 c3
  rw [hlt, ← List.range_eq_range'] at c1
  obtain ⟨W2, d1, _, _, d4⟩ := Filled_creates fuel (as.drop M) M WM c2 c3
    (by rw [List.length_drop]; omega) (fun a ha => hok a (List.mem_of_mem_drop ha))
  have hall := creates_append (fuel + 2) _ _ _ _ _ _ _ c1 d1
  rw [List.take_append_drop, b1] at hall
  have hW : W = W2 := by
    simp only [Option.some.injEq, Prod.mk.injEq] at hall
    exact hall.2
  obtain ⟨_, _, _, _, tM, e5, _, e7, _⟩ := c2
  refine ⟨WM, tM, c1, e5, by rw [hW]; exact d4, fun i hi => ?_⟩
  have h1 := (e7 i hi).1
  have h2 := (a7 i (by omega)).1
  exact ⟨h1, by rw [h1, h2]⟩

/-- C13, witness: sixteen calls of `cstring(NULL)` at program start. -/
theorem creates_register_witness :
    ∃ W t, creates 2 (List.replicate 16 none) cstring_init = some (List.range 16, W) ∧
      W.allocs = some t ∧ (∀ i : Nat, i < 16 → t[i]? = some (some i)) ∧
      15 < W.max_allocs :=
  let ⟨W, t, h1, h2, _, h4, h5, _⟩ := creates_register 0 (List.replicate 16 none)
    (fun a ha => by rw [List.eq_of_mem_replicate ha]; trivial)
    (by rw [maxTable_eq]; decide)
  ⟨W, t, h1, h2, fun i hi => (h4 i hi).1, h5 (by decide)⟩

/-- C17, counterexample: after 14 calls of `cstring` at program start the table of 15
slots has one empty slot, and the next call puts its string there and leaves the capacity
at 15; after 15 calls and the `delete` of two of the strings the table has two empty
slots, and the next call replaces the table by one of 30 slots. -/
theorem add_alloc_ignores_free_slots :
    (∃ hs W t h W1, creates 2 (List.replicate 14 none) cstring_init = some (hs, W) ∧
      W.allocs = some t ∧ t.count none = 1 ∧
      cstring 2 W none = some (h, W1) ∧ W1.max_allocs = 15 ∧
      W1.allocs = some (t.set 14 (some h))) ∧
    (∃ hs W Wa Wb t h W1, creates 2 (List.replicate 15 none) cstring_init = some (hs, W) ∧
      delete W 0 = some Wa ∧ delete Wa 1 = some Wb ∧
      Wb.allocs = some t ∧ t.length = 15 ∧ t.count none = 2 ∧
      cstring 2 Wb none = some (h, W1) ∧ W1.max_allocs = 30) :=
  ⟨⟨_, _, _, _, _, rfl, rfl, by decide, rfl, rfl, rfl⟩,
    ⟨_, _, _, _, _, _, _, rfl, rfl, rfl, rfl, rfl, by decide, rfl, rfl⟩⟩

/-- C17, as amended: `add_alloc` enlarges the table exactly when the high-water mark
has reached the last slot, whatever the number of empty slots.  In every state whose
table has `max_allocs < 2 ^ 32` entries and is empty above the high-water mark
`num_allocs`: when `num_allocs + 1 < max_allocs` the string goes
into the first empty slot and the capacity is unchanged; when
`num_allocs + 1 = max_allocs` and `2 * max_allocs < 2 ^ 32` the table is replaced by one
of twice the capacity that starts with the old entries, and the string then goes into
the first empty slot of that table. -/
theorem add_alloc_grows_at_high_water (fuel : Nat) (W : World) (h : Nat) (s : string)
    (t : List (Option Nat)) (ht : W.allocs = some t) (hl : t.length = W.max_allocs)
    (hd : deref W h = some s) (hmax : W.max_allocs < 2 ^ 32)
    (hfree : ∀ p : Nat, W.num_allocs < p → p < W.max_allocs → t[p]? = some none) :
    (W.num_allocs + 1 < W.max_allocs →
      ∃ j W1, firstFree t j ∧ add_alloc (fuel + 1) W h = some W1 ∧
        W1.max_allocs = W.max_allocs ∧ W1.allocs = some (t.set j (some h)) ∧
        deref W1 h = some { s with ind := j }) ∧
    (W.num_allocs + 1 = W.max_allocs → W.max_allocs * CSTRING_EXT < 2 ^ 32 →
      ∃ j W1, firstFree (t ++ List.replicate W.max_allocs none) j ∧
        add_alloc (fuel + 2) W h = some W1 ∧
        W1.max_allocs = W.max_allocs * CSTRING_EXT ∧
        W1.allocs = some ((t ++ List.replicate W.max_allocs none).set j (some h)) ∧
        deref W1 h = some { s with ind := j }) := by
  have hE : W.max_allocs * CSTRING_EXT = W.max_allocs * 2 := rfl
  have hlt : h < W.heap.length := (deref_eq_some hd).1
  constructor
  · intro hc
    have hc1 : u32 (W.num_allocs + 1) < W.max_allocs := by rwa [u32_of_lt (by omega)]
    obtain ⟨j, _, hj⟩ := firstFree_exists t (W.num_allocs + 1) (hfree _ (by omega) hc)
    exact ⟨j, _, hj, add_alloc_place fuel W h s t j ht hl hd hc1 hj, rfl, rfl,
      deref_set_same W _ h _ rfl hlt⟩
  · intro hc h32
    have hc1 : ¬ u32 (W.num_allocs + 1) < W.max_allocs := by
      rw [u32_of_lt (by omega)]; omega
    have hg : grown W t =
        { W with allocs := some (t ++ List.replicate W.max_allocs none),
                 max_allocs := W.max_allocs * CSTRING_EXT } := by
      unfold grown
      rw [hl, hE]
      congr 4
      omega
    have hc2 : u32 ((grown W t).num_allocs + 1) < (grown W t).max_allocs := by
      show u32 (W.num_allocs + 1) < W.max_allocs * CSTRING_EXT
      rw [u32_of_lt (by omega)]; omega
    have hslot : (t ++ List.replicate W.max_allocs (none : Option Nat))[W.max_allocs]? =
        some none := by
      rw [List.getElem?_append_right (by omega), List.getElem?_replicate, if_pos (by omega)]
    obtain ⟨j, _, hj⟩ := firstFree_exists _ _ hslot
    have hp := add_alloc_place fuel (grown W t) h s
      (t ++ List.replicate W.max_allocs none) j (by rw [hg]) (by rw [hg]; simp; omega) hd hc2 hj
    refine ⟨j, place (grown W t) h s (t ++ List.replicate W.max_allocs none) j, hj,
      ?_, rfl, rfl, deref_set_same (grown W t) _ h _ rfl hlt⟩
    rw [add_alloc_grow (fuel + 1) W h t ht hl hc1 h32]
    exact hp

/-- C17, witness: a new structure at program start goes into slot 0 of the 15 slots;
with the high-water mark at slot 14 of 15 the table grows to 30 slots. -/
theorem add_alloc_grows_at_high_water_witness :
    (∃ j W1, firstFree (List.replicate 15 none) j ∧
        add_alloc 1 { cstring_init with heap := [some emptyString] } 0 = some W1 ∧
        W1.max_allocs = 15 ∧ W1.allocs = some ((List.replicate 15 none).set j (some 0)) ∧
        deref W1 0 = some { emptyString with ind := j }) ∧
    (∃ j W1, firstFree (List.replicate 15 none ++ List.replicate 15 none) j ∧
        add_alloc 2 { cstring_init with heap := [some emptyString], num_allocs := 14 } 0 =
          some W1 ∧
        W1.max_allocs = 15 * CSTRING_EXT ∧
        W1.allocs =
          some ((List.replicate 15 none ++ List.replicate 15 none).set j (some 0)) ∧
        deref W1 0 = some { emptyString with ind := j }) :=
  ⟨(add_alloc_grows_at_high_water 0 { cstring_init with heap := [some emptyString] } 0
      emptyString (List.replicate 15 none) rfl rfl rfl (by decide)
      (fun p _ hp => by
        rw [List.getElem?_replicate]; exact if_pos hp)).1 (by decide),
    (add_alloc_grows_at_high_water 0
      { cstring_init with heap := [some emptyString], num_allocs := 14 } 0
      emptyString (List.replicate 15 none) rfl rfl rfl (by decide)
      (fun p _ hp => by
        rw [List.getElem?_replicate]; exact if_pos hp)).2 rfl (by decide)⟩

/-- Where the byte at index `len` can be read, `rem` copies it to index `len - 1`. -/
theorem rem_copies_byte_at_len (s : string) (i : Nat) (hi : i < s.len)
    (hl : s.len < s.str.length) (h32 : s.len < 2 ^ 32) :
    ∃ rc s2, rem s i = some (rc, s2) ∧ s2.len = s.len - 1 ∧ s2.cap = s.cap ∧
      s2.str[s.len - 1]? = s.str[s.len]? := by
  have hil : i < s.str.length := by omega
  obtain ⟨m, a1, a2, a3⟩ := shift_left_spec (s.len - i) i s.str (by omega) (by omega)
  have hdec : u32 (s.len - 1) = s.len - 1 := u32_of_lt (by omega)
  have hge : ¬ i ≥ s.len := by omega
  refine ⟨s.str[i], { s with str := m, len := s.len - 1 }, ?_, rfl, rfl, ?_⟩
  · simp only [rem, hge, if_false, rd, List.getElem?_eq_getElem hil, a1, hdec]
  · show m[s.len - 1]? = _
    rw [a3, if_pos (by omega)]
    congr 1
    omega

/-- C15, the code at the failing input: `cstring(NULL)` followed by `append` of fifteen
bytes gives a string with `len = cap = 15` and nothing past `len`; on it `rem(s, 0)`
has no defined result, because the last step of the left shift copies `str[15]`, a byte
outside the block, to `str[14]`.  Whatever byte `b` follows the block in memory, the call
leaves `len = 14` and `b` at index 14, which lies in `[len, cap)`. -/
theorem rem_fills_padding_from_outside :
    (∃ h W s, cstring 2 cstring_init none = some (h, W) ∧ deref W h = some s ∧
      append 2 s (fifteen ++ [0]) = some (CSTRING_SUC, fullString)) ∧
    padded fullString ∧ fullString.len = fullString.cap ∧
    fullString.str.length = fullString.cap ∧ rem fullString 0 = none ∧
    ∀ b : Byte, ∃ rc s2, rem { fullString with str := fullString.str ++ [b] } 0 =
        some (rc, s2) ∧
      s2.len = 14 ∧ s2.cap = 15 ∧ s2.str[14]? = some b :=
  ⟨⟨0, _, _, rfl, rfl, rfl⟩, by unfold padded; decide, rfl, rfl, rfl,
    fun b =>
      let ⟨rc, s2, e1, e2, e3, e4⟩ :=
        rem_copies_byte_at_len { fullString with str := fullString.str ++ [b] } 0
          (show 0 < 15 by decide) (by simp [fullString, fifteen])
          (show 15 < 2 ^ 32 by norm_num)
      ⟨rc, s2, e1, e2, e3, e4⟩⟩

/-- C20, the code at the failing input: `cstring(NULL)` followed by `append` of fifteen
bytes gives a string with `len = cap = 15` in a block of 15 bytes.  On it `rem(s, 0)`
accesses index 15 = `cap` (the read of `str[j + 1]` at `j = 14`) and `substrn(s, 0, 15)`
writes its temporary terminator at index 15 = `cap`; both indices lie outside the block
and neither call has a defined result. -/
theorem rem_and_substrn_leave_block :
    ∃ h W0 r W s, cstring 2 cstring_init none = some (h, W0) ∧
      call W0 h (fun x => append 2 x (fifteen ++ [0])) = some (r, W) ∧
      deref W h = some s ∧ s.len = 15 ∧ s.cap = 15 ∧ s.str.length = 15 ∧
      s.cap ∈ rem_accesses s 0 ∧ rd s.str s.cap = none ∧ rem s 0 = none ∧
      substrn_terminator 0 15 = s.cap ∧ wr s.str s.cap 0 = none ∧
      substrn 2 W h 0 15 = none :=
  ⟨0, _, _, _, _, rfl, rfl, rfl, rfl, rfl, rfl, by decide, rfl, rfl, rfl, rfl, rfl⟩

/-- C16, witness: the state after `cstring("hello")`, `cstring(" world")` and `delete`
of the first string. -/
theorem registry_invariant_witness :
    oneLeft.num_allocs < oneLeft.max_allocs ∧
    ∃ t, oneLeft.allocs = some t ∧ t.length = oneLeft.max_allocs ∧
      (∀ (i h : Nat), t[i]? = some (some h) →
        i ≤ oneLeft.num_allocs ∧ ∃ s, deref oneLeft h = some s ∧ s.ind = i) ∧
      (∀ (h : Nat) (s : string), deref oneLeft h = some s →
        s.ind < oneLeft.max_allocs ∧ t[s.ind]? = some (some h) ∧
        (∀ i : Nat, t[i]? = some (some h) → i = s.ind) ∧
        remove_alloc oneLeft h = some { oneLeft with allocs := some (t.set s.ind none) }) :=
  registry_invariant oneLeft
    (let ⟨W, h1, _, h2⟩ := example_states_built.2
     Reachable.destroy twoStrings 0 oneLeft
      (Reachable.create 2 W (some (bytes " world" ++ [0])) 1 twoStrings
        (Reachable.create 2 cstring_init (some (bytes "hello" ++ [0])) 0 W Reachable.start h1)
        h2)
      (by rfl))

/-- The copy loop of `insert` with more bytes to copy than the block has room for
writes past the end of the block. -/
theorem copy_in_short (k : Nat) (c : List Byte) :
    ∀ (n i : Nat) (m : List Byte), k + i ≤ m.length → m.length < k + i + n →
      m.length < 2 ^ 32 → copy_in k c n i m = none := by
  intro n
  induction n with
  | zero => intro i m h1 h2 _; omega
  | succ n ih =>
    intro i m h1 h2 h32
    simp only [copy_in]
    cases rd c i with
    | none => rfl
    | some b =>
      have hu : u32 (k + i) = k + i := u32_of_lt (by omega)
      by_cases hlt : k + i < m.length
      · simp only [wr, hu, hlt, if_true]
        exact ih (i + 1) (m.set (k + i) b) (by simp; omega) (by simp; omega) (by simpa using h32)
      · simp only [wr, hu, hlt, if_false]

/-- An `append` whose `uint32` sum `len + strlen(c)` wraps: for a text of `2 ^ 32 - 3`
bytes appended to `"hello"` (`len` 5, `cap` 20) the sum is 2, the capacity test of line
397 holds, and the copy loop of lines 410-412 writes past the block. -/
theorem insert_wrap_leaves_block (cs : List Byte) (hz : zeroFree cs)
    (hl : cs.length = 2 ^ 32 - 3) (fuel : Nat) :
    insert fuel helloString (cs ++ [0]) 5 = none := by
  cases fuel with
  | zero => rfl
  | succ f =>
    have e1 : u32 cs.length = 2 ^ 32 - 3 := by rw [hl]; rfl
    have e2 : u32 (5 + (2 ^ 32 - 3)) = 2 := rfl
    have hc := copy_in_short 5 (cs ++ [0]) (2 ^ 32 - 3) 0 helloString.str (by decide)
      (by
        have : helloString.str.length = 20 := by decide
        rw [this]; norm_num)
      (Nat.lt_of_lt_of_le (show _ < 100 by decide) (by norm_num))
    rw [insert.eq_2]
    have h5 : helloString.len = 5 := rfl
    have h20 : helloString.cap = 20 := rfl
    simp only [h5, h20, gt_iff_lt, Nat.lt_irrefl, if_false, strlen_zeroFree cs [] hz, e1, e2]
    rw [if_pos (by decide)]
    simp only [hc]

/-- `rem` wherever the byte at index `len` can be read: the byte at `i` is returned and
the content loses it. -/
theorem rem_readable (s : string) (i : Nat) (hread : s.len < s.str.length)
    (h32 : s.len < 2 ^ 32) (hi : i < s.len) :
    ∃ b m, rem s i = some (b, { s with str := m, len := s.len - 1 }) ∧
      (content s)[i]? = some b ∧ m.length = s.str.length ∧
      m.take (s.len - 1) = (content s).take i ++ (content s).drop (i + 1) := by
  have hil : i < s.str.length := by omega
  obtain ⟨m, a1, a2, a3⟩ := shift_left_spec (s.len - i) i s.str (by omega) (by omega)
  have hdec : u32 (s.len - 1) = s.len - 1 := u32_of_lt (by omega)
  refine ⟨s.str[i], m, ?_, ?_, a2, ?_⟩
  · have hge : ¬ i ≥ s.len := by omega
    simp only [rem, hge, if_false, rd, List.getElem?_eq_getElem hil, a1, hdec]
  · simp only [content]
    rw [List.getElem?_take_of_lt hi, List.getElem?_eq_getElem hil]
  · apply List.ext_getElem?
    intro p
    have hl1 : ((content s).take i).length = i := by
      simp [content, List.length_take]; omega
    by_cases hp : p < s.len - 1
    · rw [List.getElem?_take_of_lt hp, a3 p]
      by_cases h1 : p < i
      · rw [if_neg (by omega), List.getElem?_append_left (by omega),
          List.getElem?_take_of_lt h1]
        simp only [content]
        rw [List.getElem?_take_of_lt (by omega)]
      · rw [if_pos (by omega), List.getElem?_append_right (by omega), hl1,
          List.getElem?_drop]
        simp only [content]
        rw [List.getElem?_take_of_lt (by omega)]
        congr 1; omega
    · rw [List.getElem?_eq_none (by simp [List.length_take]; omega),
        List.getElem?_eq_none (by simp [content, List.length_take]; omega)]

/-- `rem` writes no byte at or above index `len`. -/
theorem rem_tail (s : string) (i : Nat) (hread : s.len < s.str.length)
    (h32 : s.len < 2 ^ 32) (hi : i < s.len) :
    ∃ b m, rem s i = some (b, { s with str := m, len := s.len - 1 }) ∧
      ∀ p, s.len ≤ p → m[p]? = s.str[p]? := by
  have hil : i < s.str.length := by omega
  obtain ⟨m, a1, a2, a3⟩ := shift_left_spec (s.len - i) i s.str (by omega) (by omega)
  have hdec : u32 (s.len - 1) = s.len - 1 := u32_of_lt (by omega)
  refine ⟨s.str[i], m, ?_, ?_⟩
  · have hge : ¬ i ≥ s.len := by omega
    simp only [rem, hge, if_false, rd, List.getElem?_eq_getElem hil, a1, hdec]
  · intro p hp
    rw [a3 p, if_neg (by omega)]

/-- C3: for every string `s` (a block of `cap` bytes with `len ≤ cap`) and every index
`i < len`, `rem(s, i)` returns the byte that was at index `i`, decreases `len` by exactly
1, leaves `cap` unchanged and leaves `s` with content `old[0:i] + old[i+1:]`.  The loop
of lines 528-530 reads `str[len]`; when `len = cap` that byte is the first of the bytes
`behind` that follow the block in memory, and the result is the same whatever they are
(when `len < cap` the call stays inside the block and `behind` may be empty); the call
writes none of them. -/
theorem rem_removes (s : string) (i : Nat) (behind : List Byte) (hwf : wf s)
    (hi : i < s.len) (hb : s.len = s.cap → behind ≠ []) :
    ∃ b s1, rem { s with str := s.str ++ behind } i = some (b, s1) ∧
      (content s)[i]? = some b ∧ s1.len = s.len - 1 ∧ s1.cap = s.cap ∧
      content s1 = (content s).take i ++ (content s).drop (i + 1) ∧
      s1.str.length = s.cap + behind.length ∧ s1.str.drop s.cap = behind := by
  obtain ⟨hblock, hlen, h32⟩ := hwf
  have hcont : content { s with str := s.str ++ behind } = content s := by
    show (s.str ++ behind).take s.len = s.str.take s.len
    rw [List.take_append_of_le_length (by omega)]
  have hread : s.len < (s.str ++ behind).length := by
    rw [List.length_append]
    rcases Nat.lt_or_ge s.len s.cap with h | h
    · omega
    · have hne := hb (by omega)
      have : 0 < behind.length := List.length_pos.mpr hne
      omega
  obtain ⟨b, m, e1, e2, e3, e4⟩ := rem_readable { s with str := s.str ++ behind } i hread
    (by show s.len < 2 ^ 32; omega) hi
  obtain ⟨b2, m2, f1, f2⟩ := rem_tail { s with str := s.str ++ behind } i hread
    (by show s.len < 2 ^ 32; omega) hi
  have hm : m2 = m := by
    have := Option.some.inj (f1.symm.trans e1)
    exact congrArg (fun x => x.2.str) this
  subst hm
  rw [hcont] at e2 e4
  refine ⟨b, _, e1, e2, rfl, rfl, e4, ?_, ?_⟩
  · show m2.length = _
    rw [e3]
    show (s.str ++ behind).length = _
    rw [List.length_append, hblock]
  · show m2.drop s.cap = behind
    apply List.ext_getElem?
    intro p
    rw [List.getElem?_drop, f2 (s.cap + p) (by show s.len ≤ _; omega)]
    show (s.str ++ behind)[s.cap + p]? = _
    rw [List.getElem?_append_right (by omega), hblock]
    congr 1; omega

/-- C3, witness: `rem(s, 0)` on `"hello"` (`len` 5, `cap` 20), inside the block, and on
the full block of fifteen bytes `'a'` (`len = cap = 15`) followed in memory by the byte
177. -/
theorem rem_removes_witness :
    (∃ b s1, rem { helloString with str := helloString.str ++ [] } 0 = some (b, s1) ∧
      (content helloString)[0]? = some b ∧ s1.len = helloString.len - 1 ∧
      s1.cap = helloString.cap ∧
      content s1 = (content helloString).take 0 ++ (content helloString).drop (0 + 1) ∧
      s1.str.length = helloString.cap + ([] : List Byte).length ∧
      s1.str.drop helloString.cap = []) ∧
    (∃ b s1, rem { fullString with str := fullString.str ++ [177] } 0 = some (b, s1) ∧
      (content fullString)[0]? = some b ∧ s1.len = fullString.len - 1 ∧
      s1.cap = fullString.cap ∧
      content s1 = (content fullString).take 0 ++ (content fullString).drop (0 + 1) ∧
      s1.str.length = fullString.cap + ([177] : List Byte).length ∧
      s1.str.drop fullString.cap = [177]) :=
  ⟨rem_removes helloString 0 [] (by unfold wf; decide) (by decide) (by decide),
    rem_removes fullString 0 [177] (by unfold wf; decide) (by decide) (by decide)⟩

/-- `concat(s, s)` at work: on `"hello"` (`cap` 20) the content is doubled in place; on a
string of 16 bytes (`cap` 31) the call must reallocate and has no result. -/
theorem concat_self_examples :
    (∃ W1 t, concat_at 1 twoStrings 0 0 = some (CSTRING_SUC, W1) ∧ deref W1 0 = some t ∧
      content t = bytes "hellohello" ∧ t.cap = 20 ∧ t.len = 10) ∧
    (∃ h W s, cstring 2 cstring_init (some (fifteen ++ [97] ++ [0])) = some (h, W) ∧
      deref W h = some s ∧ s.len = 16 ∧ s.cap = 31 ∧
      ∀ fuel, concat_at fuel W h h = none) :=
  ⟨⟨_, _, rfl, rfl, by decide, rfl, rfl⟩,
    ⟨0, _, _, rfl, rfl, rfl, rfl, fun fuel => by cases fuel <;> rfl⟩⟩

theorem struct_at_lt {M : Mem} {h : Nat} {p : pstring} (hs : struct_at M h = some p) :
    h < M.structs.length := by
  unfold struct_at at hs
  rcases Nat.lt_or_ge h M.structs.length with hlt | hge
  · exact hlt
  · rw [List.getElem?_eq_none hge] at hs; cases hs

theorem block_at_lt {M : Mem} {a : Nat} {b : List Byte} (hb : block_at M a = some b) :
    a < M.blocks.length := by
  unfold block_at at hb
  rcases Nat.lt_or_ge a M.blocks.length with hlt | hge
  · exact hlt
  · rw [List.getElem?_eq_none hge] at hb; cases hb

/-- What `look` shows of a structure that lies apart from another. -/
theorem look_of_apart (M : Mem) (h h2 : Nat) (p : pstring) (b : List Byte)
    (ha : Apart M h h2 p b) :
    look M h = some { str := b, cap := p.cap, len := p.len, ind := p.ind } := by
  obtain ⟨_, a1, a2, _⟩ := ha
  simp only [look, a1, a2]

/-- A call through `s->str` on one structure leaves a structure that lies apart as it
is, and the two still lie apart. -/
theorem through_apart {α : Type} (M M2 : Mem) (h h2 : Nat) (p : pstring) (b : List Byte)
    (f : string → Option (α × string)) (r : α) (ha : Apart M h h2 p b)
    (hc : through M h2 f = some (r, M2)) : Apart M2 h h2 p b := by
  obtain ⟨hne, a1, a2, q, a3, a4⟩ := ha
  simp only [through, a3] at hc
  cases hb : block_at M q.str with
  | none => simp [hb] at hc
  | some bq =>
    simp only [hb] at hc
    cases hf : f { str := bq, cap := q.cap, len := q.len, ind := q.ind } with
    | none => simp [hf] at hc
    | some x =>
      obtain ⟨r1, s1⟩ := x
      simp only [hf, Option.some.injEq, Prod.mk.injEq] at hc
      obtain ⟨_, e⟩ := hc
      subst e
      refine ⟨hne, ?_, ?_, { q with cap := s1.cap, len := s1.len, ind := s1.ind }, ?_, a4⟩
      · unfold struct_at at a1 ⊢
        show ((M.structs.set h2 _)[h]?).join = _
        rw [List.getElem?_set_ne (Ne.symm hne)]
        exact a1
      · unfold block_at at a2 ⊢
        show ((M.blocks.set q.str _)[p.str]?).join = _
        rw [List.getElem?_set_ne a4]
        exact a2
      · unfold struct_at
        show ((M.structs.set h2 _)[h2]?).join = _
        rw [List.getElem?_set_self (struct_at_lt a3)]
        rfl

/-- `insert` on one structure leaves a structure that lies apart as it is, and the two
still lie apart: a reallocation gives the first a block that did not exist before. -/
theorem insert_at_apart (h h2 : Nat) (p : pstring) (b : List Byte) (c : List Byte)
    (k : Nat) :
    ∀ (fuel : Nat) (M M2 : Mem) (r : Nat), Apart M h h2 p b →
      insert_at fuel M h2 c k = some (r, M2) → Apart M2 h h2 p b := by
  intro fuel
  induction fuel with
  | zero => intro M M2 r _ hc; simp [insert_at] at hc
  | succ f ih =>
    intro M M2 r ha hc
    have ha0 := ha
    obtain ⟨hne, a1, a2, q, a3, a4⟩ := ha
    rw [insert_at] at hc
    simp only [a3] at hc
    cases hb : block_at M q.str with
    | none => simp [hb] at hc
    | some bq =>
      simp only [hb] at hc
      by_cases hk : k > q.len
      · simp only [hk, if_true, Option.some.injEq, Prod.mk.injEq] at hc
        rw [← hc.2]; exact ha0
      · simp only [hk, if_false] at hc
        cases hs : strlen c with
        | none => simp [hs] at hc
        | some n =>
          simp only [hs] at hc
          by_cases hm : q.cap ≥ u32 (q.len + u32 n)
          · simp only [hm, if_true] at hc
            cases h1 : (if k < q.len then shift_outer k q.len (u32 n) 0 bq else some bq) with
            | none => simp [h1] at hc
            | some m1 =>
              simp only [h1] at hc
              cases h2' : copy_in k c (u32 n) 0 m1 with
              | none => simp [h2'] at hc
              | some m2 =>
                simp only [h2', Option.some.injEq, Prod.mk.injEq] at hc
                obtain ⟨_, e⟩ := hc
                subst e
                refine ⟨hne, ?_, ?_, { q with len := u32 (q.len + u32 n) }, ?_, a4⟩
                · unfold struct_at at a1 ⊢
                  show ((M.structs.set h2 _)[h]?).join = _
                  rw [List.getElem?_set_ne (Ne.symm hne)]
                  exact a1
                · unfold block_at at a2 ⊢
                  show ((M.blocks.set q.str _)[p.str]?).join = _
                  rw [List.getElem?_set_ne a4]
                  exact a2
                · unfold struct_at
                  show ((M.structs.set h2 _)[h2]?).join = _
                  rw [List.getElem?_set_self (struct_at_lt a3)]
                  rfl
          · simp only [hm, if_false] at hc
            cases h1 : copy_old bq q.len 0 (calloc (u32 (u32 (q.len + u32 n) + CSTRING_ALC))) with
            | none => simp [h1] at hc
            | some m =>
              simp only [h1] at hc
              cases h2' : insert_at f
                  { M with blocks := (M.blocks ++ [some m]).set q.str none,
                           structs := M.structs.set h2
                             (some { q with str := M.blocks.length,
                                            cap := u32 (u32 (q.len + u32 n) + CSTRING_ALC) }) }
                  h2 c k with
              | none => simp [h2'] at hc
              | some x =>
                obtain ⟨r1, M3⟩ := x
                simp only [h2', Option.some.injEq, Prod.mk.injEq] at hc
                obtain ⟨_, e⟩ := hc
                subst e
                have hpl := block_at_lt a2
                refine ih _ M3 r1 ⟨hne, ?_, ?_,
                  { q with str := M.blocks.length,
                           cap := u32 (u32 (q.len + u32 n) + CSTRING_ALC) }, ?_, ?_⟩ h2'
                · unfold struct_at at a1 ⊢
                  show ((M.structs.set h2 _)[h]?).join = _
                  rw [List.getElem?_set_ne (Ne.symm hne)]
                  exact a1
                · unfold block_at at a2 ⊢
                  show (((M.blocks ++ [some m]).set q.str none)[p.str]?).join = _
                  rw [List.getElem?_set_ne a4, List.getElem?_append_left hpl]
                  exact a2
                · unfold struct_at
                  show ((M.structs.set h2 _)[h2]?).join = _
                  rw [List.getElem?_set_self (struct_at_lt a3)]
                  rfl
                · show M.blocks.length ≠ p.str
                  omega

/-- What `look` shows of a structure that has just been stored at address `h`. -/
theorem look_set (M : Mem) (h : Nat) (q : pstring) (bl : List (Option (List Byte)))
    (m : List Byte) (hh : h < M.structs.length) (hq : (bl[q.str]?).join = some m) :
    look { M with blocks := bl, structs := M.structs.set h (some q) } h =
      some { str := m, cap := q.cap, len := q.len, ind := q.ind } := by
  have h1 : struct_at { M with blocks := bl, structs := M.structs.set h (some q) } h
      = some q := by
    simp only [struct_at]
    rw [List.getElem?_set_self hh]; rfl
  have h2 : block_at { M with blocks := bl, structs := M.structs.set h (some q) } q.str
      = some m := hq
  simp only [look, h1, h2]

/-- The two embeddings of `insert` agree: a call on the structure at address `h` is the
call of `insert` on what `look` shows there, and `look` shows its result afterwards. -/
theorem insert_at_look (c : List Byte) (k h : Nat) :
    ∀ (fuel : Nat) (M M2 : Mem) (r : Nat), insert_at fuel M h c k = some (r, M2) →
      ∃ s s1, look M h = some s ∧ insert fuel s c k = some (r, s1) ∧
        look M2 h = some s1 := by
  intro fuel
  induction fuel with
  | zero => intro M M2 r hc; simp [insert_at] at hc
  | succ f ih =>
    intro M M2 r hc
    cases hp : struct_at M h with
    | none => simp [insert_at, hp] at hc
    | some p =>
      cases hb : block_at M p.str with
      | none => simp [insert_at, hp, hb] at hc
      | some b =>
        have hlook : look M h = some { str := b, cap := p.cap, len := p.len, ind := p.ind } := by
          simp only [look, hp, hb]
        have hh := struct_at_lt hp
        have ha := block_at_lt hb
        simp only [insert_at, hp, hb] at hc
        by_cases hk : k > p.len
        · rw [if_pos hk] at hc
          have e := Option.some.inj hc
          have e1 : CSTRING_ERR = r := congrArg Prod.fst e
          have e2 : M = M2 := congrArg Prod.snd e
          subst e1; subst e2
          refine ⟨_, _, hlook, ?_, hlook⟩
          simp only [insert]
          rw [if_pos hk]
        · rw [if_neg hk] at hc
          cases hs : strlen c with
          | none => simp [hs] at hc
          | some n =>
            simp only [hs] at hc
            by_cases hcap : p.cap ≥ u32 (p.len + u32 n)
            · rw [if_pos hcap] at hc
              cases h1 : (if k < p.len then shift_outer k p.len (u32 n) 0 b else some b) with
              | none => simp [h1] at hc
              | some m1 =>
                simp only [h1] at hc
                cases h2 : copy_in k c (u32 n) 0 m1 with
                | none => simp [h2] at hc
                | some m2 =>
                  simp only [h2] at hc
                  have e := Option.some.inj hc
                  have e1 : CSTRING_SUC = r := congrArg Prod.fst e
                  have e2 := congrArg Prod.snd e
                  simp only at e2
                  subst e1; subst e2
                  refine ⟨_, { str := m2, cap := p.cap, len := u32 (p.len + u32 n), ind := p.ind },
                    hlook, ?_, ?_⟩
                  · simp only [insert]
                    rw [if_neg hk]
                    simp only [hs]
                    rw [if_pos hcap]
                    simp only [h1, h2]
                  · exact look_set M h { p with len := u32 (p.len + u32 n) } _ m2 hh
                      (by show ((M.blocks.set p.str (some m2))[p.str]?).join = _
                          rw [List.getElem?_set_self ha]; rfl)
            · rw [if_neg hcap] at hc
              cases h1 : copy_old b p.len 0 (calloc (u32 (u32 (p.len + u32 n) + CSTRING_ALC))) with
              | none => simp [h1] at hc
              | some m =>
                simp only [h1] at hc
                cases h2 : insert_at f
                    { M with blocks := (M.blocks ++ [some m]).set p.str none,
                             structs := M.structs.set h
                               (some { p with str := M.blocks.length,
                                              cap := u32 (u32 (p.len + u32 n) + CSTRING_ALC) }) }
                    h c k with
                | none => simp [h2] at hc
                | some x =>
                  obtain ⟨r2, M3⟩ := x
                  simp only [h2] at hc
                  have e := Option.some.inj hc
                  have e1 : CSTRING_SUC = r := congrArg Prod.fst e
                  have e2 : M3 = M2 := congrArg Prod.snd e
                  subst e1; subst e2
                  obtain ⟨s, s1, l1, l2, l3⟩ := ih _ _ _ h2
                  have hl := look_set M h
                    ⟨M.blocks.length, u32 (u32 (p.len + u32 n) + CSTRING_ALC), p.len, p.ind⟩
                    ((M.blocks ++ [some m]).set p.str none) m hh
                    (by show (((M.blocks ++ [some m]).set p.str none)[M.blocks.length]?).join = _
                        rw [List.getElem?_set_ne (by omega),
                          List.getElem?_append_right (Nat.le_refl _)]
                        simp)
                  rw [hl] at l1
                  have es := Option.some.inj l1
                  subst es
                  refine ⟨_, s1, hlook, ?_, l3⟩
                  simp only [insert]
                  rw [if_neg hk]
                  simp only [hs]
                  rw [if_neg hcap]
                  simp only [h1, l2]

/-- A call through `s->str` is the call on what `look` shows, and `look` shows its
result afterwards. -/
theorem through_look {α : Type} (M M2 : Mem) (h : Nat) (f : string → Option (α × string))
    (r : α) (hc : through M h f = some (r, M2)) :
    ∃ s s1, look M h = some s ∧ f s = some (r, s1) ∧ look M2 h = some s1 := by
  cases hp : struct_at M h with
  | none => simp [through, hp] at hc
  | some p =>
    cases hb : block_at M p.str with
    | none => simp [through, hp, hb] at hc
    | some b =>
      have hlook : look M h = some { str := b, cap := p.cap, len := p.len, ind := p.ind } := by
        simp only [look, hp, hb]
      have hh := struct_at_lt hp
      have ha := block_at_lt hb
      simp only [through, hp, hb] at hc
      cases hf : f { str := b, cap := p.cap, len := p.len, ind := p.ind } with
      | none => simp [hf] at hc
      | some x =>
        obtain ⟨r2, s1⟩ := x
        simp only [hf] at hc
        have e := Option.some.inj hc
        have e1 : r2 = r := congrArg Prod.fst e
        have e2 := congrArg Prod.snd e
        simp only at e2
        subst e1; subst e2
        refine ⟨_, s1, hlook, hf, ?_⟩
        exact look_set M h { p with cap := s1.cap, len := s1.len, ind := s1.ind } _ s1.str hh
          (by show ((M.blocks.set p.str (some s1.str))[p.str]?).join = _
              rw [List.getElem?_set_self ha]; rfl)

/-- Calls of `insert`, `set`, `rem` and `clear` on one structure leave a structure that
lies apart as it is. -/
theorem mutated_apart (h h2 : Nat) (p : pstring) (b : List Byte) (M1 M2 : Mem)
    (hm : Mutated h2 M1 M2) (ha : Apart M1 h h2 p b) : Apart M2 h h2 p b := by
  induction hm with
  | refl => exact ha
  | insert Ma Mb fuel c k r _ hc ih => exact insert_at_apart h h2 p b c k fuel Ma Mb r ih hc
  | set Ma Mb i c r _ hc ih => exact through_apart Ma Mb h h2 p b _ r ih hc
  | rem Ma Mb i r _ hc ih => exact through_apart Ma Mb h h2 p b _ r ih hc
  | clear Ma Mb r _ hc ih => exact through_apart Ma Mb h h2 p b _ r ih hc

theorem add_alloc_scan_at_spec (h : Nat) (p : pstring) (t : List (Option Nat)) :
    ∀ (n i : Nat) (M : Mem), M.allocs = some t → i + n ≤ t.length →
      struct_at M h = some p →
      ∃ M1 i1, add_alloc_scan_at h n i M = some M1 ∧ M1.blocks = M.blocks ∧
        M1.structs = M.structs.set h (some { p with ind := i1 }) := by
  intro n
  induction n with
  | zero =>
    intro i M _ _ hd
    refine ⟨M, p.ind, by simp [add_alloc_scan_at], rfl, ?_⟩
    unfold struct_at at hd
    have hlt := struct_at_lt hd
    apply List.ext_getElem?
    intro x
    by_cases hx : h = x
    · subst hx
      rw [List.getElem?_set_self hlt]
      cases hy : M.structs[h]? with
      | none => rw [hy] at hd; cases hd
      | some y => rw [hy] at hd; simp at hd; rw [hd]
    · rw [List.getElem?_set_ne hx]
  | succ n ih =>
    intro i M ht hlen hd
    have hi : i < t.length := by omega
    cases hx : t[i] with
    | some a =>
      obtain ⟨M1, i1, e1, e2, e3⟩ := ih (i + 1) M ht (by omega) hd
      refine ⟨M1, i1, ?_, e2, e3⟩
      simp [add_alloc_scan_at, ht, List.getElem?_eq_getElem hi, hx, e1]
    | none =>
      refine ⟨{ blocks := M.blocks, structs := M.structs.set h (some { p with ind := i }),
                allocs := some (t.set i (some h)),
                max_allocs := M.max_allocs,
                num_allocs := if i > M.num_allocs then i else M.num_allocs }, i, ?_, rfl, rfl⟩
      simp [add_alloc_scan_at, ht, List.getElem?_eq_getElem hi, hx, hd]

/-- `add_alloc` on an allocated table returns after at most one retry; it leaves every
block as it is and changes at most the field `ind` of the structure it is given. -/
theorem add_alloc_at_spec (fuel : Nat) (M : Mem) (h : Nat) (p : pstring) (hreg : MemOK M)
    (hd : struct_at M h = some p) :
    ∃ M1 i1, add_alloc_at (fuel + 2) M h = some M1 ∧ M1.blocks = M.blocks ∧
      M1.structs = M.structs.set h (some { p with ind := i1 }) := by
  obtain ⟨t, ht, hlen, hnum, hmax⟩ := hreg
  have hE : M.max_allocs * CSTRING_EXT = M.max_allocs * 2 := rfl
  by_cases hc : u32 (M.num_allocs + 1) < M.max_allocs
  · obtain ⟨M1, i1, e1, e2, e3⟩ := add_alloc_scan_at_spec h p t M.max_allocs 0 M ht
      (by omega) hd
    exact ⟨M1, i1, by rw [add_alloc_at.eq_2]; simp [hc, e1], e2, e3⟩
  · have hnew : u32 (M.max_allocs * CSTRING_EXT) = M.max_allocs * CSTRING_EXT :=
      u32_of_lt hmax
    obtain ⟨t1, c1, c2⟩ := add_alloc_copy_ok t M.max_allocs 0
      (List.replicate (M.max_allocs * CSTRING_EXT) none) (by omega) (by simp; omega)
    have c2' : t1.length = M.max_allocs * CSTRING_EXT := by simpa using c2
    have hc2 : u32 (M.num_allocs + 1) < M.max_allocs * CSTRING_EXT := by
      rw [u32_of_lt (by omega)]; omega
    obtain ⟨M1, i1, e1, e2, e3⟩ := add_alloc_scan_at_spec h p t1 (M.max_allocs * CSTRING_EXT) 0
      { M with allocs := some t1, max_allocs := M.max_allocs * CSTRING_EXT } rfl (by omega) hd
    refine ⟨M1, i1, ?_, e2, e3⟩
    rw [add_alloc_at.eq_2]
    simp only [hc, if_false, hnew, ht, c1]
    rw [add_alloc_at.eq_2]
    simp only [hc2, if_true, e1]

/-- `cstring` of a zero-free text within the `uint32` range: the new structure is put at
the end of the structures, and it points to a new block at the end of the blocks. -/
theorem cstring_at_spec (fuel : Nat) (M : Mem) (cs rest : List Byte) (hreg : MemOK M)
    (hc : zeroFree cs) (hfit : cs.length + CSTRING_ALC < 2 ^ 32) :
    ∃ M1 i1, cstring_at (fuel + 2) M (some (cs ++ 0 :: rest)) =
        some (M.structs.length, M1) ∧
      M1.blocks = M.blocks ++ [some (cs ++ calloc CSTRING_ALC)] ∧
      M1.structs = M.structs ++ [some { str := M.blocks.length,
                                         cap := CSTRING_ALC + cs.length,
                                         len := cs.length, ind := i1 }] := by
  have hn : u32 cs.length = cs.length := u32_of_lt (by omega)
  have hmem : u32 (CSTRING_ALC + cs.length) = CSTRING_ALC + cs.length :=
    u32_of_lt (by omega)
  have hcp : strncpy (calloc (CSTRING_ALC + cs.length)) (cs ++ 0 :: rest) cs.length =
      some (cs ++ calloc CSTRING_ALC) := by
    rw [strncpy_zeroFree cs (0 :: rest) hc _ (by simp [calloc])]
    simp [calloc]
  obtain ⟨M1, i1, e1, e2, e3⟩ := add_alloc_at_spec fuel
    { M with blocks := M.blocks ++ [some (cs ++ calloc CSTRING_ALC)],
             structs := M.structs ++ [some { str := M.blocks.length,
                                              cap := CSTRING_ALC + cs.length,
                                              len := cs.length, ind := 0 }] }
    M.structs.length { str := M.blocks.length, cap := CSTRING_ALC + cs.length,
                       len := cs.length, ind := 0 } hreg (by simp [struct_at])
  refine ⟨M1, i1, ?_, e2, ?_⟩
  · simp only [cstring_at, strlen_zeroFree cs rest hc, Option.map_some', hn, hmem, hcp, e1]
  · rw [e3]; simp

/-- C6, counterexample: after `cstring("ab")` and `set(s, 0, 0)` the string has length 2;
`copy(s)` returns a string of length 0 whose content differs, because `copy` passes
`s->str` to `cstring`, which measures it with `strlen`. -/
theorem copy_stops_at_zero_byte :
    ∃ h M0 r0 M s h2 M1 t,
      cstring_at 2 mem_init (some (bytes "ab" ++ [0])) = some (h, M0) ∧
      set_at M0 h 0 0 = some (r0, M) ∧ look M h = some s ∧
      copy_at 2 M h = some (h2, M1) ∧ look M1 h2 = some t ∧
      s.len = 2 ∧ t.len = 0 ∧ content t ≠ content s :=
  ⟨0, _, _, _, _, _, _, _, rfl, rfl, rfl, rfl, rfl, rfl, rfl, by decide⟩

/-- C6, as amended: for every string `s` whose content holds no zero byte and whose
storage keeps a zero after the content (`len < cap`, zero past `len`), with
`len + 15 < 2 ^ 32`, in a state whose allocation table is allocated (as in C2), `copy(s)`
returns a new string: a structure at an address that held none before, whose `str`
points to a block that did not exist before, so to another block than `s->str`.  Its
content and `len` are those of `s`; `s` is unchanged, pointer and bytes; and whatever
calls of `insert`, `set`, `rem` and `clear` are made on the copy afterwards, `s` keeps
its pointer, its bytes, its `len` and its `cap`. -/
theorem copy_independent (fuel : Nat) (M : Mem) (h : Nat) (p : pstring) (s : string)
    (hs : struct_at M h = some p) (hl : look M h = some s)
    (hwf : wf s) (hcap : s.len < s.cap) (hp : padded s) (hz : zeroFree (content s))
    (hreg : MemOK M) (hfit : s.len + CSTRING_ALC < 2 ^ 32) :
    ∃ h2 M1 q t, copy_at (fuel + 2) M h = some (h2, M1) ∧
      h2 ≠ h ∧ struct_at M h2 = none ∧ struct_at M1 h2 = some q ∧
      q.str ≠ p.str ∧ block_at M q.str = none ∧
      look M1 h2 = some t ∧ content t = content s ∧ t.len = s.len ∧
      struct_at M1 h = some p ∧ look M1 h = some s ∧
      ∀ M2, Mutated h2 M1 M2 → struct_at M2 h = some p ∧ look M2 h = some s := by
  have hcl := content_length s hwf
  have hhl := struct_at_lt hs
  cases hb : block_at M p.str with
  | none => simp [look, hs, hb] at hl
  | some b =>
    simp only [look, hs, hb, Option.some.injEq] at hl
    have hpl := block_at_lt hb
    obtain ⟨M1, i1, e1, e2, e3⟩ := cstring_at_spec fuel M (content s)
      (s.str.drop (s.len + 1)) hreg hz (by rw [hcl]; exact hfit)
    rw [← str_split s hwf hcap hp] at e1
    have hs1 : struct_at M1 h = some p := by
      unfold struct_at at hs ⊢
      rw [e3, List.getElem?_append_left hhl]
      exact hs
    have hb1 : block_at M1 p.str = some b := by
      unfold block_at at hb ⊢
      rw [e2, List.getElem?_append_left hpl]
      exact hb
    have hq : struct_at M1 M.structs.length =
        some { str := M.blocks.length, cap := CSTRING_ALC + (content s).length,
               len := (content s).length, ind := i1 } := by
      unfold struct_at
      rw [e3, List.getElem?_append_right (Nat.le_refl _)]
      simp
    have hqb : block_at M1 M.blocks.length = some (content s ++ calloc CSTRING_ALC) := by
      unfold block_at
      rw [e2, List.getElem?_append_right (Nat.le_refl _)]
      simp
    have hne : M.blocks.length ≠ p.str := by omega
    have hap : Apart M1 h M.structs.length p b :=
      ⟨by omega, hs1, hb1, _, hq, hne⟩
    have hlook : ∀ M2, Apart M2 h M.structs.length p b → look M2 h = some s := by
      intro M2 ha
      rw [look_of_apart M2 h _ p b ha, ← hl]
    refine ⟨M.structs.length, M1, _,
      { str := content s ++ calloc CSTRING_ALC,
        cap := CSTRING_ALC + (content s).length,
        len := (content s).length, ind := i1 },
      ?_, by omega, ?_, hq, hne, ?_, ?_, ?_, hcl, hs1, hlook M1 hap, ?_⟩
    · have hl0 : look M h = some s := by simp only [look, hs, hb, hl]
      simp only [copy_at, hl0, e1]
    · unfold struct_at
      rw [List.getElem?_eq_none (Nat.le_refl _)]
      rfl
    · unfold block_at
      rw [List.getElem?_eq_none (Nat.le_refl _)]
      rfl
    · simp only [look, hq, hqb]
    · show ((content s) ++ calloc CSTRING_ALC).take (content s).length = content s
      simp
    · intro M2 hm
      have ha := mutated_apart h _ p b M1 M2 hm hap
      exact ⟨ha.2.1, hlook M2 ha⟩

/-- C6, witness: `copy` of `"hello world"`. -/
theorem copy_independent_witness :
    ∃ h2 M1 q t, copy_at 2 helloMem 0 = some (h2, M1) ∧
      h2 ≠ 0 ∧ struct_at helloMem h2 = none ∧ struct_at M1 h2 = some q ∧
      q.str ≠ 0 ∧ block_at helloMem q.str = none ∧
      look M1 h2 = some t ∧ content t = content helloWorldString ∧
      t.len = helloWorldString.len ∧
      struct_at M1 0 = some { str := 0, cap := 26, len := 11, ind := 0 } ∧
      look M1 0 = some helloWorldString ∧
      ∀ M2, Mutated h2 M1 M2 →
        struct_at M2 0 = some { str := 0, cap := 26, len := 11, ind := 0 } ∧
        look M2 0 = some helloWorldString :=
  copy_independent 0 helloMem 0 { str := 0, cap := 26, len := 11, ind := 0 }
    helloWorldString rfl rfl (by unfold wf; decide) (by decide)
    (by unfold padded; decide) (by unfold zeroFree; decide)
    ⟨_, rfl, by decide, by decide, by decide⟩
    (Nat.lt_of_lt_of_le (show _ < 100 by decide) (by norm_num))

/-- The state `helloMem` is what `cstring` builds from program start, and on it a `set`
on the copy changes the copy and not the original. -/
theorem helloMem_built :
    cstring_at 2 mem_init (some (bytes "hello world" ++ [0])) = some (0, helloMem) ∧
    ∃ M1 r M2 t, copy_at 2 helloMem 0 = some (1, M1) ∧
      set_at M1 1 0 72 = some (r, M2) ∧ look M2 1 = some t ∧
      content t = bytes "Hello world" ∧ look M2 0 = some helloWorldString :=
  ⟨rfl, _, _, _, _, rfl, rfl, rfl, by decide, rfl⟩

end Cstring
